import Mathlib

/-!
# IPCounter: a shallow embedding of `pkg/IPCounter` and its verification

The Go package counts the distinct IPv4 addresses of a separator-delimited
text file.  This file embeds its functions as executable Lean definitions and
proves properties of them.

Modelling conventions

* A byte is a natural number below 256; a byte slice is a `List Nat`.
* Go's `uint8` / `uint32` arithmetic is written on `Nat` with an explicit
  `% 256` / `% 2 ^ 32` wherever the Go operation can wrap.
* `int64` quantities (offsets, sizes, counters) are unbounded `Int` / `Nat`;
  no operation of the package comes near `2 ^ 63` for a real file.
* A Go function returning `(value, error)` returns a pair whose second
  component is `Option Error` (`none` is the `nil` error).
* A run-time panic (integer division by zero, index out of range) is the
  `Except.error` branch of `Except Panic _`.
* A loop whose number of iterations is not known in advance takes a `fuel`
  argument and returns `none` when the fuel runs out.
-/

namespace IPCounterPkg

/-! ## Errors and panics -/

/-- The error values the package can return. -/
inductive Error where
  /-- `fmt.Errorf("byte too short: ...")` of `asciNumbersToUint8`. -/
  | byteTooShort
  /-- `fmt.Errorf("byte too long: ...")` of `asciNumbersToUint8`. -/
  | byteTooLong
  /-- `fmt.Errorf("wrong byte: ...")` of `asciNumbersToUint8`. -/
  | wrongByte
  /-- `fmt.Errorf("incorrect ip address: ...")`, a byte that is neither digit nor dot. -/
  | incorrectByte
  /-- `fmt.Errorf("incorrect ip address ...")`, a leading zero. -/
  | leadingZero
  /-- `fmt.Errorf("ip4 bytes not correct in ip address ... %w", err)`. -/
  | octet (cause : Error)
  /-- `fmt.Errorf("ip4 bytes not correct: ...")`, the number of octets is not four. -/
  | notFourOctets
  /-- `ctx.Err()` of a cancelled context. -/
  | canceled
  /-- The error `io.EOF`. -/
  | eof
  /-- A failed read other than `io.EOF`. -/
  | io
  /-- The error of `os.Open`. -/
  | openFailed
  /-- The error of `file.Stat`. -/
  | statFailed
  /-- The error of `file.Close`. -/
  | closeFailed
  /-- `errors.Join(nil, second)`: a join error holding one error. -/
  | joinOne (second : Error)
  /-- `errors.Join(first, second)` of two non-nil errors. -/
  | join (first second : Error)
  deriving DecidableEq, Repr

/-- The run-time panics the package can raise. -/
inductive Panic where
  /-- Integer division by zero. -/
  | divideByZero
  /-- Slice or array index out of range. -/
  | indexOutOfRange
  /-- `make` with a negative length or capacity. -/
  | makeNegative
  deriving DecidableEq, Repr

/-- Equality of `Except` values is decidable. -/
instance decEqExcept {ε α : Type} [DecidableEq ε] [DecidableEq α] : DecidableEq (Except ε α)
  | Except.ok a, Except.ok b =>
    if h : a = b then isTrue (congrArg Except.ok h)
    else isFalse (fun h1 => h (Except.ok.inj h1))
  | Except.error a, Except.error b =>
    if h : a = b then isTrue (congrArg Except.error h)
    else isFalse (fun h1 => h (Except.error.inj h1))
  | Except.ok _, Except.error _ => isFalse (fun h => Except.noConfusion h)
  | Except.error _, Except.ok _ => isFalse (fun h => Except.noConfusion h)

/-- The bytes of an ASCII string literal. -/
def bytesOf (s : String) : List Nat := s.toList.map Char.toNat

/-! ## Go standard library functions used by the package

`bytes.TrimSpace` with the helpers it calls (`bytes.TrimFunc`,
`unicode.IsSpace`, `utf8.DecodeRune`, `utf8.DecodeLastRune`), and `sort.Slice`
with the `less` of `ip4SortCount`. -/

/-- The table `asciiSpace` of package `bytes`: tab, newline, vertical tab,
form feed, carriage return and space. -/
def isAsciiSpace (c : Nat) : Bool :=
  c = 9 || c = 10 || c = 11 || c = 12 || c = 13 || c = 32

/-- Go `unicode.IsSpace`. -/
def unicodeIsSpace (r : Nat) : Bool :=
  if r ≤ 0xFF then
    r = 9 || r = 10 || r = 11 || r = 12 || r = 13 || r = 32 || r = 0x85 || r = 0xA0
  else
    r = 0x1680 || (0x2000 ≤ r && r ≤ 0x200A) || r = 0x2028 || r = 0x2029 || r = 0x202F
      || r = 0x205F || r = 0x3000

/-- The rune `utf8.RuneError`. -/
def runeError : Nat := 0xFFFD

/-- Go `utf8.DecodeRune`: the first rune of `p` and its width in bytes; an
invalid or truncated encoding gives `(RuneError, 1)`. -/
def decodeRune (p : List Nat) : Nat × Nat :=
  match p with
  | [] => (runeError, 0)
  | p0 :: t =>
    if p0 < 0x80 then (p0, 1)
    else if p0 < 0xC2 ∨ 0xF4 < p0 then (runeError, 1)
    else
      let sz := if p0 < 0xE0 then 2 else if p0 < 0xF0 then 3 else 4
      let lo := if p0 = 0xE0 then 0xA0 else if p0 = 0xF0 then 0x90 else 0x80
      let hi := if p0 = 0xED then 0x9F else if p0 = 0xF4 then 0x8F else 0xBF
      if p.length < sz then (runeError, 1)
      else
        let b1 := t.getD 0 0
        if b1 < lo ∨ hi < b1 then (runeError, 1)
        else if sz ≤ 2 then (((p0 &&& 0x1F) <<< 6) ||| (b1 &&& 0x3F), 2)
        else
          let b2 := t.getD 1 0
          if b2 < 0x80 ∨ 0xBF < b2 then (runeError, 1)
          else if sz ≤ 3 then
            (((p0 &&& 0x0F) <<< 12) ||| ((b1 &&& 0x3F) <<< 6) ||| (b2 &&& 0x3F), 3)
          else
            let b3 := t.getD 2 0
            if b3 < 0x80 ∨ 0xBF < b3 then (runeError, 1)
            else
              (((p0 &&& 0x07) <<< 18) ||| ((b1 &&& 0x3F) <<< 12) ||| ((b2 &&& 0x3F) <<< 6)
                ||| (b3 &&& 0x3F), 4)

/-- The backward search of `utf8.DecodeLastRune` for the start of the last
rune: from `start`, at most `n` steps down to `lim`, stopping at a byte that is
not a continuation byte.  The result is an `Int` because the Go loop can leave
`start` at `lim - 1`. -/
def lastRuneStart (p : List Nat) (lim : Int) : Nat → Int → Int
  | 0, start => start
  | n + 1, start =>
    if start < lim then start
    else if p.getD start.toNat 0 &&& 0xC0 ≠ 0x80 then start
    else lastRuneStart p lim n (start - 1)

/-- Go `utf8.DecodeLastRune`: the last rune of `p` and its width. -/
def decodeLastRune (p : List Nat) : Nat × Nat :=
  let stop := p.length
  if stop = 0 then (runeError, 0)
  else
    let r := p.getD (stop - 1) 0
    if r < 0x80 then (r, 1)
    else
      let lim : Int := if (stop : Int) - 4 < 0 then 0 else (stop : Int) - 4
      let start0 := lastRuneStart p lim 4 ((stop : Int) - 2)
      let start := if start0 < 0 then 0 else start0.toNat
      let (r, size) := decodeRune ((p.drop start).take (stop - start))
      if start + size ≠ stop then (runeError, 1) else (r, size)

/-- The loop of `bytes.indexFunc` with `f = unicode.IsSpace`: the index of the
first rune at or after `start` whose `IsSpace` value is `truth`; `none` is the
Go result `-1`.  The first argument bounds the number of iterations, and
`s.length` of them always suffice since every rune is at least one byte wide. -/
def indexFunc (truth : Bool) (s : List Nat) : Nat → Nat → Option Nat
  | 0, _ => none
  | fuel + 1, start =>
    if start < s.length then
      let r0 := s.getD start 0
      let rw := if 0x80 ≤ r0 then decodeRune (s.drop start) else (r0, 1)
      if unicodeIsSpace rw.1 = truth then some start
      else indexFunc truth s fuel (start + rw.2)
    else none

/-- The loop of `bytes.lastIndexFunc` with `f = unicode.IsSpace`, from the
index `i` downwards; `none` is the Go result `-1`. -/
def lastIndexFunc (truth : Bool) (s : List Nat) : Nat → Nat → Option Nat
  | 0, _ => none
  | fuel + 1, i =>
    if 0 < i then
      let r0 := s.getD (i - 1) 0
      let rw := if 0x80 ≤ r0 then decodeLastRune (s.take i) else (r0, 1)
      if unicodeIsSpace rw.1 = truth then some (i - rw.2)
      else lastIndexFunc truth s fuel (i - rw.2)
    else none

/-- Go `bytes.TrimLeftFunc(s, unicode.IsSpace)`. -/
def trimLeftFunc (s : List Nat) : List Nat :=
  match indexFunc false s s.length 0 with
  | none => []
  | some i => s.drop i

/-- Go `bytes.TrimRightFunc(s, unicode.IsSpace)`. -/
def trimRightFunc (s : List Nat) : List Nat :=
  match lastIndexFunc false s s.length s.length with
  | none => s.take 0
  | some i =>
    if 0x80 ≤ s.getD i 0 then s.take (i + (decodeRune (s.drop i)).2)
    else s.take (i + 1)

/-- Go `bytes.TrimFunc(s, unicode.IsSpace)`. -/
def trimFunc (s : List Nat) : List Nat :=
  trimRightFunc (trimLeftFunc s)

/-- The second loop of `bytes.TrimSpace`, on the reversed slice `s[start:]`:
drop ASCII space from the end, and fall back to `TrimFunc` on a byte that is
not ASCII. -/
def trimSpaceEnd : List Nat → List Nat
  | [] => []
  | c :: r =>
    if 0x80 ≤ c then trimFunc (c :: r).reverse
    else if isAsciiSpace c then trimSpaceEnd r
    else (c :: r).reverse

/-- Go `bytes.TrimSpace`: the first loop drops ASCII space from the front and
falls back to `TrimFunc` on a byte that is not ASCII. -/
def TrimSpace : List Nat → List Nat
  | [] => []
  | c :: s =>
    if 0x80 ≤ c then trimFunc (c :: s)
    else if isAsciiSpace c then TrimSpace s
    else trimSpaceEnd (c :: s).reverse

/-- Insertion of one value into an ascending list. -/
def sortedInsert (x : Nat) : List Nat → List Nat
  | [] => [x]
  | y :: ys => if x ≤ y then x :: y :: ys else y :: sortedInsert x ys

/-- Go `sort.Slice(ips, func(i, j int) bool { return ips[i] < ips[j] })`: the
slice put in ascending order.  The ascending arrangement of a slice of numbers
is unique, so every sorting algorithm gives this result. -/
def sortSlice : List Nat → List Nat
  | [] => []
  | x :: xs => sortedInsert x (sortSlice xs)

/-! ## utils.go -/

/-- Go `asciNumbersToUint8`: the guard on the size and on a three-byte value
above `255`, then the digit loop with `uint8` arithmetic. -/
def asciNumbersToUint8 (bytes : List Nat) : Nat × Option Error :=
  let size := bytes.length
  if size = 0 then (0, some Error.byteTooShort)
  else if size > 3 ∨ (size = 3 ∧ (bytes.getD 0 0 > 50 ∨ (bytes.getD 0 0 = 50 ∧
      (bytes.getD 1 0 > 53 ∨ (bytes.getD 1 0 = 53 ∧ bytes.getD 2 0 > 53))))) then
    (0, some Error.byteTooLong)
  else
    let rec loop : List Nat → Nat → Nat × Option Error
      | [], num => (num, none)
      | b :: bs, num =>
        if b < 48 ∨ b > 57 then (0, some Error.wrongByte)
        else loop bs (((num * 10) % 256 + b + 256 - 48) % 256)
    loop bytes 0

/-- The loop state of `ip4BytesToUint32`: the octet index `j`, the number `k`
of bytes in the scratch array, the key built so far and the scratch array
`octet [4]byte`. -/
structure Ip4State where
  /-- The `uint8` octet counter. -/
  j : Nat
  /-- The `uint8` fill level of `octet`. -/
  k : Nat
  /-- The `uint32` key. -/
  ip32 : Nat
  /-- The scratch array `[4]byte`. -/
  octet : List Nat
  deriving DecidableEq, Repr

/-- How the `for` loop of `ip4BytesToUint32` ends. -/
inductive Ip4Exit where
  /-- A `return 0, err` inside the loop. -/
  | returned (err : Error)
  /-- The loop ended, by `break` or by exhausting the input, in this state. -/
  | done (st : Ip4State)
  deriving DecidableEq, Repr

/-- The `for i := 0; i < length; i++` loop of `ip4BytesToUint32` over the
bytes not yet visited; `i == length-1` holds exactly when no byte follows. -/
def ip4Loop : List Nat → Ip4State → Ip4Exit
  | [], st => Ip4Exit.done st
  | c :: rest, st =>
    let isLast : Bool := rest.isEmpty
    if c ≠ 46 ∧ (c < 48 ∨ c > 57) then Ip4Exit.returned Error.incorrectByte
    else if (c ≠ 46 ∨ isLast) ∧ st.k = 4 then Ip4Exit.done { st with j := 0 }
    else
      let st1 : Ip4State :=
        if c ≠ 46 ∨ isLast then { st with octet := st.octet.set st.k c, k := st.k + 1 } else st
      if c = 46 ∨ isLast then
        if st1.k > 1 ∧ st1.octet.getD 0 0 = 48 then Ip4Exit.returned Error.leadingZero
        else
          match asciNumbersToUint8 (st1.octet.take st1.k) with
          | (_, some e) => Ip4Exit.returned (Error.octet e)
          | (valUint8, none) =>
            let shift := (24 + 256 - (st1.j * 8) % 256) % 256
            let ip32 := st1.ip32 ||| ((valUint8 <<< shift) % 2 ^ 32)
            if st1.j > 4 then Ip4Exit.done { st1 with ip32 := ip32 }
            else ip4Loop rest { st1 with ip32 := ip32, j := st1.j + 1, k := 0 }
      else ip4Loop rest st1

/-- Go `ip4BytesToUint32`: trim, run the loop, and accept only `j == 4`. -/
def ip4BytesToUint32 (ipBytes : List Nat) : Nat × Option Error :=
  match ip4Loop (TrimSpace ipBytes) { j := 0, k := 0, ip32 := 0, octet := [0, 0, 0, 0] } with
  | Ip4Exit.returned e => (0, some e)
  | Ip4Exit.done st => if st.j ≠ 4 then (0, some Error.notFourOctets) else (st.ip32, none)

/-- The state of a `context.Context` as the run sees it: `none` is a context
that is never cancelled, `some n` one whose next `n` checks find it live and
every later check finds it cancelled (`some 0` is already cancelled). -/
abbrev Ctx := Option Nat

/-- Go `checkContext`: `ctx.Err()` when the context is done, `nil` otherwise. -/
def checkContext (ctx : Ctx) : Option Error :=
  match ctx with
  | some 0 => some Error.canceled
  | _ => none

/-- The context as the next check will see it. -/
def Ctx.next (ctx : Ctx) : Ctx := ctx.map Nat.pred

/-- Go `ip4SortCount`: `0` for the empty slice, otherwise sort and count the
positions whose value differs from the one before, the first position
included. -/
def ip4SortCount (ips : List Nat) : Nat :=
  if ips.length = 0 then 0
  else
    let rec countRuns : List Nat → Nat → Nat
      | a :: b :: t, uniqueCount =>
        countRuns (b :: t) (if b ≠ a then uniqueCount + 1 else uniqueCount)
      | _, uniqueCount => uniqueCount
    countRuns (sortSlice ips) 1

/-! ## The environment of a run -/

/-- What the run does not control: the context, and which reads fail.
`readAtFaults` has one entry per `ReadAt` call, `true` for a call that fails
with an error other than `io.EOF`; `readFaults` has one entry per `ReadBytes`
call, `some n` for a call whose underlying `Read` fails after `n` more bytes
of the current record were buffered.  Calls beyond the end of a list
succeed. -/
structure Env where
  /-- The context. -/
  ctx : Ctx
  /-- The failures of the positioned reads, in call order. -/
  readAtFaults : List Bool
  /-- The failures of the buffered sequential reads, in call order. -/
  readFaults : List (Option Nat)
  deriving DecidableEq, Repr

/-- The environment without cancellation and without read failures. -/
def Env.quiet : Env := { ctx := none, readAtFaults := [], readFaults := [] }

/-- Go `os.File.ReadAt(buffer, off)` on a file with the given content and no
failure: the bytes from `off` are copied over the front of the buffer, the
rest of the buffer keeps its old bytes, and the error is `io.EOF` exactly when
fewer than `len(buffer)` bytes were read.  A negative offset is an error. -/
def readAtOk (content buffer : List Nat) (off : Int) : List Nat × Nat × Option Error :=
  if off < 0 then (buffer, 0, some Error.io)
  else
    let data := (content.drop off.toNat).take buffer.length
    (data ++ buffer.drop data.length, data.length,
      if data.length < buffer.length then some Error.eof else none)

/-- One `ReadAt` call in the environment: a scheduled failure reads nothing
and returns an error other than `io.EOF`. -/
def readAt (env : Env) (content buffer : List Nat) (off : Int) :
    (List Nat × Nat × Option Error) × Env :=
  match env.readAtFaults with
  | true :: fs => ((buffer, 0, some Error.io), { env with readAtFaults := fs })
  | false :: fs => (readAtOk content buffer off, { env with readAtFaults := fs })
  | [] => (readAtOk content buffer off, env)

/-- The retry loop around `ReadAt` shared by `getPositions` and
`goroutineReader`, `for j := 0; j < 3; j++`, with `attempts = 3 - j` tries
left: stop at the first result whose error is `nil` or `io.EOF`; the result of
the third try is kept whatever it is (the caller returns its error). -/
def readAtRetry (content : List Nat) (off : Int) :
    Nat → Env → List Nat → Nat → Option Error → (List Nat × Nat × Option Error) × Env
  | 0, env, buffer, n, err => ((buffer, n, err), env)
  | attempts + 1, env, buffer, _, _ =>
    match readAt env content buffer off with
    | ((buffer1, n1, err1), env1) =>
      if err1 = none ∨ err1 = some Error.eof then ((buffer1, n1, err1), env1)
      else readAtRetry content off attempts env1 buffer1 n1 err1

/-- Go `bufio.Reader.ReadBytes(delim)` on the unread bytes of the file, no
failure: the bytes up to and including the first `delim`, or all of them with
`io.EOF` when there is none. -/
def readBytesOk (delim : Nat) : List Nat → List Nat × Option Error × List Nat
  | [] => ([], some Error.eof, [])
  | b :: rest =>
    if b = delim then ([b], none, rest)
    else
      match readBytesOk delim rest with
      | (line, err, rest1) => (b :: line, err, rest1)

/-- One `ReadBytes` call in the environment.  A scheduled failure `some n`
returns the (at most `n`) bytes buffered before the failure, none of them the
delimiter, together with an error other than `io.EOF`; these bytes are
consumed. -/
def readBytes (env : Env) (delim : Nat) (rest : List Nat) :
    (List Nat × Option Error × List Nat) × Env :=
  match env.readFaults with
  | some n :: fs =>
    let m := min n (rest.takeWhile (fun b => b ≠ delim)).length
    ((rest.take m, some Error.io, rest.drop m), { env with readFaults := fs })
  | none :: fs => (readBytesOk delim rest, { env with readFaults := fs })
  | [] => (readBytesOk delim rest, env)

/-- The retry loop around `ReadBytes` in `ip4SequentialReader`, with
`attempts = 3 - j` tries left. -/
def readBytesRetry (delim : Nat) :
    Nat → Env → List Nat → List Nat → Option Error →
      (List Nat × Option Error × List Nat) × Env
  | 0, env, rest, line, err => ((line, err, rest), env)
  | attempts + 1, env, rest, _, _ =>
    match readBytes env delim rest with
    | ((line1, err1, rest1), env1) =>
      if err1 = none ∨ err1 = some Error.eof then ((line1, err1, rest1), env1)
      else readBytesRetry delim attempts env1 rest1 line1 err1

/-! ## ipcounter.go -/

/-- Go `maxLengthIp4 = net.IPv4len * 4`. -/
def maxLengthIp4 : Nat := 16

/-- Go `struct IPCounter`; `file` is the content of the open file. -/
structure IPCounter where
  /-- The content of the file behind the `fileReader`. -/
  file : List Nat
  /-- The recorded size of the file. -/
  fileSize : Int
  /-- The worker count. -/
  maxGoroutines : Int
  /-- The record separator. -/
  lineBreak : Nat
  deriving DecidableEq, Repr

/-- Go `NewIPCounter`. -/
def NewIPCounter (maxGoroutines : Int) (lineBreak : Nat) : IPCounter :=
  { maxGoroutines := maxGoroutines, lineBreak := lineBreak, fileSize := 0, file := [] }

/-- Go `GetMaxGoroutines`. -/
def IPCounter.GetMaxGoroutines (ip : IPCounter) : Int := ip.maxGoroutines

/-- Go `GetFileSize`. -/
def IPCounter.GetFileSize (ip : IPCounter) : Int := ip.fileSize

/-- The `for j := len(buffer) - 1; j > -1; j--` loop of `correctOffset`, over
the buffer read backwards. -/
def correctOffsetLoop (lineBreak : Nat) : List Nat → Int → Int
  | [], offset => offset
  | b :: before, offset =>
    if b = lineBreak then offset else correctOffsetLoop lineBreak before (offset - 1)

/-- Go `correctOffset`: the new value of `*offset`. -/
def correctOffset (ip : IPCounter) (offset : Int) (buffer : List Nat) : Int :=
  if buffer.length > 0 ∧ buffer.getD (buffer.length - 1) 0 ≠ ip.lineBreak then
    correctOffsetLoop ip.lineBreak buffer.reverse offset
  else offset

/-- The bitset step written out in both readers: byte index `ip32 >> 3`, bit
`ip32 & 7`; when the bit is unset, set it and increment the count.  `size` is
the length of the byte slice, and an index beyond it panics. -/
def bitsetInsert (size : Nat) (ips : Nat → Nat) (uniqueCount : Nat) (ip32 : Nat) :
    Except Panic ((Nat → Nat) × Nat) :=
  let index := ip32 >>> 3
  let byteIndex := ip32 &&& 7
  if size ≤ index then Except.error Panic.indexOutOfRange
  else if ips index &&& ((1 <<< byteIndex) % 256) = 0 then
    Except.ok (Function.update ips index (ips index ||| ((1 <<< byteIndex) % 256)),
      uniqueCount + 1)
  else Except.ok (ips, uniqueCount)

/-- Go `UniqueIP6`, the placeholder that returns `0, nil`. -/
def UniqueIP6 : Nat × Option Error := (0, none)

/-- The state of the `for` loop of `ip4SequentialReader`. -/
structure SeqState where
  /-- The environment. -/
  env : Env
  /-- The bytes of the file the buffered reader has not returned yet. -/
  rest : List Nat
  /-- The bitset `ipsWithIndex`. -/
  ipsWithIndex : Nat → Nat
  /-- The buffer `ipsWithOutIndex`. -/
  ipsWithOutIndex : List Nat
  /-- The counter `uniqueCount`. -/
  uniqueCount : Nat

/-- The block `if len(line) > 0 { ... }` of the loop of `ip4SequentialReader`:
strip the trailing separator, parse, and on success store the key, in the
bitset when `capacity == 0` and in the buffer otherwise.  The result is the
dedup store (bitset, buffer, counter) after the block. -/
def storeLine (lineBreak : Nat) (capacity : Int) (bitsetLen : Nat) (line : List Nat)
    (ipsWithIndex : Nat → Nat) (ipsWithOutIndex : List Nat) (uniqueCount : Nat) :
    Except Panic ((Nat → Nat) × List Nat × Nat) :=
  if line.length > 0 then
    let line1 :=
      if line.getD (line.length - 1) 0 = lineBreak then line.take (line.length - 1) else line
    match ip4BytesToUint32 line1 with
    | (ip32, none) =>
      if capacity = 0 then
        match bitsetInsert bitsetLen ipsWithIndex uniqueCount ip32 with
        | Except.error p => Except.error p
        | Except.ok (ips, count) => Except.ok (ips, ipsWithOutIndex, count)
      else Except.ok (ipsWithIndex, ipsWithOutIndex ++ [ip32], uniqueCount)
    | (_, some _) => Except.ok (ipsWithIndex, ipsWithOutIndex, uniqueCount)
  else Except.ok (ipsWithIndex, ipsWithOutIndex, uniqueCount)

/-- The `for` loop of `ip4SequentialReader` followed by the statements after
it.  `bitsetLen` is the length of `ipsWithIndex` (`0` when it is nil).  The
result is `none` when the fuel runs out. -/
def seqLoop (lineBreak : Nat) (capacity : Int) (bitsetLen : Nat) :
    Nat → SeqState → Option (Except Panic (Nat × Option Error))
  | 0, _ => none
  | fuel + 1, st =>
    match checkContext st.env.ctx with
    | some _ => some (Except.ok (0, some Error.canceled))
    | none =>
      match readBytesRetry lineBreak 3 { st.env with ctx := st.env.ctx.next } st.rest [] none with
      | ((line, err, rest1), env1) =>
        if err ≠ none ∧ err ≠ some Error.eof then some (Except.ok (0, err))
        else
          match storeLine lineBreak capacity bitsetLen line st.ipsWithIndex st.ipsWithOutIndex
            st.uniqueCount with
          | Except.error p => some (Except.error p)
          | Except.ok (ips, buffered, count) =>
            if err = some Error.eof then
              some (Except.ok
                (if buffered.length > 0 then ip4SortCount buffered else count, none))
            else
              seqLoop lineBreak capacity bitsetLen fuel
                { env := env1, rest := rest1, ipsWithIndex := ips,
                  ipsWithOutIndex := buffered, uniqueCount := count }

/-- Go `ip4SequentialReader`.  The size of the `bufio` buffer (`chunkSize`)
does not change what `ReadBytes` returns and is left out. -/
def ip4SequentialReader (ip : IPCounter) (env : Env) (fuel : Nat) :
    Option (Except Panic (Nat × Option Error)) :=
  let mb512 : Int := (256 * 256 * 256 * 256) / 8
  let capacity : Int :=
    if ip.fileSize ≤ mb512 then
      if Int.tdiv ip.fileSize 8 = 0 then ip.fileSize else Int.tdiv ip.fileSize 8
    else 0
  if ip.fileSize ≤ mb512 ∧ capacity < 0 then some (Except.error Panic.makeNegative)
  else
    let bitsetLen : Nat := if ip.fileSize ≤ mb512 then 0 else mb512.toNat
    seqLoop ip.lineBreak capacity bitsetLen fuel
      { env := env, rest := ip.file, ipsWithIndex := fun _ => 0, ipsWithOutIndex := [],
        uniqueCount := 0 }

/-- Go `getGoroutinesCount`; `cores` is `runtime.GOMAXPROCS(0)`, and
`int64(float64(cores) * 1.5)` is `3 * cores / 2`. -/
def getGoroutinesCount (ip : IPCounter) (cores : Nat) : Except Panic Int :=
  let fileSize := ip.fileSize
  let chunkSize : Int :=
    if fileSize < 1073741824 then fileSize
    else if fileSize ≤ 10737418240 then 104857600
    else 1073741824
  if chunkSize = 0 then Except.error Panic.divideByZero
  else
    let need0 := Int.tdiv fileSize chunkSize
    let need1 := if need0 = 0 then 1 else need0
    let maxGoroutine := ip.GetMaxGoroutines
    let need2 := if need1 > maxGoroutine ∧ maxGoroutine > 0 then maxGoroutine else need1
    let maxCores : Int := ((3 * cores / 2 : Nat) : Int)
    Except.ok (if need2 > maxCores then maxCores else need2)

/-- The state of the `for` loop of `getPositions`. -/
structure PosState where
  /-- The environment. -/
  env : Env
  /-- The running `offset`. -/
  offset : Int
  /-- The lookahead buffer. -/
  buffer : List Nat
  /-- The offsets appended so far. -/
  offsets : List Int
  deriving DecidableEq, Repr

/-- The `for i = 0; i < maxGoroutine; i++` loop of `getPositions` with
`remaining` iterations left, and the `return` after it. -/
def positionsLoop (ip : IPCounter) (wordMaxLen : Nat) (chunkSize : Int) :
    Nat → Int → PosState → (List Int × Option Error) × Env
  | 0, _, st => ((st.offsets, none), st.env)
  | remaining + 1, i, st =>
    match checkContext st.env.ctx with
    | some e => (([], some e), st.env)
    | none =>
      let offset0 := st.offset + chunkSize
      let offset1 :=
        if i = ip.GetMaxGoroutines - 1 ∨ offset0 > ip.fileSize then ip.fileSize else offset0
      match readAtRetry ip.file offset1 3 { st.env with ctx := st.env.ctx.next } st.buffer 0 none
      with
      | ((buffer1, _, err), env1) =>
        if err ≠ none ∧ err ≠ some Error.eof then (([], err), env1)
        else
          let isEndFile : Bool := err = some Error.eof
          let offset2 :=
            if ¬ isEndFile then correctOffset ip (offset1 + wordMaxLen) buffer1 else offset1
          let offsets := st.offsets ++ [offset2]
          if isEndFile then ((offsets, none), env1)
          else
            positionsLoop ip wordMaxLen chunkSize remaining (i + 1)
              { env := env1, offset := offset2, buffer := buffer1, offsets := offsets }

/-- Go `getPositions`. -/
def getPositions (ip : IPCounter) (env : Env) (wordMaxLen : Nat) :
    Except Panic ((List Int × Option Error) × Env) :=
  let maxGoroutine := ip.GetMaxGoroutines
  if maxGoroutine = 0 then Except.error Panic.divideByZero
  else if maxGoroutine < 0 then Except.error Panic.makeNegative
  else
    Except.ok (positionsLoop ip wordMaxLen (Int.tdiv ip.fileSize maxGoroutine)
      maxGoroutine.toNat 0
      { env := env, offset := 0, buffer := List.replicate wordMaxLen 0, offsets := [] })

/-- The variables of `goroutineReader` that its inner loop changes. -/
structure ScanState where
  /-- The scratch buffer `str`. -/
  str : List Nat
  /-- The fill level `k` of `str`. -/
  k : Nat
  /-- The remaining byte budget `maxBytes`. -/
  maxBytes : Int
  /-- The records sent on the channel so far, oldest first. -/
  sent : List (List Nat)
  deriving DecidableEq, Repr

/-- The `for i = 0; i < maxSize; i++` loop of `goroutineReader` with
`remaining` iterations left; the `break` on `maxBytes == 0` ends it early. -/
def scanLoop (lineBreak : Nat) (buffer : List Nat) (maxSize : Int) :
    Nat → Int → ScanState → Except Panic ScanState
  | 0, _, st => Except.ok st
  | remaining + 1, i, st =>
    if buffer.length ≤ i.toNat then Except.error Panic.indexOutOfRange
    else
      let b := buffer.getD i.toNat 0
      let stepped : Except Panic ScanState :=
        if b = lineBreak ∨ i = maxSize - 1 then
          if st.k > 0 then Except.ok { st with sent := st.sent ++ [st.str.take st.k], k := 0 }
          else Except.ok st
        else if b ≠ 32 then
          if st.str.length ≤ st.k then Except.error Panic.indexOutOfRange
          else Except.ok { st with str := st.str.set st.k b, k := st.k + 1 }
        else Except.ok st
      match stepped with
      | Except.error p => Except.error p
      | Except.ok st1 =>
        if st1.maxBytes - 1 = 0 then Except.ok { st1 with maxBytes := st1.maxBytes - 1 }
        else scanLoop lineBreak buffer maxSize remaining (i + 1)
          { st1 with maxBytes := st1.maxBytes - 1 }

/-- The state of the `for maxBytes > 0` loop of `goroutineReader`. -/
structure WorkerState where
  /-- The environment. -/
  env : Env
  /-- The read offset. -/
  offset : Int
  /-- The block buffer. -/
  buffer : List Nat
  /-- The scanning variables. -/
  scan : ScanState
  deriving DecidableEq, Repr

/-- The `for maxBytes > 0` loop of `goroutineReader` and the `return nil`
after it: the returned error, the records sent, and the environment.  The
result is `none` when the fuel runs out. -/
def workerLoop (ip : IPCounter) (chunkSize : Int) :
    Nat → WorkerState → Option (Except Panic ((Option Error × List (List Nat)) × Env))
  | 0, _ => none
  | fuel + 1, st =>
    if st.scan.maxBytes > 0 then
      match checkContext st.env.ctx with
      | some e => some (Except.ok ((some e, st.scan.sent), st.env))
      | none =>
        match readAtRetry ip.file st.offset 3 { st.env with ctx := st.env.ctx.next }
          st.buffer 0 none with
        | ((buffer1, bytesRead, err), env1) =>
          if err ≠ none ∧ err ≠ some Error.eof then
            some (Except.ok ((err, st.scan.sent), env1))
          else
            let beforeOffset := st.offset + chunkSize
            let offset1 := correctOffset ip beforeOffset buffer1
            let bytesRead64 : Int := bytesRead
            let maxSize : Int :=
              if bytesRead64 < chunkSize then bytesRead64
              else if bytesRead64 - (beforeOffset - offset1) ≤ 0 then bytesRead64
              else bytesRead64 - (beforeOffset - offset1)
            match scanLoop ip.lineBreak buffer1 maxSize maxSize.toNat 0 st.scan with
            | Except.error p => some (Except.error p)
            | Except.ok scan1 =>
              if err = some Error.eof then some (Except.ok ((none, scan1.sent), env1))
              else
                workerLoop ip chunkSize fuel
                  { env := env1, offset := offset1, buffer := buffer1, scan := scan1 }
    else some (Except.ok ((none, st.scan.sent), st.env))

/-- Go `goroutineReader`: its returned error and the records it sends on the
channel, in order. -/
def goroutineReader (ip : IPCounter) (env : Env) (offset limit : Int) (wordMaxLen64 : Nat)
    (fuel : Nat) : Option (Except Panic ((Option Error × List (List Nat)) × Env)) :=
  let maxBytes := limit - offset
  let chunkSize : Int := if maxBytes > 65536 then 65536 else maxBytes
  if chunkSize < 0 then some (Except.error Panic.makeNegative)
  else
    workerLoop ip chunkSize fuel
      { env := env, offset := offset, buffer := List.replicate chunkSize.toNat 0,
        scan := { str := List.replicate wordMaxLen64 0, k := 0, maxBytes := maxBytes,
                  sent := [] } }

/-- The workers of `ip4multipleReaders`, run one after the other in the order
of their partitions (one of the schedules of the `errgroup`; the count does
not depend on the order in which records reach the channel).  `prev` is the
start of the next partition, `firstErr` the error `errsGroup.Wait()` returns;
after a worker has failed the group context is cancelled. -/
def runWorkers (ip : IPCounter) (fuel : Nat) :
    List Int → Int → Env → Option Error → List (List Nat) →
      Option (Except Panic ((Option Error × List (List Nat)) × Env))
  | [], _, env, firstErr, sent => some (Except.ok ((firstErr, sent), env))
  | position :: positions, prev, env, firstErr, sent =>
    match goroutineReader ip env prev position maxLengthIp4 fuel with
    | none => none
    | some (Except.error p) => some (Except.error p)
    | some (Except.ok ((err, records), env1)) =>
      match firstErr, err with
      | none, some e =>
        runWorkers ip fuel positions position { env1 with ctx := some 0 } (some e)
          (sent ++ records)
      | _, _ => runWorkers ip fuel positions position env1 firstErr (sent ++ records)

/-- The consumer loop `for v := range ch` of `ip4multipleReaders`. -/
def consume : List (List Nat) → (Nat → Nat) → Nat → Except Panic ((Nat → Nat) × Nat)
  | [], ips, uniqueCount => Except.ok (ips, uniqueCount)
  | v :: records, ips, uniqueCount =>
    match ip4BytesToUint32 v with
    | (_, some _) => consume records ips uniqueCount
    | (ip32, none) =>
      match bitsetInsert ((256 * 256 * 256 * 256) / 8) ips uniqueCount ip32 with
      | Except.error p => Except.error p
      | Except.ok (ips1, count1) => consume records ips1 count1

/-- Go `ip4multipleReaders`. -/
def ip4multipleReaders (ip : IPCounter) (env : Env) (fuel : Nat) :
    Option (Except Panic ((Nat × Option Error) × Env)) :=
  match getPositions ip env maxLengthIp4 with
  | Except.error p => some (Except.error p)
  | Except.ok ((_, some err), env1) => some (Except.ok ((0, some err), env1))
  | Except.ok ((positions, none), env1) =>
    match runWorkers ip fuel positions 0 env1 none [] with
    | none => none
    | some (Except.error p) => some (Except.error p)
    | some (Except.ok ((err, sent), env2)) =>
      match consume sent (fun _ => 0) 0 with
      | Except.error p => some (Except.error p)
      | Except.ok (_, uniqueCount) => some (Except.ok ((uniqueCount, err), env2))

/-- The file system as `UniqueIP4` sees it at `path`. -/
structure OsFile where
  /-- The content of the file. -/
  content : List Nat
  /-- The size `Stat` reports. -/
  size : Int
  /-- The error of `os.Open`, if any. -/
  openErr : Option Error
  /-- The error of `Stat`, if any. -/
  statErr : Option Error
  /-- The error of `Close`, if any. -/
  closeErr : Option Error
  deriving DecidableEq, Repr

/-- Go `getFileSize`. -/
def getFileSize (f : OsFile) : Int × Option Error :=
  match f.statErr with
  | some e => (0, some e)
  | none => (f.size, none)

/-- The deferred function of `UniqueIP4`: the value it assigns to the local
variable `err`.  `UniqueIP4` has unnamed results, so its `return` statements
have already fixed the returned error when this runs. -/
def deferredClose (f : OsFile) (err : Option Error) : Option Error :=
  match f.closeErr, err with
  | some closeErr, none => some (Error.joinOne closeErr)
  | some closeErr, some e => some (Error.join e closeErr)
  | none, _ => err

/-- Go `UniqueIP4`: the returned count and error, and the receiver after the
call.  `cores` is `runtime.GOMAXPROCS(0)`. -/
def UniqueIP4 (ip : IPCounter) (env : Env) (cores : Nat) (f : OsFile) (fuel : Nat) :
    Option (Except Panic ((Nat × Option Error) × IPCounter)) :=
  match checkContext env.ctx with
  | some err => some (Except.ok ((0, some err), ip))
  | none =>
    let env1 : Env := { env with ctx := env.ctx.next }
    match f.openErr with
    | some openErr => some (Except.ok ((0, some openErr), ip))
    | none =>
      match getFileSize f with
      | (_, some sizeErr) => some (Except.ok ((0, some sizeErr), ip))
      | (size, none) =>
        let ip1 : IPCounter := { ip with file := f.content, fileSize := size }
        match getGoroutinesCount ip1 cores with
        | Except.error p => some (Except.error p)
        | Except.ok count =>
          let ip2 : IPCounter := { ip1 with maxGoroutines := count }
          if ip2.maxGoroutines > 1 then
            match ip4multipleReaders ip2 env1 fuel with
            | none => none
            | some (Except.error p) => some (Except.error p)
            | some (Except.ok ((uniqueCount, err), _)) =>
              let _closed := deferredClose f err
              some (Except.ok ((uniqueCount, err), ip2))
          else
            match ip4SequentialReader ip2 env1 fuel with
            | none => none
            | some (Except.error p) => some (Except.error p)
            | some (Except.ok (uniqueCount, err)) =>
              let _closed := deferredClose f err
              some (Except.ok ((uniqueCount, err), ip2))

/-! ## The readers with what they consumed -/

/-- The `for` loop of `ip4SequentialReader` followed by the statements after
it, as in `seqLoop`, keeping next to the returned pair what the run has
consumed: the environment at the return (the read failures still pending and
the context as the next check will see it) and the bytes of the file the
buffered reader has not returned. -/
def seqLoopTrace (lineBreak : Nat) (capacity : Int) (bitsetLen : Nat) :
    Nat → SeqState → Option (Except Panic ((Nat × Option Error) × Env × List Nat))
  | 0, _ => none
  | fuel + 1, st =>
    match checkContext st.env.ctx with
    | some _ => some (Except.ok ((0, some Error.canceled), st.env, st.rest))
    | none =>
      match readBytesRetry lineBreak 3 { st.env with ctx := st.env.ctx.next } st.rest [] none with
      | ((line, err, rest1), env1) =>
        if err ≠ none ∧ err ≠ some Error.eof then some (Except.ok ((0, err), env1, rest1))
        else
          match storeLine lineBreak capacity bitsetLen line st.ipsWithIndex st.ipsWithOutIndex
            st.uniqueCount with
          | Except.error p => some (Except.error p)
          | Except.ok (ips, buffered, count) =>
            if err = some Error.eof then
              some (Except.ok
                ((if buffered.length > 0 then ip4SortCount buffered else count, none), env1,
                  rest1))
            else
              seqLoopTrace lineBreak capacity bitsetLen fuel
                { env := env1, rest := rest1, ipsWithIndex := ips,
                  ipsWithOutIndex := buffered, uniqueCount := count }

/-- Go `ip4SequentialReader`, as in `ip4SequentialReader`, with the
environment at the return and the unread bytes of the file. -/
def ip4SequentialReaderTrace (ip : IPCounter) (env : Env) (fuel : Nat) :
    Option (Except Panic ((Nat × Option Error) × Env × List Nat)) :=
  let mb512 : Int := (256 * 256 * 256 * 256) / 8
  let capacity : Int :=
    if ip.fileSize ≤ mb512 then
      if Int.tdiv ip.fileSize 8 = 0 then ip.fileSize else Int.tdiv ip.fileSize 8
    else 0
  if ip.fileSize ≤ mb512 ∧ capacity < 0 then some (Except.error Panic.makeNegative)
  else
    let bitsetLen : Nat := if ip.fileSize ≤ mb512 then 0 else mb512.toNat
    seqLoopTrace ip.lineBreak capacity bitsetLen fuel
      { env := env, rest := ip.file, ipsWithIndex := fun _ => 0, ipsWithOutIndex := [],
        uniqueCount := 0 }

/-- Go `UniqueIP4`, as in `UniqueIP4`, with the environment at the return.
The file is opened, and attached to the receiver, only after the first check
of the context. -/
def UniqueIP4Trace (ip : IPCounter) (env : Env) (cores : Nat) (f : OsFile) (fuel : Nat) :
    Option (Except Panic (((Nat × Option Error) × IPCounter) × Env)) :=
  match checkContext env.ctx with
  | some err => some (Except.ok (((0, some err), ip), env))
  | none =>
    let env1 : Env := { env with ctx := env.ctx.next }
    match f.openErr with
    | some openErr => some (Except.ok (((0, some openErr), ip), env1))
    | none =>
      match getFileSize f with
      | (_, some sizeErr) => some (Except.ok (((0, some sizeErr), ip), env1))
      | (size, none) =>
        let ip1 : IPCounter := { ip with file := f.content, fileSize := size }
        match getGoroutinesCount ip1 cores with
        | Except.error p => some (Except.error p)
        | Except.ok count =>
          let ip2 : IPCounter := { ip1 with maxGoroutines := count }
          if ip2.maxGoroutines > 1 then
            match ip4multipleReaders ip2 env1 fuel with
            | none => none
            | some (Except.error p) => some (Except.error p)
            | some (Except.ok ((uniqueCount, err), env2)) =>
              let _closed := deferredClose f err
              some (Except.ok (((uniqueCount, err), ip2), env2))
          else
            match ip4SequentialReaderTrace ip2 env1 fuel with
            | none => none
            | some (Except.error p) => some (Except.error p)
            | some (Except.ok ((uniqueCount, err), env2, _)) =>
              let _closed := deferredClose f err
              some (Except.ok (((uniqueCount, err), ip2), env2))

/-- The returned value of a run, without what the run consumed. -/
def returned {α β : Type} (r : Option (Except Panic (α × β))) : Option (Except Panic α) :=
  match r with
  | none => none
  | some (Except.error p) => some (Except.error p)
  | some (Except.ok (a, _)) => some (Except.ok a)

/-! ## Specification-side definitions -/

/-- The decimal value of a digit string. -/
def octetValue (g : List Nat) : Nat := g.foldl (fun n b => n * 10 + (b - 48)) 0

/-- One to three ASCII digits of value at most 255. -/
structure IsOctetDigits (g : List Nat) : Prop where
  /-- At least one byte. -/
  one_le : 1 ≤ g.length
  /-- At most three bytes. -/
  le_three : g.length ≤ 3
  /-- Every byte is an ASCII digit. -/
  digits : ∀ b ∈ g, 48 ≤ b ∧ b ≤ 57
  /-- The value is at most 255. -/
  value_le : octetValue g ≤ 255

/-- A well-formed octet group: one to three ASCII digits of value at most 255,
not starting with `0` when it has more than one digit. -/
def IsOctet (g : List Nat) : Prop :=
  IsOctetDigits g ∧ (1 < g.length → g.head? ≠ some 48)

/-- Exactly four well-formed octet groups separated by single dots. -/
def IsDottedQuad (s : List Nat) : Prop :=
  ∃ g1 g2 g3 g4, s = g1 ++ 46 :: (g2 ++ 46 :: (g3 ++ 46 :: g4)) ∧
    IsOctet g1 ∧ IsOctet g2 ∧ IsOctet g3 ∧ IsOctet g4

/-- The decimal digits of a number below 1000, without leading zeros. -/
def decimalDigits (n : Nat) : List Nat :=
  if n < 10 then [48 + n]
  else if n < 100 then [48 + n / 10, 48 + n % 10]
  else [48 + n / 100, 48 + n / 10 % 10, 48 + n % 10]

/-- The text of the address `a.b.c.d`: the four octets in decimal as
`Nat.repr` writes them, joined by dots. -/
def dottedQuad (a b c d : Nat) : List Nat :=
  bytesOf (Nat.repr a) ++ 46 :: (bytesOf (Nat.repr b) ++ 46 :: (bytesOf (Nat.repr c) ++
    46 :: bytesOf (Nat.repr d)))

/-- The key of the address `a.b.c.d`. -/
def keyOf (a b c d : Nat) : Nat := a * 2 ^ 24 + b * 2 ^ 16 + c * 2 ^ 8 + d

/-- The rest `t` of the current group followed by the further groups, each
behind a dot. -/
def joinDots (t : List Nat) (gs : List (List Nat)) : List Nat :=
  t ++ (gs.map (fun g => 46 :: g)).flatten

/-- The key after the groups `gs` have been merged in, starting at octet `j`. -/
def foldKey : Nat → Nat → List (List Nat) → Nat
  | _, acc, [] => acc
  | j, acc, g :: gs => foldKey (j + 1) (acc ||| (octetValue g <<< (24 - 8 * j)) % 2 ^ 32) gs

/-- The statements of the body of `ip4Loop` from the leading-zero test on,
for the state `st1` after the byte was stored. -/
def closeGroup (st1 : Ip4State) (rest : List Nat) : Ip4Exit :=
  if st1.k > 1 ∧ st1.octet.getD 0 0 = 48 then Ip4Exit.returned Error.leadingZero
  else
    match asciNumbersToUint8 (st1.octet.take st1.k) with
    | (_, some e) => Ip4Exit.returned (Error.octet e)
    | (valUint8, none) =>
      let shift := (24 + 256 - (st1.j * 8) % 256) % 256
      let ip32 := st1.ip32 ||| ((valUint8 <<< shift) % 2 ^ 32)
      if st1.j > 4 then Ip4Exit.done { st1 with ip32 := ip32 }
      else ip4Loop rest { st1 with ip32 := ip32, j := st1.j + 1, k := 0 }

/-- The state after `octet[k] = c; k++`. -/
def pushByte (st : Ip4State) (c : Nat) : Ip4State :=
  { st with octet := st.octet.set st.k c, k := st.k + 1 }

/-- The bitset step of both readers run over a sequence of keys. -/
def bitsetInsertAll (size : Nat) :
    List Nat → (Nat → Nat) → Nat → Except Panic ((Nat → Nat) × Nat)
  | [], ips, uniqueCount => Except.ok (ips, uniqueCount)
  | ip32 :: keys, ips, uniqueCount =>
    match bitsetInsert size ips uniqueCount ip32 with
    | Except.error p => Except.error p
    | Except.ok (ips1, count1) => bitsetInsertAll size keys ips1 count1

/-- The count the bitset steps end with, started from the all-zero bitset of
`2^32 / 8` bytes and count 0. -/
def bitsetCount (keys : List Nat) : Except Panic Nat :=
  match bitsetInsertAll ((256 * 256 * 256 * 256) / 8) keys (fun _ => 0) 0 with
  | Except.error p => Except.error p
  | Except.ok (_, uniqueCount) => Except.ok uniqueCount

/-- The bit of key `k` is set in `ips` exactly for the keys of `S`. -/
def BitsetHolds (ips : Nat → Nat) (S : Finset Nat) : Prop :=
  ∀ k, (ips (k >>> 3)).testBit (k &&& 7) = true ↔ k ∈ S

/-- The key of a record, when it parses. -/
def parseKey (record : List Nat) : Option Nat :=
  match ip4BytesToUint32 record with
  | (ip32, none) => some ip32
  | (_, some _) => none

/-- The keys of a file content: the content cut at every separator byte, the
separator dropped, and every non-empty record parsed; records that do not
parse give no key. -/
def keysOf (sep : Nat) (content : List Nat) : List Nat :=
  ((content.splitOn sep).filter (fun r => r ≠ [])).filterMap parseKey

/-- The dedup store of `ip4SequentialReader` after the keys were stored. -/
def storeKeys (capacity : Int) (bitsetLen : Nat) (keys : List Nat)
    (s : (Nat → Nat) × List Nat × Nat) : Except Panic ((Nat → Nat) × List Nat × Nat) :=
  if capacity = 0 then
    match bitsetInsertAll bitsetLen keys s.1 s.2.2 with
    | Except.error p => Except.error p
    | Except.ok (ips1, count1) => Except.ok (ips1, s.2.1, count1)
  else Except.ok (s.1, s.2.1 ++ keys, s.2.2)

/-- The statements of `ip4SequentialReader` after its loop. -/
def seqFinish (r : Except Panic ((Nat → Nat) × List Nat × Nat)) :
    Option (Except Panic (Nat × Option Error)) :=
  match r with
  | Except.error p => some (Except.error p)
  | Except.ok (_, buffered, count) =>
    some (Except.ok (if buffered.length > 0 then ip4SortCount buffered else count, none))

/-- Every run of consecutive non-separator bytes of the content is shorter
than `n`: each window of `n` consecutive bytes holds a separator. -/
def NoLongRun (sep n : Nat) (content : List Nat) : Prop :=
  ∀ i, i < content.length + 1 - n → sep ∈ (content.drop i).take n

/-- The property `NoLongRun` can be computed. -/
instance decNoLongRun (sep n : Nat) (content : List Nat) : Decidable (NoLongRun sep n content) :=
  Nat.decidableBallLT _ _

/-- The offset `p` is at least 1 and the byte of the content at index `p - 1`
is the separator. -/
def AfterSeparator (sep : Nat) (content : List Nat) (p : Int) : Prop :=
  1 ≤ p ∧ content[(p - 1).toNat]? = some sep

/-- The content of the temporary file of `TestGetPositions`, 77 bytes. -/
def testFileContent : List Nat :=
  bytesOf "192.168.0.1\n192.168.0.2\n192.168.0.3\n\n\n192.168.0.3\n\n\n192.168.0.3\n\n192.168.0.3\n"

/-- The chunk size the policy divides the file size by: the file size itself
below 1 GiB, 100 MiB up to 10 GiB, 1 GiB above. -/
def policyChunk (S : Int) : Int :=
  if S < 1073741824 then S else if S ≤ 10737418240 then 104857600 else 1073741824

/-- The number of bytes of the buffer that follow its last separator, all of
them when the buffer holds no separator. -/
def bytesAfterLastSeparator (sep : Nat) (buffer : List Nat) : Nat :=
  (buffer.reverse.takeWhile (fun b => b ≠ sep)).length

/-- The part of `utf8.DecodeRune` after the first byte has given the width
`sz` and the accepted range `lo..hi` of the second byte. -/
def decodeTail (p0 : Nat) (t : List Nat) (sz lo hi : Nat) : Nat × Nat :=
  if (p0 :: t).length < sz then (runeError, 1)
  else
    let b1 := t.getD 0 0
    if b1 < lo ∨ hi < b1 then (runeError, 1)
    else if sz ≤ 2 then (((p0 &&& 0x1F) <<< 6) ||| (b1 &&& 0x3F), 2)
    else
      let b2 := t.getD 1 0
      if b2 < 0x80 ∨ 0xBF < b2 then (runeError, 1)
      else if sz ≤ 3 then
        (((p0 &&& 0x0F) <<< 12) ||| ((b1 &&& 0x3F) <<< 6) ||| (b2 &&& 0x3F), 3)
      else
        let b3 := t.getD 2 0
        if b3 < 0x80 ∨ 0xBF < b3 then (runeError, 1)
        else
          (((p0 &&& 0x07) <<< 18) ||| ((b1 &&& 0x3F) <<< 12) ||| ((b2 &&& 0x3F) <<< 6)
            ||| (b3 &&& 0x3F), 4)


/-- The records of a byte range, in the words of the specification: the range
cut at every separator byte, the space bytes of each piece removed, and the
empty pieces left out. -/
def recordsOf (sep : Nat) (seg : List Nat) : List (List Nat) :=
  ((seg.splitOn sep).map (fun r => r.filter (fun b => b ≠ 32))).filter (fun r => r ≠ [])

/-- The records a left-to-right scan completes: `acc` holds the non-space
bytes since the last separator, and a record is complete at its separator. -/
def scanRecords (sep : Nat) : List Nat → List Nat → List (List Nat)
  | [], _ => []
  | c :: rest, acc =>
    if c = sep then (if acc = [] then [] else [acc]) ++ scanRecords sep rest []
    else if c ≠ 32 then scanRecords sep rest (acc ++ [c])
    else scanRecords sep rest acc

/-- The scratch buffer of `cap` bytes, filled up to `k`, is never written past
its end while the bytes are scanned. -/
def RecordsFit (sep cap : Nat) : List Nat → Nat → Prop
  | [], _ => True
  | c :: rest, k =>
    if c = sep then RecordsFit sep cap rest 0
    else if c ≠ 32 then k < cap ∧ RecordsFit sep cap rest (k + 1)
    else RecordsFit sep cap rest k

/-- One iteration of the scanning loop of `goroutineReader` on a byte that is
not the last of the block and fits the scratch buffer. -/
def scanStep (sep : Nat) (st : ScanState) (c : Nat) : ScanState :=
  if c = sep then
    if st.k > 0 then
      { st with sent := st.sent ++ [st.str.take st.k], k := 0, maxBytes := st.maxBytes - 1 }
    else { st with maxBytes := st.maxBytes - 1 }
  else if c ≠ 32 then
    { st with str := st.str.set st.k c, k := st.k + 1, maxBytes := st.maxBytes - 1 }
  else { st with maxBytes := st.maxBytes - 1 }

/-- The value of `capacity` after the initialisation of `ip4SequentialReader`:
an eighth of the file size, or the file size when that is 0, for a file of at
most `2^29` bytes, and 0 for a larger file. -/
def seqCapacity (fileSize : Int) : Int :=
  if fileSize ≤ (256 * 256 * 256 * 256) / 8 then
    if Int.tdiv fileSize 8 = 0 then fileSize else Int.tdiv fileSize 8
  else 0

/-- The length of the bitset `ipsWithIndex` after the initialisation of
`ip4SequentialReader`: 0 (a nil slice) for a file of at most `2^29` bytes,
`2^29` for a larger file. -/
def seqBitsetLen (fileSize : Int) : Nat :=
  if fileSize ≤ (256 * 256 * 256 * 256) / 8 then 0
  else ((256 * 256 * 256 * 256) / 8 : Int).toNat

/-- The keys the block `if len(line) > 0 { ... }` stores for a line: the key
of the line without its trailing separator when it parses, none otherwise. -/
def lineKeys (sep : Nat) (line : List Nat) : List Nat :=
  if line.length > 0 then
    (parseKey (if line.getD (line.length - 1) 0 = sep then line.take (line.length - 1)
      else line)).toList
  else []
/-! ## The address codec -/

theorem ascii_two (a b : Nat) :
    asciNumbersToUint8 [a, b] = if (48 ≤ a ∧ a ≤ 57) ∧ (48 ≤ b ∧ b ≤ 57) then ((a - 48) * 10 + (b - 48), none) else (0, some Error.wrongByte) := by
  simp only [asciNumbersToUint8, asciNumbersToUint8.loop]
  simp
  by_cases ha : a < 48 ∨ 57 < a
  · rw [if_pos ha, if_neg (by omega)]
  · rw [if_neg ha]
    by_cases hb : b < 48 ∨ 57 < b
    · rw [if_pos hb, if_neg (by omega)]
    · rw [if_neg hb, if_pos (by omega)]
      congr 1
      omega

theorem ascii_three (a b c : Nat) :
    asciNumbersToUint8 [a, b, c] =
      if (a > 50 ∨ (a = 50 ∧ (b > 53 ∨ (b = 53 ∧ c > 53)))) then (0, some Error.byteTooLong)
      else if (48 ≤ a ∧ a ≤ 57) ∧ (48 ≤ b ∧ b ≤ 57) ∧ (48 ≤ c ∧ c ≤ 57) then
        ((a - 48) * 100 + (b - 48) * 10 + (c - 48), none) else (0, some Error.wrongByte) := by
  simp only [asciNumbersToUint8, asciNumbersToUint8.loop]
  simp
  by_cases hg : (a > 50 ∨ (a = 50 ∧ (b > 53 ∨ (b = 53 ∧ c > 53))))
  · rw [if_pos hg, if_pos hg]
  · rw [if_neg hg, if_neg hg]
    by_cases ha : a < 48 ∨ 57 < a
    · rw [if_pos ha, if_neg (by omega)]
    · rw [if_neg ha]
      by_cases hb : b < 48 ∨ 57 < b
      · rw [if_pos hb, if_neg (by omega)]
      · rw [if_neg hb]
        by_cases hc : c < 48 ∨ 57 < c
        · rw [if_pos hc, if_neg (by omega)]
        · rw [if_neg hc, if_pos (by omega)]
          congr 1
          omega

theorem ascii_one (a : Nat) :
    asciNumbersToUint8 [a] =
      if 48 ≤ a ∧ a ≤ 57 then (a - 48, none) else (0, some Error.wrongByte) := by
  simp only [asciNumbersToUint8, asciNumbersToUint8.loop]
  simp
  by_cases ha : a < 48 ∨ 57 < a
  · rw [if_pos ha, if_neg (by omega)]
  · rw [if_neg ha, if_pos (by omega)]
    congr 1
    omega

theorem ascii_ok (g : List Nat) (h : IsOctetDigits g) :
    asciNumbersToUint8 g = (octetValue g, none) := by
  obtain ⟨h1, h3, hd, hv⟩ := h
  match g, h1, h3, hd, hv with
  | [a], _, _, hd, hv =>
    have ha := hd a (by simp)
    rw [ascii_one, if_pos ha]
    simp [octetValue]
  | [a, b], _, _, hd, hv =>
    have ha := hd a (by simp)
    have hb := hd b (by simp)
    rw [ascii_two, if_pos ⟨ha, hb⟩]
    simp [octetValue]
  | [a, b, c], _, _, hd, hv =>
    have ha := hd a (by simp)
    have hb := hd b (by simp)
    have hc := hd c (by simp)
    simp [octetValue] at hv
    rw [ascii_three, if_neg (by omega), if_pos ⟨ha, hb, hc⟩]
    simp [octetValue]
    omega

theorem ascii_err (g : List Nat) (h : ¬ IsOctetDigits g) :
    ∃ e, asciNumbersToUint8 g = (0, some e) := by
  match g, h with
  | [], _ => exact ⟨Error.byteTooShort, by simp [asciNumbersToUint8]⟩
  | [a], h =>
    rw [ascii_one]
    by_cases ha : 48 ≤ a ∧ a ≤ 57
    · exfalso; apply h
      refine ⟨by simp, by simp, by simpa using ha, ?_⟩
      simp [octetValue]; omega
    · rw [if_neg ha]; exact ⟨_, rfl⟩
  | [a, b], h =>
    rw [ascii_two]
    by_cases hab : (48 ≤ a ∧ a ≤ 57) ∧ (48 ≤ b ∧ b ≤ 57)
    · exfalso; apply h
      refine ⟨by simp, by simp, ?_, ?_⟩
      · intro x hx
        simp at hx
        rcases hx with hx | hx <;> rw [hx] <;> omega
      · simp [octetValue]; omega
    · rw [if_neg hab]; exact ⟨_, rfl⟩
  | [a, b, c], h =>
    rw [ascii_three]
    by_cases hg : (a > 50 ∨ (a = 50 ∧ (b > 53 ∨ (b = 53 ∧ c > 53))))
    · rw [if_pos hg]; exact ⟨_, rfl⟩
    · rw [if_neg hg]
      by_cases habc : (48 ≤ a ∧ a ≤ 57) ∧ (48 ≤ b ∧ b ≤ 57) ∧ (48 ≤ c ∧ c ≤ 57)
      · exfalso; apply h
        refine ⟨by simp, by simp, ?_, ?_⟩
        · intro x hx
          simp at hx
          rcases hx with hx | hx | hx <;> rw [hx] <;> omega
        · simp [octetValue]; omega
      · rw [if_neg habc]; exact ⟨_, rfl⟩
  | a :: b :: c :: d :: t, _ =>
    exact ⟨Error.byteTooLong, by simp [asciNumbersToUint8]⟩

theorem take_set_succ (l : List Nat) (k c : Nat) (h : k < l.length) :
    (l.set k c).take (k + 1) = l.take k ++ [c] := by
  induction l generalizing k with
  | nil => simp at h
  | cons a l ih =>
    cases k with
    | zero => simp
    | succ k => simp at h; simp [ih k h]

theorem getD_zero_set (l : List Nat) (k c : Nat) (h : k < l.length) :
    (l.set k c).getD 0 0 = ((l.take k ++ [c]).head?).getD 0 := by
  cases l with
  | nil => simp at h
  | cons a l => cases k <;> simp


theorem ip4Loop_dot (st : Ip4State) (b : Nat) (r : List Nat) :
    ip4Loop (46 :: b :: r) st = closeGroup st (b :: r) := by
  rw [ip4Loop]
  simp [closeGroup]

theorem ip4Loop_digit (st : Ip4State) (c b : Nat) (r : List Nat) (hc : 48 ≤ c ∧ c ≤ 57) :
    ip4Loop (c :: b :: r) st =
      if st.k = 4 then Ip4Exit.done { st with j := 0 } else ip4Loop (b :: r) (pushByte st c) := by
  rw [ip4Loop]
  have h1 : ¬ (c < 48 ∨ c > 57) := by omega
  have h2 : c ≠ 46 := by omega
  simp [h1, h2, pushByte]

theorem ip4Loop_last (st : Ip4State) (c : Nat) (hc : c = 46 ∨ (48 ≤ c ∧ c ≤ 57)) :
    ip4Loop [c] st =
      if st.k = 4 then Ip4Exit.done { st with j := 0 } else closeGroup (pushByte st c) [] := by
  rw [ip4Loop]
  have h1 : ¬ (c ≠ 46 ∧ (c < 48 ∨ c > 57)) := by omega
  simp [h1, pushByte, closeGroup]

theorem ip4Loop_bad (st : Ip4State) (c : Nat) (r : List Nat) (hc : c ≠ 46 ∧ (c < 48 ∨ c > 57)) :
    ip4Loop (c :: r) st = Ip4Exit.returned Error.incorrectByte := by
  rw [ip4Loop]
  simp [hc]

theorem IsOctet_length_pos {g : List Nat} (h : IsOctet g) : g ≠ [] := by
  intro h0; have := h.1.one_le; simp [h0] at this

theorem closeGroup_ok (st1 : Ip4State) (rest : List Nat) (hk : st1.k ≤ st1.octet.length)
    (h : IsOctet (st1.octet.take st1.k)) :
    closeGroup st1 rest =
      if st1.j > 4 then
        Ip4Exit.done { st1 with ip32 := st1.ip32 |||
          ((octetValue (st1.octet.take st1.k) <<< ((24 + 256 - (st1.j * 8) % 256) % 256)) % 2 ^ 32) }
      else
        ip4Loop rest { st1 with
          ip32 := st1.ip32 |||
            ((octetValue (st1.octet.take st1.k) <<< ((24 + 256 - (st1.j * 8) % 256) % 256)) % 2 ^ 32),
          j := st1.j + 1, k := 0 } := by
  unfold closeGroup
  have hz : ¬ (st1.k > 1 ∧ st1.octet.getD 0 0 = 48) := by
    rintro ⟨h1, h2⟩
    apply h.2
    · simp; omega
    · cases hoct : st1.octet with
      | nil => rw [hoct] at hk; simp at hk; omega
      | cons a l =>
        rw [hoct] at h2
        cases hkk : st1.k with
        | zero => omega
        | succ n => simp at h2; simp [h2]
  rw [if_neg hz, ascii_ok _ h.1]

theorem closeGroup_err (st1 : Ip4State) (rest : List Nat) (_hk : st1.k ≤ st1.octet.length)
    (h : ¬ IsOctet (st1.octet.take st1.k)) :
    ∃ e, closeGroup st1 rest = Ip4Exit.returned e := by
  unfold closeGroup
  by_cases hz : st1.k > 1 ∧ st1.octet.getD 0 0 = 48
  · rw [if_pos hz]; exact ⟨_, rfl⟩
  · rw [if_neg hz]
    by_cases hd : IsOctetDigits (st1.octet.take st1.k)
    · exfalso
      apply h
      refine ⟨hd, ?_⟩
      intro hlen hhead
      apply hz
      simp at hlen
      refine ⟨by omega, ?_⟩
      cases hoct : st1.octet with
      | nil => rw [hoct] at hlen; simp at hlen
      | cons a l =>
        rw [hoct] at hhead
        cases hkk : st1.k with
        | zero => omega
        | succ n => rw [hkk] at hhead; simp at hhead; simp [hhead]
    · obtain ⟨e, he⟩ := ascii_err _ hd
      rw [he]
      exact ⟨_, rfl⟩

theorem pushByte_take (st : Ip4State) (c : Nat) (h : st.k < st.octet.length) :
    (pushByte st c).octet.take (pushByte st c).k = st.octet.take st.k ++ [c] := by
  simp [pushByte, take_set_succ _ _ _ h]

theorem joinDots_nil_cons (g : List Nat) (gs : List (List Nat)) :
    joinDots [] (g :: gs) = 46 :: joinDots g gs := by
  simp [joinDots]

theorem joinDots_cons (c : Nat) (t : List Nat) (gs : List (List Nat)) :
    joinDots (c :: t) gs = c :: joinDots t gs := by
  simp [joinDots]

theorem ip4Loop_backward (rest : List Nat) : ∀ (st st' : Ip4State), st.octet.length = 4 → st.k ≤ 4 →
    rest ≠ [] → ip4Loop rest st = Ip4Exit.done st' → st'.j = 4 →
    ∃ t gs, rest = joinDots t gs ∧ IsOctet (st.octet.take st.k ++ t) ∧ (∀ g ∈ gs, IsOctet g) ∧
      st.j + 1 + gs.length = 4 := by
  induction rest with
  | nil => intro st st' _ _ h; exact absurd rfl h
  | cons c r ih =>
    intro st st' hlen hk _ hrun hj
    by_cases hbad : c ≠ 46 ∧ (c < 48 ∨ c > 57)
    · rw [ip4Loop_bad st c r hbad] at hrun; cases hrun
    have hc : c = 46 ∨ (48 ≤ c ∧ c ≤ 57) := by omega
    cases r with
    | nil =>
      rw [ip4Loop_last st c hc] at hrun
      by_cases hk4 : st.k = 4
      · rw [if_pos hk4] at hrun
        cases hrun; simp at hj
      rw [if_neg hk4] at hrun
      have hklt : st.k < st.octet.length := by omega
      have hk1 : (pushByte st c).k ≤ (pushByte st c).octet.length := by
        simp [pushByte]; omega
      by_cases hoct : IsOctet ((pushByte st c).octet.take (pushByte st c).k)
      · rw [closeGroup_ok _ _ hk1 hoct] at hrun
        by_cases hj4 : (pushByte st c).j > 4
        · rw [if_pos hj4] at hrun
          cases hrun
          simp at hj; omega
        · rw [if_neg hj4, ip4Loop] at hrun
          cases hrun
          simp [pushByte] at hj
          refine ⟨[c], [], by simp [joinDots], ?_, by simp, by simp; omega⟩
          rw [← pushByte_take st c hklt]; exact hoct
      · obtain ⟨e, he⟩ := closeGroup_err _ [] hk1 hoct
        rw [he] at hrun; cases hrun
    | cons b r =>
      by_cases h46 : c = 46
      · subst h46
        rw [ip4Loop_dot] at hrun
        have hk1 : st.k ≤ st.octet.length := by omega
        by_cases hoct : IsOctet (st.octet.take st.k)
        · rw [closeGroup_ok _ _ hk1 hoct] at hrun
          by_cases hj4 : st.j > 4
          · rw [if_pos hj4] at hrun
            cases hrun
            simp at hj; omega
          · rw [if_neg hj4] at hrun
            obtain ⟨t, gs, h1, h2, h3, h4⟩ := ih _ st' (by simpa using hlen) (by simp) (by simp) hrun hj
            simp at h2 h4
            refine ⟨[], t :: gs, ?_, by simpa using hoct, ?_, by simp; omega⟩
            · rw [joinDots_nil_cons, h1]
            · intro g hg
              rcases List.mem_cons.1 hg with h | h
              · rw [h]; exact h2
              · exact h3 g h
        · obtain ⟨e, he⟩ := closeGroup_err _ (b :: r) hk1 hoct
          rw [he] at hrun; cases hrun
      · have hd : 48 ≤ c ∧ c ≤ 57 := by omega
        rw [ip4Loop_digit st c b r hd] at hrun
        by_cases hk4 : st.k = 4
        · rw [if_pos hk4] at hrun
          cases hrun; simp at hj
        rw [if_neg hk4] at hrun
        have hklt : st.k < st.octet.length := by omega
        obtain ⟨t, gs, h1, h2, h3, h4⟩ := ih (pushByte st c) st' (by simpa [pushByte] using hlen)
          (by simp [pushByte]; omega) (by simp) hrun hj
        rw [pushByte_take st c hklt] at h2
        refine ⟨c :: t, gs, ?_, by simpa using h2, h3, by simpa [pushByte] using h4⟩
        rw [joinDots_cons, h1]

theorem joinDots_eq_nil {t : List Nat} {gs : List (List Nat)} (h : joinDots t gs = []) :
    t = [] ∧ gs = [] := by
  cases t with
  | cons c t => simp [joinDots] at h
  | nil =>
    cases gs with
    | nil => exact ⟨rfl, rfl⟩
    | cons g gs => simp [joinDots] at h

theorem octet_digit_of_mem {g : List Nat} (h : IsOctet g) {b : Nat} (hb : b ∈ g) :
    48 ≤ b ∧ b ≤ 57 := h.1.digits b hb

theorem ip4Loop_forward (rest : List Nat) : ∀ (t : List Nat) (gs : List (List Nat)) (st : Ip4State),
    rest = joinDots t gs → rest ≠ [] → st.octet.length = 4 → st.k ≤ 4 →
    IsOctet (st.octet.take st.k ++ t) → (∀ g ∈ gs, IsOctet g) → st.j + 1 + gs.length ≤ 4 →
    ∃ st', ip4Loop rest st = Ip4Exit.done st' ∧ st'.j = st.j + 1 + gs.length ∧
      st'.ip32 = foldKey st.j st.ip32 ((st.octet.take st.k ++ t) :: gs) := by
  induction rest with
  | nil => intro t gs st _ h; exact absurd rfl h
  | cons c r ih =>
    intro t gs st hrest _ hlen hk hcur hgs hj
    have hcurlen : st.k + t.length ≤ 3 := by
      have := hcur.1.le_three
      simp at this; omega
    have hklt : st.k < st.octet.length := by omega
    have hshift : (24 + 256 - (st.j * 8) % 256) % 256 = 24 - 8 * st.j := by omega
    cases t with
    | cons c' t' =>
      rw [joinDots_cons] at hrest
      injection hrest with hc hr
      subst hc
      have hd : 48 ≤ c ∧ c ≤ 57 := octet_digit_of_mem hcur (by simp)
      cases r with
      | nil =>
        obtain ⟨ht', hgs'⟩ := joinDots_eq_nil hr.symm
        subst ht' hgs'
        rw [ip4Loop_last st c (Or.inr hd), if_neg (by omega)]
        have hk1 : (pushByte st c).k ≤ (pushByte st c).octet.length := by
          simp [pushByte]; omega
        have hoct : IsOctet ((pushByte st c).octet.take (pushByte st c).k) := by
          rw [pushByte_take st c hklt]; exact hcur
        rw [closeGroup_ok _ _ hk1 hoct, if_neg (by simp [pushByte]; omega), ip4Loop]
        refine ⟨_, rfl, by simp [pushByte], ?_⟩
        simp only [foldKey]
        rw [pushByte_take st c hklt]
        simp [pushByte, hshift]
      | cons b r =>
        rw [ip4Loop_digit st c b r hd, if_neg (by omega)]
        obtain ⟨st', h1, h2, h3⟩ := ih t' gs (pushByte st c) hr (by simp)
          (by simpa [pushByte] using hlen) (by simp [pushByte]; omega)
          (by rw [pushByte_take st c hklt]; simpa using hcur) hgs (by simpa [pushByte] using hj)
        refine ⟨st', h1, by simpa [pushByte] using h2, ?_⟩
        rw [h3, pushByte_take st c hklt]
        simp [pushByte]
    | nil =>
      cases gs with
      | nil => simp [joinDots] at hrest
      | cons g gs =>
        rw [joinDots_nil_cons] at hrest
        injection hrest with hc hr
        subst hc
        have hg : IsOctet g := hgs g (by simp)
        have hgne := IsOctet_length_pos hg
        cases r with
        | nil =>
          obtain ⟨h1, _⟩ := joinDots_eq_nil hr.symm
          exact absurd h1 hgne
        | cons b r =>
          rw [ip4Loop_dot]
          have hoct : IsOctet (st.octet.take st.k) := by simpa using hcur
          simp at hj
          rw [closeGroup_ok _ _ (by omega) hoct, if_neg (by omega)]
          obtain ⟨st', h1, h2, h3⟩ := ih g gs
            { st with
              ip32 := st.ip32 ||| ((octetValue (st.octet.take st.k) <<<
                ((24 + 256 - (st.j * 8) % 256) % 256)) % 2 ^ 32),
              j := st.j + 1, k := 0 } hr (by simp) (by simpa using hlen) (by simp)
            (by simpa using hg) (fun g' hg' => hgs g' (by simp [hg'])) (by simp; omega)
          refine ⟨st', h1, by simp at h2; simp; omega, ?_⟩
          rw [h3]
          simp [foldKey, hshift]

set_option maxRecDepth 100000 in
theorem repr_eq : ∀ n < 256, bytesOf (Nat.repr n) = decimalDigits n := by decide

theorem key_sum (a b c d : Nat) (ha : a < 256) (hb : b < 256) (hc : c < 256) (hd : d < 256) :
    0 ||| (a <<< 24) % 2 ^ 32 ||| (b <<< 16) % 2 ^ 32 ||| (c <<< 8) % 2 ^ 32 ||| (d <<< 0) % 2 ^ 32
      = a * 2 ^ 24 + b * 2 ^ 16 + c * 2 ^ 8 + d := by
  simp only [Nat.shiftLeft_eq]
  rw [Nat.mod_eq_of_lt (by omega), Nat.mod_eq_of_lt (by omega), Nat.mod_eq_of_lt (by omega),
    Nat.mod_eq_of_lt (by omega)]
  have h1 : c * 2 ^ 8 + d = c * 2 ^ 8 ||| d := by
    rw [Nat.mul_comm]; exact Nat.mul_add_lt_is_or (by omega) c
  have h2 : b * 2 ^ 16 + (c * 2 ^ 8 + d) = b * 2 ^ 16 ||| (c * 2 ^ 8 + d) := by
    rw [Nat.mul_comm]; exact Nat.mul_add_lt_is_or (by omega) b
  have h3 : a * 2 ^ 24 + (b * 2 ^ 16 + (c * 2 ^ 8 + d)) = a * 2 ^ 24 ||| (b * 2 ^ 16 + (c * 2 ^ 8 + d)) := by
    rw [Nat.mul_comm]; exact Nat.mul_add_lt_is_or (by omega) a
  rw [Nat.add_assoc, Nat.add_assoc, h3, h2, h1]
  simp [Nat.or_assoc]

theorem decimalDigits_isOctet (n : Nat) (h : n < 256) : IsOctet (decimalDigits n) := by
  unfold decimalDigits
  by_cases h1 : n < 10
  · rw [if_pos h1]
    refine ⟨⟨by simp, by simp, ?_, ?_⟩, by simp⟩
    · intro b hb; simp at hb; omega
    · simp [octetValue]; omega
  · rw [if_neg h1]
    by_cases h2 : n < 100
    · rw [if_pos h2]
      refine ⟨⟨by simp, by simp, ?_, ?_⟩, ?_⟩
      · intro b hb; simp at hb; omega
      · simp [octetValue]; omega
      · intro _; simp; omega
    · rw [if_neg h2]
      refine ⟨⟨by simp, by simp, ?_, ?_⟩, ?_⟩
      · intro b hb; simp at hb; omega
      · simp [octetValue]; omega
      · intro _; simp; omega

theorem decimalDigits_value (n : Nat) (h : n < 256) : octetValue (decimalDigits n) = n := by
  unfold decimalDigits
  by_cases h1 : n < 10
  · rw [if_pos h1]; simp [octetValue]
  · rw [if_neg h1]
    by_cases h2 : n < 100
    · rw [if_pos h2]; simp [octetValue]; omega
    · rw [if_neg h2]; simp [octetValue]; omega

theorem trimSpaceEnd_id (c : Nat) (r : List Nat) (h1 : c < 128) (h2 : isAsciiSpace c = false) :
    trimSpaceEnd (c :: r) = (c :: r).reverse := by
  rw [trimSpaceEnd, if_neg (by omega), h2]
  simp

theorem TrimSpace_id (s : List Nat) (hne : s ≠ [])
    (hhead : ∀ c, s.head? = some c → c < 128 ∧ isAsciiSpace c = false)
    (hlast : ∀ c, s.getLast? = some c → c < 128 ∧ isAsciiSpace c = false) :
    TrimSpace s = s := by
  cases s with
  | nil => exact absurd rfl hne
  | cons c t =>
    obtain ⟨h1, h2⟩ := hhead c rfl
    rw [TrimSpace, if_neg (by omega), h2]
    simp only [Bool.false_eq_true, if_false]
    cases hrev : (c :: t).reverse with
    | nil => simp at hrev
    | cons l r =>
      have hl : (c :: t).getLast? = some l := by
        rw [List.getLast?_eq_head?_reverse, hrev]; rfl
      obtain ⟨h3, h4⟩ := hlast l hl
      rw [trimSpaceEnd_id l r h3 h4, ← hrev, List.reverse_reverse]

theorem digit_not_space (c : Nat) (h : 48 ≤ c ∧ c ≤ 57) : c < 128 ∧ isAsciiSpace c = false := by
  refine ⟨by omega, ?_⟩
  simp [isAsciiSpace]
  omega

theorem IsOctet_head {g : List Nat} (h : IsOctet g) (rest : List Nat) :
    ∀ c, (g ++ rest).head? = some c → c < 128 ∧ isAsciiSpace c = false := by
  intro c hc
  cases g with
  | nil => exact absurd rfl (IsOctet_length_pos h)
  | cons a t =>
    simp at hc
    subst hc
    exact digit_not_space _ (h.1.digits _ (by simp))

theorem IsOctet_last {g : List Nat} (h : IsOctet g) (pre : List Nat) :
    ∀ c, (pre ++ g).getLast? = some c → c < 128 ∧ isAsciiSpace c = false := by
  intro c hc
  have hne := IsOctet_length_pos h
  rw [List.getLast?_append_of_ne_nil _ hne] at hc
  have hmem : c ∈ g := List.mem_of_getLast?_eq_some hc
  exact digit_not_space _ (h.1.digits _ hmem)

theorem IsDottedQuad_trim {s : List Nat} (h : IsDottedQuad s) : TrimSpace s = s := by
  obtain ⟨g1, g2, g3, g4, hs, h1, h2, h3, h4⟩ := h
  subst hs
  apply TrimSpace_id
  · have := IsOctet_length_pos h1
    simp [this]
  · exact IsOctet_head h1 _
  · have := IsOctet_last h4 (g1 ++ 46 :: (g2 ++ 46 :: (g3 ++ [46])))
    simpa using this

/-- From the initial state the loop accepts a dotted quad and builds its key. -/
theorem ip4_parse_of_quad (t : List Nat) (g1 g2 g3 g4 : List Nat)
    (ht : t = g1 ++ 46 :: (g2 ++ 46 :: (g3 ++ 46 :: g4)))
    (h1 : IsOctet g1) (h2 : IsOctet g2) (h3 : IsOctet g3) (h4 : IsOctet g4) :
    ∃ st', ip4Loop t { j := 0, k := 0, ip32 := 0, octet := [0, 0, 0, 0] } = Ip4Exit.done st' ∧
      st'.j = 4 ∧ st'.ip32 = keyOf (octetValue g1) (octetValue g2) (octetValue g3) (octetValue g4) := by
  have hne : t ≠ [] := by
    have := IsOctet_length_pos h1
    rw [ht]; simp [this]
  obtain ⟨st', hrun, hj, hk⟩ := ip4Loop_forward t g1 [g2, g3, g4]
    { j := 0, k := 0, ip32 := 0, octet := [0, 0, 0, 0] } (by simp [joinDots, ht]) hne (by simp)
    (by simp) (by simpa using h1) (by
      intro g hg
      simp at hg
      rcases hg with hg | hg | hg <;> rw [hg] <;> assumption) (by simp)
  refine ⟨st', hrun, by simpa using hj, ?_⟩
  rw [hk]
  simp only [foldKey, List.take_zero, List.nil_append]
  have b1 := h1.1.value_le
  have b2 := h2.1.value_le
  have b3 := h3.1.value_le
  have b4 := h4.1.value_le
  exact key_sum _ _ _ _ (by omega) (by omega) (by omega) (by omega)

theorem ip4_ok_of_quad (s : List Nat) (g1 g2 g3 g4 : List Nat)
    (ht : TrimSpace s = g1 ++ 46 :: (g2 ++ 46 :: (g3 ++ 46 :: g4)))
    (h1 : IsOctet g1) (h2 : IsOctet g2) (h3 : IsOctet g3) (h4 : IsOctet g4) :
    ip4BytesToUint32 s =
      (keyOf (octetValue g1) (octetValue g2) (octetValue g3) (octetValue g4), none) := by
  obtain ⟨st', hrun, hj, hk⟩ := ip4_parse_of_quad _ g1 g2 g3 g4 ht h1 h2 h3 h4
  simp [ip4BytesToUint32, hrun, hj, hk]

theorem ip4_quad_of_ok (s : List Nat) (h : (ip4BytesToUint32 s).2 = none) :
    IsDottedQuad (TrimSpace s) := by
  unfold ip4BytesToUint32 at h
  cases hrun : ip4Loop (TrimSpace s) { j := 0, k := 0, ip32 := 0, octet := [0, 0, 0, 0] } with
  | returned e => rw [hrun] at h; simp at h
  | done st' =>
    rw [hrun] at h
    simp only at h
    by_cases hj : st'.j = 4
    · have hne : TrimSpace s ≠ [] := by
        intro h0
        rw [h0, ip4Loop] at hrun
        cases hrun
        simp at hj
      obtain ⟨t, gs, hd, ht, hgs, hlen⟩ := ip4Loop_backward _ _ st' (by simp) (by simp) hne hrun hj
      simp at ht hlen
      match gs, hlen, hgs, hd with
      | [g2, g3, g4], _, hgs, hd =>
        exact ⟨t, g2, g3, g4, by simpa [joinDots] using hd, ht, hgs _ (by simp), hgs _ (by simp),
          hgs _ (by simp)⟩
      | [], hlen, _, _ => simp at hlen
      | [_], hlen, _, _ => simp at hlen
      | [_, _], hlen, _, _ => simp at hlen
      | _ :: _ :: _ :: _ :: _, hlen, _, _ => simp at hlen; omega
    · rw [if_pos hj] at h; simp at h

theorem ip4_err_key_zero (s : List Nat) (h : (ip4BytesToUint32 s).2 ≠ none) :
    (ip4BytesToUint32 s).1 = 0 := by
  unfold ip4BytesToUint32 at h ⊢
  cases hrun : ip4Loop (TrimSpace s) { j := 0, k := 0, ip32 := 0, octet := [0, 0, 0, 0] } with
  | returned e => simp
  | done st' =>
    rw [hrun] at h
    simp only at h ⊢
    by_cases hj : st'.j = 4
    · rw [if_neg (by simpa using hj)] at h; simp at h
    · rw [if_pos hj]

theorem dottedQuad_eq (a b c d : Nat) (ha : a < 256) (hb : b < 256) (hc : c < 256)
    (hd : d < 256) :
    dottedQuad a b c d =
      decimalDigits a ++ 46 :: (decimalDigits b ++ 46 :: (decimalDigits c ++ 46 :: decimalDigits d)) := by
  unfold dottedQuad
  rw [repr_eq a ha, repr_eq b hb, repr_eq c hc, repr_eq d hd]

theorem dottedQuad_isDottedQuad (a b c d : Nat) (ha : a < 256) (hb : b < 256) (hc : c < 256)
    (hd : d < 256) : IsDottedQuad (dottedQuad a b c d) :=
  ⟨_, _, _, _, dottedQuad_eq a b c d ha hb hc hd, decimalDigits_isOctet a ha,
    decimalDigits_isOctet b hb, decimalDigits_isOctet c hc, decimalDigits_isOctet d hd⟩

theorem ip4_dottedQuad (a b c d : Nat) (ha : a < 256) (hb : b < 256) (hc : c < 256)
    (hd : d < 256) : ip4BytesToUint32 (dottedQuad a b c d) = (keyOf a b c d, none) := by
  have hq := dottedQuad_isDottedQuad a b c d ha hb hc hd
  have h := ip4_ok_of_quad (dottedQuad a b c d) _ _ _ _
    ((IsDottedQuad_trim hq).trans (dottedQuad_eq a b c d ha hb hc hd))
    (decimalDigits_isOctet a ha) (decimalDigits_isOctet b hb) (decimalDigits_isOctet c hc)
    (decimalDigits_isOctet d hd)
  rw [h, decimalDigits_value a ha, decimalDigits_value b hb, decimalDigits_value c hc,
    decimalDigits_value d hd]

theorem keyOf_octets (a b c d : Nat) (ha : a < 256) (hb : b < 256) (hc : c < 256)
    (hd : d < 256) :
    (keyOf a b c d >>> 24) &&& 255 = a ∧ (keyOf a b c d >>> 16) &&& 255 = b ∧
      (keyOf a b c d >>> 8) &&& 255 = c ∧ keyOf a b c d &&& 255 = d := by
  have hm : ∀ x : Nat, x &&& 255 = x % 256 := fun x => Nat.and_pow_two_sub_one_eq_mod x 8
  simp only [hm, Nat.shiftRight_eq_div_pow, keyOf]
  norm_num
  omega

/-- C2: for octets `a`, `b`, `c`, `d` in `[0,255]`, `ip4BytesToUint32` applied
to the text `a.b.c.d` (decimal, no leading zeros) returns no error and the key
`a*2^24 + b*2^16 + c*2^8 + d`; shifting the key by 24, 16, 8 and 0 and masking
with 255 gives back the octets, and another address with the same key is the
same address. -/
theorem ip4BytesToUint32_valid_key (a b c d : Nat) (ha : a < 256) (hb : b < 256)
    (hc : c < 256) (hd : d < 256) :
    ip4BytesToUint32 (dottedQuad a b c d) = (a * 2 ^ 24 + b * 2 ^ 16 + c * 2 ^ 8 + d, none) ∧
    (((ip4BytesToUint32 (dottedQuad a b c d)).1 >>> 24) &&& 255 = a ∧
      ((ip4BytesToUint32 (dottedQuad a b c d)).1 >>> 16) &&& 255 = b ∧
      ((ip4BytesToUint32 (dottedQuad a b c d)).1 >>> 8) &&& 255 = c ∧
      (ip4BytesToUint32 (dottedQuad a b c d)).1 &&& 255 = d) ∧
    (∀ a' b' c' d' : Nat, a' < 256 → b' < 256 → c' < 256 → d' < 256 →
      (ip4BytesToUint32 (dottedQuad a' b' c' d')).1 = (ip4BytesToUint32 (dottedQuad a b c d)).1 →
        a' = a ∧ b' = b ∧ c' = c ∧ d' = d) := by
  have h := ip4_dottedQuad a b c d ha hb hc hd
  have ho := keyOf_octets a b c d ha hb hc hd
  refine ⟨h, by rw [h]; exact ho, ?_⟩
  intro a' b' c' d' ha' hb' hc' hd' hkey
  rw [h, ip4_dottedQuad a' b' c' d' ha' hb' hc' hd'] at hkey
  simp only at hkey
  have ho' := keyOf_octets a' b' c' d' ha' hb' hc' hd'
  rw [hkey] at ho'
  obtain ⟨e1, e2, e3, e4⟩ := ho
  obtain ⟨f1, f2, f3, f4⟩ := ho'
  exact ⟨f1.symm.trans e1, f2.symm.trans e2, f3.symm.trans e3, f4.symm.trans e4⟩

/-- Witness of C2: the addresses `10.0.0.255` and `255.255.255.255` of the
test table, with the keys the test expects. -/
theorem ip4BytesToUint32_valid_key_witness :
    ip4BytesToUint32 (bytesOf "10.0.0.255") = (167772415, none) ∧
    ip4BytesToUint32 (bytesOf "255.255.255.255") = (4294967295, none) :=
  ⟨(ip4BytesToUint32_valid_key 10 0 0 255 (by decide) (by decide) (by decide) (by decide)).1,
   (ip4BytesToUint32_valid_key 255 255 255 255 (by decide) (by decide) (by decide)
      (by decide)).1⟩

/-- C3: `ip4BytesToUint32` succeeds exactly when the input, trimmed by
`bytes.TrimSpace`, is four groups separated by single dots, each group one to
three ASCII digits, without a leading zero when longer than one digit, and of
value at most 255; every other input returns an error together with key 0.
The malformed inputs of the test table are rejected. -/
theorem ip4BytesToUint32_rejects_malformed :
    (∀ s : List Nat,
      ((ip4BytesToUint32 s).2 = none ↔ IsDottedQuad (TrimSpace s)) ∧
      (¬ IsDottedQuad (TrimSpace s) →
        (ip4BytesToUint32 s).2 ≠ none ∧ (ip4BytesToUint32 s).1 = 0)) ∧
    ip4BytesToUint32 (bytesOf "192.168.1") = (0, some Error.notFourOctets) ∧
    ip4BytesToUint32 (bytesOf "192.168.1.1.1") = (0, some Error.notFourOctets) ∧
    ip4BytesToUint32 (bytesOf "192. 168.0.1") = (0, some Error.incorrectByte) ∧
    ip4BytesToUint32 (bytesOf "192.168.0.1.") = (0, some (Error.octet Error.wrongByte)) ∧
    ip4BytesToUint32 (bytesOf ".192.168.0.1") = (0, some (Error.octet Error.byteTooShort)) ∧
    ip4BytesToUint32 (bytesOf "256.0.0.0") = (0, some (Error.octet Error.byteTooLong)) ∧
    ip4BytesToUint32 (bytesOf "0.0.0.001") = (0, some Error.leadingZero) ∧
    ip4BytesToUint32 (bytesOf "") = (0, some Error.notFourOctets) := by
  refine ⟨fun s => ?_, by decide, by decide, by decide, by decide, by decide, by decide,
    by decide, by decide⟩
  have hiff : (ip4BytesToUint32 s).2 = none ↔ IsDottedQuad (TrimSpace s) := by
    constructor
    · exact ip4_quad_of_ok s
    · rintro ⟨g1, g2, g3, g4, ht, h1, h2, h3, h4⟩
      rw [ip4_ok_of_quad s g1 g2 g3 g4 ht h1 h2 h3 h4]
  refine ⟨hiff, fun hq => ?_⟩
  have hne : (ip4BytesToUint32 s).2 ≠ none := fun h => hq (hiff.1 h)
  exact ⟨hne, ip4_err_key_zero s hne⟩

/-! ## The dedup store -/

theorem sortSlice_eq (l : List Nat) : sortSlice l = l.insertionSort (· ≤ ·) := by
  have hins : ∀ (x : Nat) (l : List Nat), sortedInsert x l = l.orderedInsert (· ≤ ·) x := by
    intro x l
    induction l with
    | nil => rfl
    | cons y ys ih => simp [sortedInsert, List.orderedInsert, ih]
  induction l with
  | nil => rfl
  | cons x xs ih => simp [sortSlice, List.insertionSort, ih, hins]

theorem countRuns_sorted (l : List Nat) : ∀ (a c : Nat), (a :: l).Sorted (· ≤ ·) →
    ip4SortCount.countRuns (a :: l) c + 1 = c + (a :: l).toFinset.card := by
  induction l with
  | nil => intro a c _; simp [ip4SortCount.countRuns]
  | cons b t ih =>
    intro a c hs
    rw [ip4SortCount.countRuns]
    have hs' : (b :: t).Sorted (· ≤ ·) := hs.of_cons
    rw [ih b _ hs']
    have hab : a ≤ b := List.rel_of_sorted_cons hs b (by simp)
    have hmem : a ∈ b :: t ↔ a = b := by
      constructor
      · intro h
        have := List.rel_of_sorted_cons hs a h
        rcases List.mem_cons.1 h with h | h
        · exact h
        · have h2 := List.rel_of_sorted_cons hs' a h
          omega
      · intro h; simp [h]
    rw [List.toFinset_cons (a := a)]
    by_cases h : a = b
    · subst h
      simp
    · have hn : a ∉ (b :: t).toFinset := by
        rw [List.mem_toFinset, hmem]; exact h
      rw [Finset.card_insert_of_not_mem hn, if_pos (by omega)]
      omega

theorem ip4SortCount_eq (ips : List Nat) : ip4SortCount ips = ips.toFinset.card := by
  unfold ip4SortCount
  cases ips with
  | nil => simp
  | cons x xs =>
    rw [if_neg (by simp)]
    have hp : (sortSlice (x :: xs)).Perm (x :: xs) := by
      rw [sortSlice_eq]; exact List.perm_insertionSort _ _
    have hs : (sortSlice (x :: xs)).Sorted (· ≤ ·) := by
      rw [sortSlice_eq]; exact List.sorted_insertionSort _ _
    cases hsl : sortSlice (x :: xs) with
    | nil => rw [hsl] at hp; simp at hp
    | cons a l =>
      rw [hsl] at hs hp
      have := countRuns_sorted l a 1 hs
      rw [List.toFinset_eq_of_perm _ _ hp] at this
      omega

theorem mask_eq (k : Nat) : (1 <<< (k &&& 7)) % 256 = 2 ^ (k &&& 7) := by
  have h : k &&& 7 < 8 := by
    have := Nat.and_pow_two_sub_one_eq_mod k 3
    simp at this
    omega
  rw [Nat.one_shiftLeft]
  apply Nat.mod_eq_of_lt
  calc 2 ^ (k &&& 7) < 2 ^ 8 := Nat.pow_lt_pow_right (by omega) h
    _ = 256 := by norm_num

theorem and_two_pow_eq_zero (x i : Nat) : x &&& 2 ^ i = 0 ↔ x.testBit i = false := by
  rw [Nat.and_comm, Nat.two_pow_and]
  cases h : x.testBit i <;> simp [h]

theorem key_split (k : Nat) : k = 8 * (k >>> 3) + (k &&& 7) := by
  have := Nat.and_pow_two_sub_one_eq_mod k 3
  simp at this
  rw [this, Nat.shiftRight_eq_div_pow]
  omega

theorem bitsetInsert_spec (size : Nat) (ips : Nat → Nat) (S : Finset Nat) (k : Nat)
    (h : BitsetHolds ips S) (hk : k >>> 3 < size) :
    ∃ ips', bitsetInsert size ips S.card k = Except.ok (ips', (insert k S).card) ∧
      BitsetHolds ips' (insert k S) := by
  unfold bitsetInsert
  simp only
  rw [if_neg (by omega), mask_eq]
  by_cases hbit0 : ips (k >>> 3) &&& 2 ^ (k &&& 7) = 0
  · rw [if_pos hbit0]
    have hbit := (and_two_pow_eq_zero _ _).1 hbit0
    have hnot : k ∉ S := by
      intro hm
      rw [(h k).2 hm] at hbit
      cases hbit
    refine ⟨_, by rw [Finset.card_insert_of_not_mem hnot], ?_⟩
    intro k'
    by_cases hidx : k' >>> 3 = k >>> 3
    · rw [hidx, Function.update_same, Nat.testBit_or, Nat.testBit_two_pow, Finset.mem_insert]
      by_cases hlow : k &&& 7 = k' &&& 7
      · have : k' = k := by rw [key_split k', key_split k, hidx, hlow]
        simp [hlow, this]
      · have hne : k' ≠ k := fun e => hlow (by rw [e])
        simp only [hlow, decide_False, Bool.or_false, hne, false_or]
        rw [← hidx]
        exact h k'
    · rw [Function.update_noteq hidx, Finset.mem_insert]
      have hne : k' ≠ k := fun e => hidx (by rw [e])
      simp only [hne, false_or]
      exact h k'
  · rw [if_neg hbit0]
    have hbit : ¬ (ips (k >>> 3)).testBit (k &&& 7) = false :=
      fun e => hbit0 ((and_two_pow_eq_zero _ _).2 e)
    have hm : k ∈ S := (h k).1 (by simpa using hbit)
    refine ⟨ips, by rw [Finset.insert_eq_of_mem hm], by rw [Finset.insert_eq_of_mem hm]; exact h⟩

theorem bitsetInsertAll_spec (size : Nat) (keys : List Nat) :
    ∀ (ips : Nat → Nat) (S : Finset Nat), BitsetHolds ips S → (∀ k ∈ keys, k >>> 3 < size) →
    ∃ ips', bitsetInsertAll size keys ips S.card = Except.ok (ips', (S ∪ keys.toFinset).card) ∧
      BitsetHolds ips' (S ∪ keys.toFinset) := by
  induction keys with
  | nil => intro ips S h _; exact ⟨ips, by simp [bitsetInsertAll], by simpa using h⟩
  | cons k ks ih =>
    intro ips S h hk
    obtain ⟨ips1, h1, h2⟩ := bitsetInsert_spec size ips S k h (hk k (by simp))
    obtain ⟨ips2, h3, h4⟩ := ih ips1 (insert k S) h2 (fun x hx => hk x (by simp [hx]))
    have hU : insert k S ∪ ks.toFinset = S ∪ (k :: ks).toFinset := by
      ext x; simp only [Finset.mem_union, Finset.mem_insert, List.toFinset_cons]; tauto
    rw [hU] at h3 h4
    exact ⟨ips2, by rw [bitsetInsertAll, h1]; exact h3, h4⟩

theorem bitsetHolds_empty : BitsetHolds (fun _ => 0) ∅ := by
  intro k
  simp

theorem key_index_lt (k : Nat) (h : k < 2 ^ 32) : k >>> 3 < (256 * 256 * 256 * 256) / 8 := by
  rw [Nat.shiftRight_eq_div_pow]
  norm_num at h ⊢
  omega

theorem bitsetCount_eq (keys : List Nat) (h32 : ∀ k ∈ keys, k < 2 ^ 32) :
    bitsetCount keys = Except.ok keys.toFinset.card := by
  obtain ⟨ips', h1, _⟩ := bitsetInsertAll_spec ((256 * 256 * 256 * 256) / 8) keys (fun _ => 0) ∅
    bitsetHolds_empty (fun k hk => key_index_lt k (h32 k hk))
  simp only [Finset.card_empty, Finset.empty_union] at h1
  simp [bitsetCount, h1]

/-- C9: for every sequence of 32-bit keys, the bitset step (byte `key >> 3`,
bit `key & 7`, set and count only when unset) run from the all-zero bitset and
count 0 ends with the number of distinct keys of the sequence: a key repeated
any number of times counts once, pairwise distinct keys count their number,
and a permutation of the sequence gives the same count. -/
theorem bitset_count_distinct (keys : List Nat) (h32 : ∀ k ∈ keys, k < 2 ^ 32) :
    bitsetCount keys = Except.ok keys.toFinset.card ∧
    (∀ k n : Nat, k < 2 ^ 32 → bitsetCount (List.replicate (n + 1) k) = Except.ok 1) ∧
    (keys.Nodup → bitsetCount keys = Except.ok keys.length) ∧
    (∀ keys' : List Nat, keys'.Perm keys → bitsetCount keys' = bitsetCount keys) := by
  refine ⟨bitsetCount_eq keys h32, ?_, ?_, ?_⟩
  · intro k n hk
    rw [bitsetCount_eq _ (fun x hx => by rw [List.eq_of_mem_replicate hx]; exact hk)]
    have : (List.replicate (n + 1) k).toFinset = {k} := by
      ext x
      simp [List.mem_replicate]
    rw [this, Finset.card_singleton]
  · intro hnd
    rw [bitsetCount_eq keys h32, List.toFinset_card_of_nodup hnd]
  · intro keys' hp
    rw [bitsetCount_eq keys h32, bitsetCount_eq keys' (fun k hk => h32 k (hp.mem_iff.1 hk)),
      List.toFinset_eq_of_perm _ _ hp]

/-- Witness of C9: three insertions of two distinct keys. -/
theorem bitset_count_distinct_witness :
    bitsetCount [167772415, 4294967295, 167772415] = Except.ok 2 :=
  (bitset_count_distinct [167772415, 4294967295, 167772415] (by decide)).1

/-- C10: `ip4SortCount` returns the number of distinct values of the slice,
whatever the order and the duplicates, and `0` for the empty slice; the slices
of the test table give 4, 5 and 1. -/
theorem ip4SortCount_distinct :
    (∀ ips : List Nat, ip4SortCount ips = ips.toFinset.card) ∧
    ip4SortCount [] = 0 ∧
    ip4SortCount [1, 2, 2, 3, 3, 3, 4, 4, 4, 4] = 4 ∧
    ip4SortCount [3, 1, 4, 2, 5] = 5 ∧
    ip4SortCount [5, 5, 5, 5, 5, 5, 5, 5, 5] = 1 :=
  ⟨ip4SortCount_eq, by decide, by decide, by decide, by decide⟩

/-! ## The sequential reader -/

theorem readBytesOk_cases (delim : Nat) (rest : List Nat) :
    (delim ∉ rest ∧ readBytesOk delim rest = (rest, some Error.eof, [])) ∨
    (∃ pre rest1, rest = pre ++ delim :: rest1 ∧ delim ∉ pre ∧
      readBytesOk delim rest = (pre ++ [delim], none, rest1)) := by
  induction rest with
  | nil => left; simp [readBytesOk]
  | cons b t ih =>
    rw [readBytesOk]
    by_cases hb : b = delim
    · right
      exact ⟨[], t, by simp [hb], by simp, by simp [hb]⟩
    · rw [if_neg hb]
      rcases ih with ⟨h1, h2⟩ | ⟨pre, rest1, h1, h2, h3⟩
      · left
        refine ⟨by simp [h1, Ne.symm hb], by rw [h2]⟩
      · right
        refine ⟨b :: pre, rest1, by simp [h1], by simp [h2, Ne.symm hb], by rw [h3]; simp⟩

theorem readBytesRetry_quiet (delim : Nat) (rest line : List Nat) (err : Option Error) :
    readBytesRetry delim 3 Env.quiet rest line err = (readBytesOk delim rest, Env.quiet) := by
  have hq : readBytes Env.quiet delim rest = (readBytesOk delim rest, Env.quiet) := rfl
  rw [readBytesRetry, hq]
  rcases readBytesOk_cases delim rest with ⟨_, h⟩ | ⟨pre, rest1, _, _, h⟩ <;> simp [h]

theorem parseKey_nil : parseKey [] = none := by decide

theorem storeKeys_nil (capacity : Int) (bitsetLen : Nat) (s : (Nat → Nat) × List Nat × Nat) :
    storeKeys capacity bitsetLen [] s = Except.ok s := by
  unfold storeKeys
  by_cases h : capacity = 0
  · simp [h, bitsetInsertAll]
  · simp [h]

theorem storeKeys_cons (capacity : Int) (bitsetLen : Nat) (k : Nat) (ks : List Nat)
    (s : (Nat → Nat) × List Nat × Nat) :
    storeKeys capacity bitsetLen (k :: ks) s =
      match storeKeys capacity bitsetLen [k] s with
      | Except.error p => Except.error p
      | Except.ok s1 => storeKeys capacity bitsetLen ks s1 := by
  unfold storeKeys
  by_cases h : capacity = 0
  · simp only [h, if_true, bitsetInsertAll]
    cases hb : bitsetInsert bitsetLen s.1 s.2.2 k with
    | error p => simp
    | ok r => simp
  · simp [h]

theorem storeLine_eq (sep : Nat) (capacity : Int) (bitsetLen : Nat) (line : List Nat)
    (ips : Nat → Nat) (buffered : List Nat) (count : Nat) :
    storeLine sep capacity bitsetLen line ips buffered count =
    if line.length > 0 then
      storeKeys capacity bitsetLen
        (parseKey (if line.getD (line.length - 1) 0 = sep then line.take (line.length - 1)
          else line)).toList (ips, buffered, count)
    else Except.ok (ips, buffered, count) := by
  unfold storeLine
  by_cases hl : line.length > 0
  · simp only [hl, if_true]
    unfold parseKey
    rcases hp : ip4BytesToUint32 (if line.getD (line.length - 1) 0 = sep then
      line.take (line.length - 1) else line) with ⟨k, e⟩
    cases e with
    | some e => simp [storeKeys_nil]
    | none =>
      simp only [Option.toList, storeKeys]
      by_cases h : capacity = 0
      · simp only [h, if_true, bitsetInsertAll]
        cases hb : bitsetInsert bitsetLen ips count k with
        | error p => simp
        | ok r => simp
      · simp [h]
  · simp [hl]

theorem getD_last_append (pre : List Nat) (b : Nat) :
    (pre ++ [b]).getD ((pre ++ [b]).length - 1) 0 = b := by
  simp [List.getD_eq_getElem?_getD]

theorem getD_last_mem (l : List Nat) (h : l ≠ []) : l.getD (l.length - 1) 0 ∈ l := by
  have hlen : l.length - 1 < l.length := by
    have := List.length_pos.2 h
    omega
  rw [List.getD_eq_getElem _ _ hlen]
  exact List.getElem_mem _

theorem splitOn_no_sep (sep : Nat) (rest : List Nat) (h : sep ∉ rest) :
    rest.splitOn sep = [rest] := by
  unfold List.splitOn
  apply List.splitOnP_eq_single
  intro x hx hxs
  simp at hxs
  exact h (hxs ▸ hx)

theorem splitOn_first (sep : Nat) (pre rest1 : List Nat) (h : sep ∉ pre) :
    (pre ++ sep :: rest1).splitOn sep = pre :: rest1.splitOn sep := by
  unfold List.splitOn
  apply List.splitOnP_first
  · intro x hx hxs
    simp at hxs
    exact h (hxs ▸ hx)
  · simp

theorem seqLoop_quiet (sep : Nat) (capacity : Int) (bitsetLen : Nat) (fuel : Nat) :
    ∀ (rest : List Nat) (ips : Nat → Nat) (buffered : List Nat) (count : Nat),
    rest.length < fuel →
    seqLoop sep capacity bitsetLen fuel
      { env := Env.quiet, rest := rest, ipsWithIndex := ips, ipsWithOutIndex := buffered,
        uniqueCount := count } =
    seqFinish (storeKeys capacity bitsetLen ((rest.splitOn sep).filterMap parseKey)
      (ips, buffered, count)) := by
  induction fuel with
  | zero => intro rest _ _ _ h; omega
  | succ fuel ih =>
    intro rest ips buffered count hlen
    rw [seqLoop]
    simp only [Env.quiet, checkContext]
    rw [show ({ ctx := Ctx.next none, readAtFaults := [], readFaults := [] } : Env) = Env.quiet
      from rfl, readBytesRetry_quiet]
    rcases readBytesOk_cases sep rest with ⟨hno, hrb⟩ | ⟨pre, rest1, hrest, hno, hrb⟩
    · rw [hrb, splitOn_no_sep sep rest hno]
      simp only
      by_cases hr : rest = []
      · subst hr
        simp [storeLine_eq, parseKey_nil, storeKeys_nil, seqFinish]
      · have hpos : rest.length > 0 := List.length_pos.2 hr
        have hlast : rest.getD (rest.length - 1) 0 ≠ sep := by
          intro e
          exact hno (e ▸ getD_last_mem rest hr)
        simp only [storeLine_eq, hpos, hlast, if_true, if_false]
        simp only [List.filterMap_cons, List.filterMap_nil]
        cases hk : parseKey rest with
        | none => simp [storeKeys_nil, seqFinish]
        | some k =>
          simp only [Option.toList]
          cases hs : storeKeys capacity bitsetLen [k] (ips, buffered, count) with
          | error p => simp [seqFinish]
          | ok r => simp [seqFinish]
    · rw [hrb, hrest, splitOn_first sep pre rest1 hno]
      have hlen1 : rest1.length < fuel := by
        rw [hrest] at hlen
        simp at hlen
        omega
      have hpos : (pre ++ [sep]).length > 0 := by simp
      simp only [storeLine_eq, hpos, getD_last_append, if_true]
      have htake : (pre ++ [sep]).take ((pre ++ [sep]).length - 1) = pre := by simp
      rw [htake]
      simp only [List.filterMap_cons]
      cases hk : parseKey pre with
      | none =>
        simp only [Option.toList, storeKeys_nil]
        simp only [reduceCtorEq, if_false]
        exact ih rest1 ips buffered count hlen1
      | some k =>
        simp only [Option.toList]
        rw [storeKeys_cons capacity bitsetLen k (List.filterMap parseKey (List.splitOn sep rest1))]
        cases hs : storeKeys capacity bitsetLen [k] (ips, buffered, count) with
        | error p => simp [seqFinish]
        | ok r =>
          obtain ⟨ips1, buffered1, count1⟩ := r
          simp only [reduceCtorEq, if_false]
          exact ih rest1 ips1 buffered1 count1 hlen1

theorem parseKey_lt (r : List Nat) (k : Nat) (h : parseKey r = some k) : k < 2 ^ 32 := by
  unfold parseKey at h
  rcases hp : ip4BytesToUint32 r with ⟨k', e⟩
  rw [hp] at h
  cases e with
  | some e => simp at h
  | none =>
    simp at h
    subst h
    have hq := ip4_quad_of_ok r (by rw [hp])
    obtain ⟨g1, g2, g3, g4, ht, h1, h2, h3, h4⟩ := hq
    have hk := ip4_ok_of_quad r g1 g2 g3 g4 ht h1 h2 h3 h4
    rw [hp] at hk
    injection hk with hk _
    rw [hk, keyOf]
    have b1 := h1.1.value_le
    have b2 := h2.1.value_le
    have b3 := h3.1.value_le
    have b4 := h4.1.value_le
    norm_num
    omega

theorem keysOf_eq (sep : Nat) (content : List Nat) :
    keysOf sep content = (content.splitOn sep).filterMap parseKey := by
  unfold keysOf
  induction content.splitOn sep with
  | nil => rfl
  | cons r rs ih =>
    by_cases hr : r = []
    · subst hr
      simp only [ne_eq, not_true_eq_false, decide_False, List.filter_cons_of_neg,
        Bool.false_eq_true, not_false_eq_true, List.filterMap_cons, parseKey_nil]
      exact ih
    · have hd : decide (r ≠ []) = true := by simpa using hr
      simp only [List.filter_cons, hd, if_true, List.filterMap_cons]
      rw [ih]

theorem keysOf_lt (sep : Nat) (content : List Nat) : ∀ k ∈ keysOf sep content, k < 2 ^ 32 := by
  intro k hk
  rw [keysOf_eq, List.mem_filterMap] at hk
  obtain ⟨r, _, hr⟩ := hk
  exact parseKey_lt r k hr

theorem ip4SequentialReader_quiet (content : List Nat) (sep : Nat) (w : Int) (extra : Nat) :
    ip4SequentialReader
      { file := content, fileSize := content.length, maxGoroutines := w, lineBreak := sep }
      Env.quiet (content.length + 1 + extra) =
    some (Except.ok ((keysOf sep content).toFinset.card, none)) := by
  unfold ip4SequentialReader
  simp only
  have hdiv : Int.tdiv (content.length : Int) 8 = ((content.length / 8 : Nat) : Int) := by
    exact (Int.ofNat_tdiv content.length 8).symm
  rw [hdiv]
  have hfuel : content.length < content.length + 1 + extra := by omega
  have hloop := fun capacity bitsetLen =>
    seqLoop_quiet sep capacity bitsetLen (content.length + 1 + extra) content (fun _ => 0) [] 0 hfuel
  rw [← keysOf_eq] at hloop
  by_cases hbig : (content.length : Int) ≤ (256 * 256 * 256 * 256) / 8
  · simp only [hbig, if_true, true_and]
    rw [if_neg (by split <;> omega)]
    rw [hloop]
    by_cases h0 : content.length = 0
    · have hc : content = [] := List.length_eq_zero.1 h0
      subst hc
      simp [keysOf, storeKeys, bitsetInsertAll, seqFinish, parseKey_nil]
    · have hcap : ¬ ((if ((content.length / 8 : Nat) : Int) = 0 then (content.length : Int)
          else ((content.length / 8 : Nat) : Int)) = 0) := by
        split <;> omega
      simp only [storeKeys, hcap, if_false, seqFinish, List.nil_append]
      rw [ip4SortCount_eq]
      by_cases hk : (keysOf sep content).length > 0
      · rw [if_pos hk]
      · rw [if_neg hk]
        have : keysOf sep content = [] := List.length_eq_zero.1 (by omega)
        rw [this]
        simp
  · simp only [hbig, if_false, false_and]
    rw [hloop]
    obtain ⟨ips', h1, _⟩ := bitsetInsertAll_spec 536870912
      (keysOf sep content) (fun _ => 0) ∅ bitsetHolds_empty
      (fun k hk => key_index_lt k (keysOf_lt sep content k hk))
    simp only [Finset.card_empty, Finset.empty_union] at h1
    simp [storeKeys, h1, seqFinish]

/-- C1: with the recorded size equal to the content length, no failing read
and no cancellation, `ip4SequentialReader` returns, with a nil error, the
number of distinct keys of the records of the content (cut at each separator,
separator dropped, records that do not parse skipped, a last record without
separator included); any fuel above the content length is enough.  The four
inputs of the test table give 1, 2, 3 and 0. -/
theorem ip4SequentialReader_counts_distinct :
    (∀ (content : List Nat) (sep : Nat) (w : Int) (extra : Nat),
      ip4SequentialReader
        { file := content, fileSize := content.length, maxGoroutines := w, lineBreak := sep }
        Env.quiet (content.length + 1 + extra) =
      some (Except.ok ((keysOf sep content).toFinset.card, none))) ∧
    ip4SequentialReader
      { file := bytesOf "192.168.1.1\n192.168.1.1\n", fileSize := 24, maxGoroutines := 1,
        lineBreak := 10 } Env.quiet 25 = some (Except.ok (1, none)) ∧
    ip4SequentialReader
      { file := bytesOf "192.168.1.1\ninvalid_ip\n10.0.0.1\n", fileSize := 32, maxGoroutines := 1,
        lineBreak := 10 } Env.quiet 33 = some (Except.ok (2, none)) ∧
    ip4SequentialReader
      { file := bytesOf "192.168.1.1\n10.0.0.1\n172.16.0.1", fileSize := 31, maxGoroutines := 1,
        lineBreak := 10 } Env.quiet 32 = some (Except.ok (3, none)) ∧
    ip4SequentialReader
      { file := [], fileSize := 0, maxGoroutines := 1, lineBreak := 10 } Env.quiet 1 =
      some (Except.ok (0, none)) :=
  ⟨ip4SequentialReader_quiet, by decide, by decide, by decide, by decide⟩

/-! ## The partition planner -/

theorem readAtOk_err (content buffer : List Nat) (off : Int) (h : 0 ≤ off) :
    (readAtOk content buffer off).2.2 = none ∨ (readAtOk content buffer off).2.2 = some Error.eof := by
  unfold readAtOk
  rw [if_neg (by omega)]
  simp only
  split
  · right; rfl
  · left; rfl

theorem readAtRetry_quiet (content buffer : List Nat) (off : Int) (h : 0 ≤ off) (n : Nat)
    (err : Option Error) :
    readAtRetry content off 3 Env.quiet buffer n err = (readAtOk content buffer off, Env.quiet) := by
  have hq : readAt Env.quiet content buffer off = (readAtOk content buffer off, Env.quiet) := rfl
  rw [readAtRetry, hq]
  rcases hr : readAtOk content buffer off with ⟨b1, n1, e1⟩
  have := readAtOk_err content buffer off h
  rw [hr] at this
  simp only
  rw [if_pos this]

theorem correctOffsetLoop_spec (sep : Nat) (post : List Nat) (hpost : sep ∉ post) (pre : List Nat)
    (off : Int) :
    correctOffsetLoop sep (post ++ sep :: pre) off = off - post.length := by
  induction post generalizing off with
  | nil => simp [correctOffsetLoop]
  | cons b t ih =>
    have hb : b ≠ sep := fun e => hpost (by simp [e])
    have ht : sep ∉ t := fun e => hpost (by simp [e])
    rw [List.cons_append, correctOffsetLoop, if_neg hb, ih ht]
    simp
    omega

theorem correctOffset_spec (ip : IPCounter) (pre post : List Nat) (hpost : ip.lineBreak ∉ post)
    (off : Int) :
    correctOffset ip off (pre ++ ip.lineBreak :: post) = off - post.length := by
  unfold correctOffset
  by_cases hp : post = []
  · subst hp
    rw [if_neg]
    · simp
    · simp [List.getD_eq_getElem?_getD]
  · have hlast : (pre ++ ip.lineBreak :: post).getD ((pre ++ ip.lineBreak :: post).length - 1) 0
        ≠ ip.lineBreak := by
      intro e
      have hmem : (pre ++ ip.lineBreak :: post).getD ((pre ++ ip.lineBreak :: post).length - 1) 0
          ∈ post := by
        have hlen : post.length > 0 := List.length_pos.2 hp
        rw [List.getD_eq_getElem _ _ (by simp)]
        rw [List.getElem_append_right (by simp)]
        simp only [List.length_append, List.length_cons]
        rw [List.getElem_cons]
        rw [dif_neg (by omega)]
        exact List.getElem_mem _
      rw [e] at hmem
      exact hpost hmem
    rw [if_pos ⟨by simp, hlast⟩]
    have : (pre ++ ip.lineBreak :: post).reverse = post.reverse ++ ip.lineBreak :: pre.reverse := by
      simp
    rw [this, correctOffsetLoop_spec _ _ (by simpa using hpost)]
    simp

theorem split_last_occurrence (x : Nat) (l : List Nat) (h : x ∈ l) :
    ∃ pre post, l = pre ++ x :: post ∧ x ∉ post := by
  induction l with
  | nil => simp at h
  | cons a t ih =>
    by_cases ht : x ∈ t
    · obtain ⟨pre, post, h1, h2⟩ := ih ht
      exact ⟨a :: pre, post, by simp [h1], h2⟩
    · have : x = a := by
        rcases List.mem_cons.1 h with h | h
        · exact h
        · exact absurd h ht
      exact ⟨[], t, by simp [this], ht⟩

theorem mem_dropLast_append_singleton (l : List Int) (a p : Int) (h : p ∈ (l ++ [a]).dropLast) :
    p ∈ l := by
  simpa using h

theorem readAtOk_cases (content buffer : List Nat) (off : Int) (h : 0 ≤ off)
    (hb : 0 < buffer.length) :
    (content.length < off.toNat + buffer.length ∧
      ∃ b1 n, readAtOk content buffer off = (b1, n, some Error.eof)) ∨
    (off.toNat + buffer.length ≤ content.length ∧
      readAtOk content buffer off =
        ((content.drop off.toNat).take buffer.length, buffer.length, none)) := by
  unfold readAtOk
  rw [if_neg (by omega)]
  simp only
  by_cases hshort : ((content.drop off.toNat).take buffer.length).length < buffer.length
  · left
    refine ⟨?_, _, _, by rw [if_pos hshort]⟩
    simp at hshort
    omega
  · right
    have hlen : ((content.drop off.toNat).take buffer.length).length = buffer.length := by
      simp at hshort ⊢
      omega
    refine ⟨?_, ?_⟩
    · simp at hshort; omega
    · rw [if_neg hshort, hlen]
      simp

theorem positionsLoop_quiet (ip : IPCounter) (chunk : Int) (hchunk : 0 ≤ chunk)
    (hsize : ip.fileSize = ip.file.length) (hrun : NoLongRun ip.lineBreak 16 ip.file)
    (remaining : Nat) :
    ∀ (i : Int) (st : PosState), st.env = Env.quiet → 0 ≤ st.offset → st.buffer.length = 16 →
      (∀ p ∈ st.offsets, AfterSeparator ip.lineBreak ip.file p) →
      ∃ offsets, positionsLoop ip 16 chunk remaining i st = ((offsets, none), Env.quiet) ∧
        ∀ p ∈ offsets.dropLast, AfterSeparator ip.lineBreak ip.file p := by
  induction remaining with
  | zero =>
    intro i st henv _ _ hoff
    exact ⟨st.offsets, by rw [positionsLoop, henv], fun p hp => hoff p (List.mem_of_mem_dropLast hp)⟩
  | succ remaining ih =>
    intro i st henv hoff0 hbuf hoff
    rw [positionsLoop, henv]
    have hc : checkContext Env.quiet.ctx = none := rfl
    rw [hc]
    simp only []
    rw [show ({ Env.quiet with ctx := Env.quiet.ctx.next } : Env) = Env.quiet from rfl]
    generalize ho1 : (if i = ip.GetMaxGoroutines - 1 ∨ st.offset + chunk > ip.fileSize
      then ip.fileSize else st.offset + chunk) = offset1
    have h1 : 0 ≤ offset1 := by
      rw [← ho1]; split <;> omega
    rw [readAtRetry_quiet _ _ _ h1]
    rcases readAtOk_cases ip.file st.buffer offset1 h1 (by omega) with ⟨_, b1, n, hr⟩ | ⟨hfull, hr⟩
    · rw [hr]
      refine ⟨st.offsets ++ [offset1], ?_, ?_⟩
      · simp
      · intro p hp
        exact hoff p (mem_dropLast_append_singleton _ _ _ hp)
    · rw [hr, hbuf]
      simp only [reduceCtorEq, ne_eq, not_true_eq_false, false_and, if_false, decide_False,
        Bool.false_eq_true, not_false_eq_true, if_true]
      have hwin : ip.lineBreak ∈ (ip.file.drop offset1.toNat).take 16 := by
        apply hrun
        omega
      obtain ⟨pre, post, hsplit, hpost⟩ := split_last_occurrence _ _ hwin
      have hlen : pre.length + 1 + post.length = 16 := by
        have h16 : ((ip.file.drop offset1.toNat).take 16).length = 16 := by
          simp; omega
        rw [hsplit] at h16
        simp at h16
        omega
      have hco : correctOffset ip (offset1 + ((16 : Nat) : Int))
          ((ip.file.drop offset1.toNat).take 16) = offset1 + pre.length + 1 := by
        rw [hsplit, correctOffset_spec ip pre post hpost]
        omega
      rw [hco]
      have hafter : AfterSeparator ip.lineBreak ip.file (offset1 + pre.length + 1) := by
        refine ⟨by omega, ?_⟩
        have hidx : (offset1 + (pre.length : Int) + 1 - 1).toNat = offset1.toNat + pre.length := by
          omega
        rw [hidx]
        have hget : ((ip.file.drop offset1.toNat).take 16)[pre.length]? = some ip.lineBreak := by
          rw [hsplit, List.getElem?_append_right (Nat.le_refl _)]
          simp
        rw [List.getElem?_take_of_lt (by omega), List.getElem?_drop] at hget
        exact hget
      apply ih
      · rfl
      · show 0 ≤ offset1 + (pre.length : Int) + 1
        omega
      · show ((ip.file.drop offset1.toNat).take 16).length = 16
        simp; omega
      · intro p hp
        rcases List.mem_append.1 hp with hp | hp
        · exact hoff p hp
        · rw [List.mem_singleton.1 hp]
          exact hafter

theorem getPositions_quiet (content : List Nat) (sep : Nat) (W : Int) (hW : 1 ≤ W)
    (hrun : NoLongRun sep 16 content) :
    ∃ offsets,
      getPositions
        { file := content, fileSize := content.length, maxGoroutines := W, lineBreak := sep }
        Env.quiet maxLengthIp4 = Except.ok ((offsets, none), Env.quiet) ∧
      ∀ p ∈ offsets.dropLast, AfterSeparator sep content p := by
  unfold getPositions
  simp only [IPCounter.GetMaxGoroutines]
  rw [if_neg (by omega), if_neg (by omega)]
  have hchunk : 0 ≤ Int.tdiv (content.length : Int) W := by
    rw [Int.tdiv_eq_ediv (by omega) (by omega)]
    exact Int.ediv_nonneg (by omega) (by omega)
  obtain ⟨offsets, h1, h2⟩ := positionsLoop_quiet
    { file := content, fileSize := content.length, maxGoroutines := W, lineBreak := sep }
    (Int.tdiv (content.length : Int) W) hchunk rfl hrun W.toNat 0
    { env := Env.quiet, offset := 0, buffer := List.replicate 16 0, offsets := [] } rfl
    (by simp) (by simp) (by simp)
  exact ⟨offsets, by rw [show maxLengthIp4 = 16 from rfl, h1], h2⟩

/-- C6: when every run of non-separator bytes of the file is shorter than the
16-byte lookahead window, then for every worker count `W >= 1` `getPositions`
(no failing read, no cancellation) returns offsets of which every one except
the last is at least 1 and directly follows a separator byte of the file. -/
theorem getPositions_boundaries_after_separator (content : List Nat) (sep : Nat) (W : Int)
    (hW : 1 ≤ W) (hrun : NoLongRun sep 16 content) :
    ∃ offsets,
      getPositions
        { file := content, fileSize := content.length, maxGoroutines := W, lineBreak := sep }
        Env.quiet maxLengthIp4 = Except.ok ((offsets, none), Env.quiet) ∧
      ∀ p ∈ offsets.dropLast, 1 ≤ p ∧ content[(p - 1).toNat]? = some sep :=
  getPositions_quiet content sep W hW hrun

/-- Witness of C6: the file of `TestGetPositions` with two workers; the
offsets are 52 and 77 and the byte at index 51 is the separator. -/
theorem getPositions_boundaries_after_separator_witness :
    NoLongRun 10 16 testFileContent ∧
    (∃ offsets,
      getPositions
        { file := testFileContent, fileSize := testFileContent.length, maxGoroutines := 2,
          lineBreak := 10 }
        Env.quiet maxLengthIp4 = Except.ok ((offsets, none), Env.quiet) ∧
      ∀ p ∈ offsets.dropLast, 1 ≤ p ∧ testFileContent[(p - 1).toNat]? = some 10) ∧
    getPositions
      { file := testFileContent, fileSize := 77, maxGoroutines := 2, lineBreak := 10 }
      Env.quiet maxLengthIp4 = Except.ok (([52, 77], none), Env.quiet) ∧
    testFileContent[51]? = some 10 :=
  ⟨by decide,
   getPositions_boundaries_after_separator testFileContent 10 2 (by decide) (by decide),
   by decide, by decide⟩

/-! ## Inputs on which the code departs from its specification -/

/-- C5 (failing input): a 16-byte file of two terminated records planned for two
workers.  The lookahead read at the first candidate boundary 8 reaches the end
of the file, the loop appends the candidate as it is and stops: the only
offset is 8, not the file size 16, so the bytes from 8 on belong to no
partition, and the parallel reader built on these offsets counts one address
where the file holds two.  On the 77-byte file of `TestGetPositions` the
offsets are 52 and 77, as the test expects. -/
theorem getPositions_small_file_stops_short :
    getPositions
      { file := bytesOf "1.2.3.4\n5.6.7.8\n", fileSize := 16, maxGoroutines := 2,
        lineBreak := 10 }
      Env.quiet maxLengthIp4 = Except.ok (([8], none), Env.quiet) ∧
    ip4multipleReaders
      { file := bytesOf "1.2.3.4\n5.6.7.8\n", fileSize := 16, maxGoroutines := 2,
        lineBreak := 10 }
      Env.quiet 16 = some (Except.ok ((1, none), Env.quiet)) ∧
    ip4SequentialReader
      { file := bytesOf "1.2.3.4\n5.6.7.8\n", fileSize := 16, maxGoroutines := 2,
        lineBreak := 10 }
      Env.quiet 17 = some (Except.ok (2, none)) ∧
    getPositions
      { file := testFileContent, fileSize := 77, maxGoroutines := 2, lineBreak := 10 }
      Env.quiet maxLengthIp4 = Except.ok (([52, 77], none), Env.quiet) :=
  ⟨by decide, by decide, by decide, by decide⟩

/-- C7 (failing input): on an empty file `UniqueIP4` panics for every worker
hint, separator and number of cores: `getGoroutinesCount` sets `chunkSize` to
the file size 0 and divides by it.  The sequential reader called on the same
empty file, as its test does, returns count 0 and no error. -/
theorem UniqueIP4_empty_file_panics (maxGoroutines : Int) (lineBreak cores fuel : Nat) :
    UniqueIP4 (NewIPCounter maxGoroutines lineBreak) Env.quiet cores
      { content := [], size := 0, openErr := none, statErr := none, closeErr := none } fuel =
      some (Except.error Panic.divideByZero) ∧
    getGoroutinesCount
      { file := [], fileSize := 0, maxGoroutines := maxGoroutines, lineBreak := lineBreak }
      cores = Except.error Panic.divideByZero ∧
    ip4SequentialReader
      { file := [], fileSize := 0, maxGoroutines := maxGoroutines, lineBreak := lineBreak }
      Env.quiet (fuel + 1) = some (Except.ok (0, none)) :=
  ⟨rfl, rfl, rfl⟩

/-- C8 (failing input): five distinct addresses, the last one without a
separator after it.  The parallel reader with two workers counts 4, and 5 once
a separator is appended: the worker drops the last byte of the file and sends
`5.5.5.`, which does not parse. -/
theorem ip4multipleReaders_loses_unterminated_record :
    ip4multipleReaders
      { file := bytesOf "1.1.1.1\n2.2.2.2\n3.3.3.3\n4.4.4.4\n5.5.5.5", fileSize := 39,
        maxGoroutines := 2, lineBreak := 10 }
      Env.quiet 39 = some (Except.ok ((4, none), Env.quiet)) ∧
    ip4multipleReaders
      { file := bytesOf "1.1.1.1\n2.2.2.2\n3.3.3.3\n4.4.4.4\n5.5.5.5\n", fileSize := 40,
        maxGoroutines := 2, lineBreak := 10 }
      Env.quiet 40 = some (Except.ok ((5, none), Env.quiet)) ∧
    goroutineReader
      { file := bytesOf "1.1.1.1\n2.2.2.2\n3.3.3.3\n4.4.4.4\n5.5.5.5", fileSize := 39,
        maxGoroutines := 2, lineBreak := 10 }
      Env.quiet 32 39 maxLengthIp4 39 =
      some (Except.ok ((none, [bytesOf "5.5.5."]), Env.quiet)) :=
  ⟨by decide, by decide, by decide⟩

/-- C4 (failing input): on the same 45-byte file, whose last record
`10.0.0.55` has no separator after it, the parallel reader with two workers
returns 4 and the sequential reader 5: the worker sends the last record as
`10.0.0.5`, a key that is already present. -/
theorem parallel_and_sequential_counts_differ :
    ip4multipleReaders
      { file := bytesOf "10.0.0.1\n10.0.0.2\n10.0.0.3\n10.0.0.5\n10.0.0.55", fileSize := 45,
        maxGoroutines := 2, lineBreak := 10 }
      Env.quiet 46 = some (Except.ok ((4, none), Env.quiet)) ∧
    ip4SequentialReader
      { file := bytesOf "10.0.0.1\n10.0.0.2\n10.0.0.3\n10.0.0.5\n10.0.0.55", fileSize := 45,
        maxGoroutines := 2, lineBreak := 10 }
      Env.quiet 46 = some (Except.ok (5, none)) :=
  ⟨by decide, by decide⟩

/-! ## The worker-count policy -/

theorem getGoroutinesCount_eq (file : List Nat) (lineBreak : Nat) (S M : Int) (C : Nat)
    (hS : 1 ≤ S) (hM : 1 ≤ M) (hC : 1 ≤ C) :
    getGoroutinesCount { file := file, fileSize := S, maxGoroutines := M, lineBreak := lineBreak } C
      = Except.ok (min (min (max 1 (S / policyChunk S)) M) ((3 * C / 2 : Nat) : Int)) := by
  unfold getGoroutinesCount policyChunk
  simp only [IPCounter.GetMaxGoroutines]
  by_cases h1 : S < 1073741824
  · simp only [h1, if_true]
    rw [if_neg (by omega), Int.tdiv_self (by omega), Int.ediv_self (by omega)]
    simp only [one_ne_zero, if_false]
    congr 1
    split <;> split <;> omega
  · simp only [h1, if_false]
    by_cases h2 : S ≤ 10737418240
    · simp only [h2, if_true]
      rw [if_neg (by omega), Int.tdiv_eq_ediv (by omega) (by omega)]
      congr 1
      split <;> split <;> split <;> omega
    · simp only [h2, if_false]
      rw [if_neg (by omega), Int.tdiv_eq_ediv (by omega) (by omega)]
      congr 1
      split <;> split <;> split <;> omega

/-- C12: for a file size `S >= 1`, a requested maximum `M >= 1` and `C >= 1`
cores, `getGoroutinesCount` returns `min(max(1, S / chunk), M, floor(1.5*C))`
with integer division, where `S / chunk` is 1 below 1 GiB, `chunk` is 100 MiB
from 1 GiB to 10 GiB and 1 GiB above; the result is at least 1, at most `M`,
at most `floor(1.5*C)`, and exactly 1 for a file under 1 GiB. -/
theorem getGoroutinesCount_policy (file : List Nat) (lineBreak : Nat) (S M : Int) (C : Nat)
    (hS : 1 ≤ S) (hM : 1 ≤ M) (hC : 1 ≤ C) :
    ∃ r : Int,
      getGoroutinesCount
        { file := file, fileSize := S, maxGoroutines := M, lineBreak := lineBreak } C =
        Except.ok r ∧
      r = min (min (max 1 (S / policyChunk S)) M) ((3 * C / 2 : Nat) : Int) ∧
      (S < 1073741824 → S / policyChunk S = 1) ∧
      (1073741824 ≤ S → S ≤ 10737418240 → policyChunk S = 104857600) ∧
      (10737418240 < S → policyChunk S = 1073741824) ∧
      1 ≤ r ∧ r ≤ M ∧ r ≤ ((3 * C / 2 : Nat) : Int) ∧
      (S < 1073741824 → r = 1) := by
  have h1 : S < 1073741824 → S / policyChunk S = 1 := by
    intro h
    rw [policyChunk, if_pos h, Int.ediv_self (by omega)]
  have h2 : 1073741824 ≤ S → S ≤ 10737418240 → policyChunk S = 104857600 := by
    intro ha hb
    rw [policyChunk, if_neg (by omega), if_pos hb]
  have h3 : 10737418240 < S → policyChunk S = 1073741824 := by
    intro ha
    rw [policyChunk, if_neg (by omega), if_neg (by omega)]
  refine ⟨_, getGoroutinesCount_eq file lineBreak S M C hS hM hC, rfl, h1, h2, h3, ?_, ?_, ?_, ?_⟩
  · omega
  · omega
  · omega
  · intro h
    rw [h1 h]
    omega

/-- Witness of C12: a 2 GiB file, a requested maximum of 8 and 4 cores give
`min(20, 8, 6) = 6` workers. -/
theorem getGoroutinesCount_policy_witness :
    ∃ r : Int,
      getGoroutinesCount
        { file := [], fileSize := 2147483648, maxGoroutines := 8, lineBreak := 10 } 4 =
        Except.ok r ∧
      r = min (min (max 1 (2147483648 / policyChunk 2147483648)) 8) ((3 * 4 / 2 : Nat) : Int) ∧
      ((2147483648 : Int) < 1073741824 → 2147483648 / policyChunk 2147483648 = 1) ∧
      ((1073741824 : Int) ≤ 2147483648 → (2147483648 : Int) ≤ 10737418240 →
        policyChunk 2147483648 = 104857600) ∧
      ((10737418240 : Int) < 2147483648 → policyChunk 2147483648 = 1073741824) ∧
      1 ≤ r ∧ r ≤ 8 ∧ r ≤ ((3 * 4 / 2 : Nat) : Int) ∧
      ((2147483648 : Int) < 1073741824 → r = 1) :=
  getGoroutinesCount_policy [] 10 2147483648 8 4 (by decide) (by decide) (by decide)

/-! ## Boundary correction -/

theorem correctOffsetLoop_takeWhile (sep : Nat) (l : List Nat) (off : Int) :
    correctOffsetLoop sep l off = off - ((l.takeWhile (fun b => b ≠ sep)).length : Int) := by
  induction l generalizing off with
  | nil => simp [correctOffsetLoop]
  | cons b t ih =>
    rw [correctOffsetLoop]
    by_cases hb : b = sep
    · simp [hb]
    · rw [if_neg hb, ih]
      simp [hb]
      omega

theorem correctOffset_eq (ip : IPCounter) (off : Int) (buffer : List Nat) :
    correctOffset ip off buffer = off - (bytesAfterLastSeparator ip.lineBreak buffer : Int) := by
  unfold correctOffset bytesAfterLastSeparator
  by_cases hc : buffer.length > 0 ∧ buffer.getD (buffer.length - 1) 0 ≠ ip.lineBreak
  · rw [if_pos hc, correctOffsetLoop_takeWhile]
  · rw [if_neg hc]
    cases hrev : buffer.reverse with
    | nil => simp
    | cons b t =>
      have hb : buffer = t.reverse ++ [b] := by
        have := congrArg List.reverse hrev
        simpa using this
      have hlast : buffer.getD (buffer.length - 1) 0 = b := by
        rw [hb]; exact getD_last_append _ _
      have hpos : buffer.length > 0 := by rw [hb]; simp
      have : b = ip.lineBreak := by
        by_contra hne
        exact hc ⟨hpos, by rw [hlast]; exact hne⟩
      simp [this]

theorem bytesAfter_no_sep (sep : Nat) (buffer : List Nat) (h : sep ∉ buffer) :
    bytesAfterLastSeparator sep buffer = buffer.length := by
  unfold bytesAfterLastSeparator
  rw [List.takeWhile_eq_self_iff.2]
  · simp
  · intro b hb
    simp only [decide_eq_true_eq]
    intro e
    exact h (e ▸ List.mem_reverse.1 hb)

theorem bytesAfter_ends_sep (sep : Nat) (pre : List Nat) :
    bytesAfterLastSeparator sep (pre ++ [sep]) = 0 := by
  simp [bytesAfterLastSeparator]

/-- C16: `correctOffset` lowers the offset by exactly the number of buffer
bytes that follow the last separator: not at all for an empty buffer or one
that ends with the separator, by `len(buffer)` when the buffer holds no
separator, so an offset first advanced by `len(buffer)` comes back to where it
was.  The three cases of `TestCorrectOffset` named in the claim give 33, 0
and 5. -/
theorem correctOffset_lowers_by_tail :
    (∀ (ip : IPCounter) (offset : Int) (buffer : List Nat),
      correctOffset ip offset buffer = offset - (bytesAfterLastSeparator ip.lineBreak buffer : Int) ∧
      (buffer = [] → correctOffset ip offset buffer = offset) ∧
      (∀ pre, buffer = pre ++ [ip.lineBreak] → correctOffset ip offset buffer = offset) ∧
      (ip.lineBreak ∉ buffer → correctOffset ip offset buffer = offset - (buffer.length : Int)) ∧
      (ip.lineBreak ∉ buffer → correctOffset ip (offset + (buffer.length : Int)) buffer = offset)) ∧
    correctOffset (NewIPCounter 1 10) (10 + 23) (bytesOf "More data\nAnother line\n") = 33 ∧
    correctOffset (NewIPCounter 1 10) (0 + 11) (bytesOf "192.168.0.1") = 0 ∧
    correctOffset (NewIPCounter 1 10) (5 + 20) (bytesOf "data without newline") = 5 := by
  refine ⟨fun ip offset buffer => ⟨correctOffset_eq ip offset buffer, ?_, ?_, ?_, ?_⟩,
    by decide, by decide, by decide⟩
  · intro h; subst h; simp [correctOffset_eq, bytesAfterLastSeparator]
  · intro pre h; subst h; rw [correctOffset_eq, bytesAfter_ends_sep]; simp
  · intro h; rw [correctOffset_eq, bytesAfter_no_sep _ _ h]
  · intro h; rw [correctOffset_eq, bytesAfter_no_sep _ _ h]; omega

/-! ## Cancellation -/

theorem seq_cancelled (file : List Nat) (S : Nat) (M : Int) (sep : Nat) (fa : List Bool)
    (fr : List (Option Nat)) (fuel : Nat) :
    ip4SequentialReader { file := file, fileSize := S, maxGoroutines := M, lineBreak := sep }
      { ctx := some 0, readAtFaults := fa, readFaults := fr } (fuel + 1) =
      some (Except.ok (0, some Error.canceled)) := by
  unfold ip4SequentialReader
  simp only
  have hdiv : Int.tdiv (S : Int) 8 = ((S / 8 : Nat) : Int) := (Int.ofNat_tdiv S 8).symm
  rw [hdiv, if_neg]
  · rfl
  · rintro ⟨_, h⟩
    split at h <;> (try split at h) <;> omega

theorem pos_cancelled (file : List Nat) (S : Int) (W : Nat) (sep : Nat) (fa : List Bool)
    (fr : List (Option Nat)) (wordMaxLen : Nat) :
    getPositions { file := file, fileSize := S, maxGoroutines := (W : Int) + 1, lineBreak := sep }
      { ctx := some 0, readAtFaults := fa, readFaults := fr } wordMaxLen =
      Except.ok (([], some Error.canceled), { ctx := some 0, readAtFaults := fa, readFaults := fr }) := by
  unfold getPositions
  simp only [IPCounter.GetMaxGoroutines]
  rw [if_neg (by omega), if_neg (by omega)]
  have : ((W : Int) + 1).toNat = W + 1 := by omega
  rw [this, positionsLoop]
  rfl

theorem uniq_cancelled (ip : IPCounter) (fa : List Bool) (fr : List (Option Nat)) (cores : Nat)
    (f : OsFile) (fuel : Nat) :
    UniqueIP4 ip { ctx := some 0, readAtFaults := fa, readFaults := fr } cores f fuel =
      some (Except.ok ((0, some Error.canceled), ip)) := by
  rfl

theorem seqLoop_returned (sep : Nat) (capacity : Int) (bitsetLen : Nat) :
    ∀ (fuel : Nat) (st : SeqState),
      seqLoop sep capacity bitsetLen fuel st =
        returned (seqLoopTrace sep capacity bitsetLen fuel st) := by
  intro fuel
  induction fuel with
  | zero =>
    intro st
    rw [seqLoop, seqLoopTrace]
    rfl
  | succ fuel ih =>
    intro st
    rw [seqLoop, seqLoopTrace]
    cases hctx : checkContext st.env.ctx with
    | some e => rfl
    | none =>
      rcases hread : readBytesRetry sep 3 { st.env with ctx := st.env.ctx.next } st.rest [] none
        with ⟨⟨line, err, rest1⟩, env1⟩
      simp only
      by_cases hfatal : err ≠ none ∧ err ≠ some Error.eof
      · rw [if_pos hfatal, if_pos hfatal]
        rfl
      · rw [if_neg hfatal, if_neg hfatal]
        cases hstore : storeLine sep capacity bitsetLen line st.ipsWithIndex st.ipsWithOutIndex
            st.uniqueCount with
        | error p => rfl
        | ok r =>
          obtain ⟨ips, buffered, count⟩ := r
          simp only
          by_cases heof : err = some Error.eof
          · rw [if_pos heof, if_pos heof]
            rfl
          · rw [if_neg heof, if_neg heof]
            exact ih _

theorem ip4SequentialReader_returned (ip : IPCounter) (env : Env) (fuel : Nat) :
    ip4SequentialReader ip env fuel = returned (ip4SequentialReaderTrace ip env fuel) := by
  unfold ip4SequentialReader ip4SequentialReaderTrace
  simp only
  rw [apply_ite returned, ← seqLoop_returned]
  rfl

theorem UniqueIP4_returned (ip : IPCounter) (env : Env) (cores : Nat) (f : OsFile) (fuel : Nat) :
    UniqueIP4 ip env cores f fuel = returned (UniqueIP4Trace ip env cores f fuel) := by
  unfold UniqueIP4 UniqueIP4Trace
  cases hctx : checkContext env.ctx with
  | some e => rfl
  | none =>
    simp only
    cases hopen : f.openErr with
    | some e => rfl
    | none =>
      simp only
      rcases hsize : getFileSize f with ⟨size, serr⟩
      cases serr with
      | some e => rfl
      | none =>
        simp only
        cases hpol : getGoroutinesCount { ip with file := f.content, fileSize := size } cores with
        | error p => rfl
        | ok count =>
          simp only
          by_cases hw : count > 1
          · rw [if_pos hw, if_pos hw]
            rcases hrun : ip4multipleReaders
              { file := f.content, fileSize := size, maxGoroutines := count,
                lineBreak := ip.lineBreak } { env with ctx := env.ctx.next } fuel
              with _ | ⟨p | ⟨⟨uc, err⟩, env2⟩⟩ <;> rfl
          · rw [if_neg hw, if_neg hw]
            rw [ip4SequentialReader_returned]
            rcases hrun : ip4SequentialReaderTrace
              { file := f.content, fileSize := size, maxGoroutines := count,
                lineBreak := ip.lineBreak } { env with ctx := env.ctx.next } fuel
              with _ | ⟨p | ⟨⟨uc, err⟩, env2, rest⟩⟩ <;> rfl

theorem seq_trace_cancelled (file : List Nat) (S : Nat) (M : Int) (sep : Nat) (fa : List Bool)
    (fr : List (Option Nat)) (fuel : Nat) :
    ip4SequentialReaderTrace
      { file := file, fileSize := S, maxGoroutines := M, lineBreak := sep }
      { ctx := some 0, readAtFaults := fa, readFaults := fr } (fuel + 1) =
      some (Except.ok ((0, some Error.canceled),
        { ctx := some 0, readAtFaults := fa, readFaults := fr }, file)) := by
  unfold ip4SequentialReaderTrace
  simp only
  have hdiv : Int.tdiv (S : Int) 8 = ((S / 8 : Nat) : Int) := (Int.ofNat_tdiv S 8).symm
  rw [hdiv, if_neg]
  · rfl
  · rintro ⟨_, h⟩
    split at h <;> (try split at h) <;> omega

theorem uniq_trace_cancelled (ip : IPCounter) (fa : List Bool) (fr : List (Option Nat))
    (cores : Nat) (f : OsFile) (fuel : Nat) :
    UniqueIP4Trace ip { ctx := some 0, readAtFaults := fa, readFaults := fr } cores f fuel =
      some (Except.ok (((0, some Error.canceled), ip),
        { ctx := some 0, readAtFaults := fa, readFaults := fr })) := by
  rfl

/-- C15: `checkContext` returns an error for a context that is already
cancelled and nil for one that is not.  With an already cancelled context
`UniqueIP4`, `ip4SequentialReader` and `getPositions` return the cancellation
error with count 0 (no offsets), whatever the file holds and whichever reads
would fail, and they return it without reading: the environment at the return
is the one of the call, with every pending read failure still pending, the
sequential reader has all the bytes of the file unread, and the receiver of
`UniqueIP4` has no file attached.  The runs with the trace return what
`ip4SequentialReader` and `UniqueIP4` return; with a live context the same
trace shows the read that was made. -/
theorem cancelled_context_returns_at_once :
    checkContext (some 0) = some Error.canceled ∧
    checkContext none = none ∧
    (∀ n : Nat, checkContext (some (n + 1)) = none) ∧
    (∀ (ip : IPCounter) (fa : List Bool) (fr : List (Option Nat)) (cores : Nat) (f : OsFile)
        (fuel : Nat),
      UniqueIP4 ip { ctx := some 0, readAtFaults := fa, readFaults := fr } cores f fuel =
        some (Except.ok ((0, some Error.canceled), ip))) ∧
    (∀ (file : List Nat) (S : Nat) (M : Int) (sep : Nat) (fa : List Bool)
        (fr : List (Option Nat)) (fuel : Nat),
      ip4SequentialReader { file := file, fileSize := S, maxGoroutines := M, lineBreak := sep }
        { ctx := some 0, readAtFaults := fa, readFaults := fr } (fuel + 1) =
        some (Except.ok (0, some Error.canceled))) ∧
    (∀ (file : List Nat) (S : Int) (W : Nat) (sep : Nat) (fa : List Bool)
        (fr : List (Option Nat)) (wordMaxLen : Nat),
      getPositions
        { file := file, fileSize := S, maxGoroutines := (W : Int) + 1, lineBreak := sep }
        { ctx := some 0, readAtFaults := fa, readFaults := fr } wordMaxLen =
        Except.ok (([], some Error.canceled),
          { ctx := some 0, readAtFaults := fa, readFaults := fr })) ∧
    (∀ (ip : IPCounter) (fa : List Bool) (fr : List (Option Nat)) (cores : Nat) (f : OsFile)
        (fuel : Nat),
      UniqueIP4Trace ip { ctx := some 0, readAtFaults := fa, readFaults := fr } cores f fuel =
        some (Except.ok (((0, some Error.canceled), ip),
          { ctx := some 0, readAtFaults := fa, readFaults := fr }))) ∧
    (∀ (file : List Nat) (S : Nat) (M : Int) (sep : Nat) (fa : List Bool)
        (fr : List (Option Nat)) (fuel : Nat),
      ip4SequentialReaderTrace
        { file := file, fileSize := S, maxGoroutines := M, lineBreak := sep }
        { ctx := some 0, readAtFaults := fa, readFaults := fr } (fuel + 1) =
        some (Except.ok ((0, some Error.canceled),
          { ctx := some 0, readAtFaults := fa, readFaults := fr }, file))) ∧
    (∀ (ip : IPCounter) (env : Env) (cores : Nat) (f : OsFile) (fuel : Nat),
      UniqueIP4 ip env cores f fuel = returned (UniqueIP4Trace ip env cores f fuel)) ∧
    (∀ (ip : IPCounter) (env : Env) (fuel : Nat),
      ip4SequentialReader ip env fuel = returned (ip4SequentialReaderTrace ip env fuel)) ∧
    ip4SequentialReaderTrace
      { file := bytesOf "1.2.3.4\n5.6.7.8\n", fileSize := 16, maxGoroutines := 1,
        lineBreak := 10 }
      { ctx := some 1, readAtFaults := [], readFaults := [none, some 2] } 17 =
      some (Except.ok ((0, some Error.canceled),
        { ctx := some 0, readAtFaults := [], readFaults := [some 2] }, bytesOf "5.6.7.8\n")) ∧
    UniqueIP4Trace (NewIPCounter 1 10)
      { ctx := some 1, readAtFaults := [], readFaults := [none, some 2] } 1
      { content := bytesOf "1.2.3.4\n5.6.7.8\n", size := 16, openErr := none, statErr := none,
        closeErr := none } 17 =
      some (Except.ok (((0, some Error.canceled),
          { file := bytesOf "1.2.3.4\n5.6.7.8\n", fileSize := 16, maxGoroutines := 1,
            lineBreak := 10 }),
        { ctx := some 0, readAtFaults := [], readFaults := [none, some 2] })) :=
  ⟨rfl, rfl, fun _ => rfl, uniq_cancelled, seq_cancelled, pos_cancelled, uniq_trace_cancelled,
    seq_trace_cancelled, UniqueIP4_returned, ip4SequentialReader_returned, by decide, by decide⟩

/-! ## Errors, retries and the state of the counter -/

theorem UniqueIP4_ignores_close (ip : IPCounter) (env : Env) (cores : Nat) (content : List Nat)
    (size : Int) (openErr statErr : Option Error) (closeErr : Error) (fuel : Nat) :
    UniqueIP4 ip env cores
      { content := content, size := size, openErr := openErr, statErr := statErr,
        closeErr := some closeErr } fuel =
    UniqueIP4 ip env cores
      { content := content, size := size, openErr := openErr, statErr := statErr,
        closeErr := none } fuel := by
  rfl

theorem UniqueIP4_parallel_passes (ip : IPCounter) (env : Env) (cores : Nat) (f : OsFile)
    (fuel : Nat) (workers : Int) (count : Nat) (err : Option Error) (env' : Env)
    (hctx : checkContext env.ctx = none) (hopen : f.openErr = none) (hstat : f.statErr = none)
    (hpol : getGoroutinesCount { ip with file := f.content, fileSize := f.size } cores =
      Except.ok workers) (hw : 1 < workers)
    (hrun : ip4multipleReaders
      { file := f.content, fileSize := f.size, maxGoroutines := workers, lineBreak := ip.lineBreak }
      { env with ctx := env.ctx.next } fuel = some (Except.ok ((count, err), env'))) :
    UniqueIP4 ip env cores f fuel =
      some (Except.ok ((count, err),
        { file := f.content, fileSize := f.size, maxGoroutines := workers,
          lineBreak := ip.lineBreak })) := by
  unfold UniqueIP4
  rw [hctx]
  simp only [hopen, getFileSize, hstat, hpol]
  rw [if_pos hw, hrun]

/-- C18 (failing input): a counter built with the worker hint 8 and run once
on an 8-byte file.  After the call `GetMaxGoroutines` returns 1, the worker
count of that run, and for a 2 GiB file on 8 cores the counter now chooses 1
worker where a fresh counter with the hint 8 chooses 8. -/
theorem UniqueIP4_overwrites_worker_hint :
    (NewIPCounter 8 10).GetMaxGoroutines = 8 ∧
    UniqueIP4 (NewIPCounter 8 10) Env.quiet 8
      { content := bytesOf "1.2.3.4\n", size := 8, openErr := none, statErr := none,
        closeErr := none } 9 =
      some (Except.ok ((1, none),
        { file := bytesOf "1.2.3.4\n", fileSize := 8, maxGoroutines := 1, lineBreak := 10 })) ∧
    IPCounter.GetMaxGoroutines
      { file := bytesOf "1.2.3.4\n", fileSize := 8, maxGoroutines := 1, lineBreak := 10 } = 1 ∧
    getGoroutinesCount
      { file := [], fileSize := 2147483648, maxGoroutines := 1, lineBreak := 10 } 8 =
      Except.ok 1 ∧
    getGoroutinesCount
      { file := [], fileSize := 2147483648, maxGoroutines := 8, lineBreak := 10 } 8 =
      Except.ok 8 :=
  ⟨rfl, by decide, rfl, by decide, by decide⟩

/-- C19 (failing input): `UniqueIP4` returns the same result whether closing
the file fails or not.  For an 8-byte file whose `Close` fails it returns
count 1 and a nil error, while the deferred function has assigned the joined
close error to the local variable only. -/
theorem UniqueIP4_drops_close_error :
    (∀ (ip : IPCounter) (env : Env) (cores : Nat) (content : List Nat) (size : Int)
        (openErr statErr : Option Error) (closeErr : Error) (fuel : Nat),
      UniqueIP4 ip env cores
        { content := content, size := size, openErr := openErr, statErr := statErr,
          closeErr := some closeErr } fuel =
      UniqueIP4 ip env cores
        { content := content, size := size, openErr := openErr, statErr := statErr,
          closeErr := none } fuel) ∧
    UniqueIP4 (NewIPCounter 1 10) Env.quiet 4
      { content := bytesOf "1.2.3.4\n", size := 8, openErr := none, statErr := none,
        closeErr := some Error.closeFailed } 9 =
      some (Except.ok ((1, none),
        { file := bytesOf "1.2.3.4\n", fileSize := 8, maxGoroutines := 1, lineBreak := 10 })) ∧
    deferredClose
      { content := bytesOf "1.2.3.4\n", size := 8, openErr := none, statErr := none,
        closeErr := some Error.closeFailed } none =
      some (Error.joinOne Error.closeFailed) :=
  ⟨UniqueIP4_ignores_close, by decide, rfl⟩

/-- C20 (failing input): the 8-byte file `1.2.3.4` with its separator, where
the first `ReadBytes` fails after three bytes were buffered and the retry
succeeds.  The failed call has consumed `1.2`, the retry returns the rest
`.3.4` with the separator as the line, and the reader counts 0 where the run
without failure counts 1. -/
theorem sequential_retry_loses_bytes :
    readBytes { ctx := none, readAtFaults := [], readFaults := [some 3] } 10
      (bytesOf "1.2.3.4\n") =
      ((bytesOf "1.2", some Error.io, bytesOf ".3.4\n"), Env.quiet) ∧
    readBytesRetry 10 3 { ctx := none, readAtFaults := [], readFaults := [some 3] }
      (bytesOf "1.2.3.4\n") [] none = ((bytesOf ".3.4\n", none, []), Env.quiet) ∧
    ip4SequentialReader
      { file := bytesOf "1.2.3.4\n", fileSize := 8, maxGoroutines := 1, lineBreak := 10 }
      { ctx := none, readAtFaults := [], readFaults := [some 3] } 9 =
      some (Except.ok (0, none)) ∧
    ip4SequentialReader
      { file := bytesOf "1.2.3.4\n", fileSize := 8, maxGoroutines := 1, lineBreak := 10 }
      Env.quiet 9 = some (Except.ok (1, none)) :=
  ⟨by decide, by decide, by decide, by decide⟩

/-! ## Trimming -/

theorem decodeRune_cons (p0 : Nat) (t : List Nat) :
    decodeRune (p0 :: t) =
      if p0 < 0x80 then (p0, 1)
      else if p0 < 0xC2 ∨ 0xF4 < p0 then (runeError, 1)
      else decodeTail p0 t (if p0 < 0xE0 then 2 else if p0 < 0xF0 then 3 else 4)
        (if p0 = 0xE0 then 0xA0 else if p0 = 0xF0 then 0x90 else 0x80)
        (if p0 = 0xED then 0x9F else if p0 = 0xF4 then 0x8F else 0xBF) := rfl

theorem decodeTail_size_pos (p0 : Nat) (t : List Nat) (sz lo hi : Nat) :
    1 ≤ (decodeTail p0 t sz lo hi).2 := by
  unfold decodeTail
  simp only []
  split_ifs <;> simp

theorem decodeTail_size_le (p0 : Nat) (t : List Nat) (sz lo hi : Nat) (hsz : 2 ≤ sz) :
    (decodeTail p0 t sz lo hi).2 ≤ (p0 :: t).length := by
  unfold decodeTail
  simp only []
  split_ifs <;> simp only [List.length_cons] at * <;> omega

set_option maxHeartbeats 4000000 in
theorem decodeTail_append (p0 : Nat) (t v : List Nat) (sz lo hi : Nat) (hsz2 : 2 ≤ sz)
    (hsz : sz ≤ 4)
    (hlo : 128 ≤ lo) (hv : ∀ c ∈ v, c < 128) :
    decodeTail p0 (t ++ v) sz lo hi = decodeTail p0 t sz lo hi := by
  have hv0 : v.getD 0 0 < 128 := by
    cases v with
    | nil => simp
    | cons c v' => simpa using hv c (by simp)
  match t with
  | [] =>
    unfold decodeTail
    simp only [List.nil_append, List.length_cons, List.length_nil]
    split_ifs <;> first | omega | rfl
  | [a] =>
    unfold decodeTail
    simp only [List.cons_append, List.nil_append, List.length_cons, List.length_nil,
      List.getD_cons_zero, List.getD_cons_succ]
    split_ifs <;> first | omega | rfl
  | [a, b] =>
    unfold decodeTail
    simp only [List.cons_append, List.nil_append, List.length_cons, List.length_nil,
      List.getD_cons_zero, List.getD_cons_succ]
    split_ifs <;> first | omega | rfl
  | a :: b :: c :: t' =>
    unfold decodeTail
    simp only [List.cons_append, List.length_cons, List.length_append,
      List.getD_cons_zero, List.getD_cons_succ]
    split_ifs <;> first | omega | rfl

theorem decodeRune_size_pos (p : List Nat) (h : p ≠ []) : 1 ≤ (decodeRune p).2 := by
  cases p with
  | nil => exact absurd rfl h
  | cons p0 t =>
    rw [decodeRune_cons]
    by_cases h1 : p0 < 0x80
    · simp [h1]
    · rw [if_neg h1]
      by_cases h2 : p0 < 0xC2 ∨ 0xF4 < p0
      · simp [h2]
      · rw [if_neg h2]; exact decodeTail_size_pos _ _ _ _ _

theorem decodeRune_size_le (p : List Nat) : (decodeRune p).2 ≤ p.length := by
  cases p with
  | nil => simp [decodeRune]
  | cons p0 t =>
    rw [decodeRune_cons]
    by_cases h1 : p0 < 0x80
    · simp [h1]
    · rw [if_neg h1]
      by_cases h2 : p0 < 0xC2 ∨ 0xF4 < p0
      · simp [h2]
      · rw [if_neg h2]
        apply decodeTail_size_le
        split_ifs <;> omega

theorem decodeRune_append (p v : List Nat) (hp : p ≠ []) (hv : ∀ c ∈ v, c < 128) :
    decodeRune (p ++ v) = decodeRune p := by
  cases p with
  | nil => exact absurd rfl hp
  | cons p0 t =>
    rw [List.cons_append, decodeRune_cons, decodeRune_cons]
    by_cases h1 : p0 < 0x80
    · rw [if_pos h1, if_pos h1]
    · rw [if_neg h1, if_neg h1]
      by_cases h2 : p0 < 0xC2 ∨ 0xF4 < p0
      · rw [if_pos h2, if_pos h2]
      · rw [if_neg h2, if_neg h2]
        apply decodeTail_append _ _ _ _ _ _ _ _ _ hv
        · split_ifs <;> omega
        · split_ifs <;> omega
        · split_ifs <;> omega

theorem isAsciiSpace_lt {c : Nat} (h : isAsciiSpace c = true) : c < 128 := by
  simp [isAsciiSpace] at h
  omega

theorem isAsciiSpace_unicode {c : Nat} (h : isAsciiSpace c = true) : unicodeIsSpace c = true := by
  simp [isAsciiSpace] at h
  unfold unicodeIsSpace
  rw [if_pos (by omega)]
  simp
  omega

theorem indexFunc_spaces (t v : List Nat) (hv : ∀ c ∈ v, isAsciiSpace c = true) (fuel : Nat) :
    ∀ start, t.length ≤ start → indexFunc false (t ++ v) fuel start = none := by
  induction fuel with
  | zero => intro start _; rfl
  | succ fuel ih =>
    intro start hstart
    rw [indexFunc]
    by_cases h1 : start < (t ++ v).length
    · rw [if_pos h1]
      have hlt : start - t.length < v.length := by
        simp at h1; omega
      have hget : (t ++ v).getD start 0 = v[start - t.length] := by
        rw [List.getD_eq_getElem _ _ h1, List.getElem_append_right hstart]
      have hsp := hv _ (List.getElem_mem hlt)
      have h128 := isAsciiSpace_lt hsp
      have hnot : ¬ 128 ≤ v[start - t.length] := by omega
      simp only [hget, hnot, if_false, isAsciiSpace_unicode hsp, Bool.true_eq_false]
      exact ih _ (by omega)
    · rw [if_neg h1]

theorem runeAt_bounds (t : List Nat) (start : Nat) (h1 : start < t.length) :
    1 ≤ (if 128 ≤ t.getD start 0 then decodeRune (t.drop start) else (t.getD start 0, 1)).2 ∧
    start + (if 128 ≤ t.getD start 0 then decodeRune (t.drop start)
      else (t.getD start 0, 1)).2 ≤ t.length := by
  have hne : t.drop start ≠ [] := by
    intro e
    have := congrArg List.length e
    simp at this
    omega
  have hpos := decodeRune_size_pos (t.drop start) hne
  have hle := decodeRune_size_le (t.drop start)
  simp at hle
  by_cases h : 128 ≤ t.getD start 0
  · rw [if_pos h]; omega
  · rw [if_neg h]; simp only []; omega

theorem indexFunc_append (t v : List Nat) (hv : ∀ c ∈ v, isAsciiSpace c = true) (fuel : Nat) :
    ∀ start, start ≤ t.length →
      indexFunc false (t ++ v) fuel start = indexFunc false t fuel start := by
  induction fuel with
  | zero => intro start _; rfl
  | succ fuel ih =>
    intro start hstart
    by_cases h1 : start < t.length
    · rw [indexFunc, indexFunc, if_pos h1, if_pos (by simp; omega)]
      have hget : (t ++ v).getD start 0 = t.getD start 0 := by
        rw [List.getD_eq_getElem _ _ (by simp; omega), List.getD_eq_getElem _ _ h1,
          List.getElem_append_left h1]
      have hdrop : (t ++ v).drop start = t.drop start ++ v := by
        rw [List.drop_append_of_le_length (by omega)]
      have hne : t.drop start ≠ [] := by
        intro e
        have := congrArg List.length e
        simp at this
        omega
      have hdec : decodeRune ((t ++ v).drop start) = decodeRune (t.drop start) := by
        rw [hdrop]
        exact decodeRune_append _ _ hne (fun c hc => isAsciiSpace_lt (hv c hc))
      simp only [hget, hdec]
      obtain ⟨_, hb⟩ := runeAt_bounds t start h1
      generalize (if 128 ≤ t.getD start 0 then decodeRune (t.drop start)
        else (t.getD start 0, 1)) = X at hb ⊢
      by_cases h2 : unicodeIsSpace X.1 = false
      · rw [if_pos h2, if_pos h2]
      · rw [if_neg h2, if_neg h2]
        exact ih _ hb
    · rw [indexFunc_spaces t v hv _ _ (by omega), indexFunc, if_neg h1]

theorem indexFunc_fuel (truth : Bool) (t : List Nat) (extra fuel : Nat) :
    ∀ start, t.length ≤ fuel + start →
      indexFunc truth t (fuel + extra) start = indexFunc truth t fuel start := by
  induction fuel with
  | zero =>
    intro start h
    cases extra with
    | zero => rfl
    | succ e =>
      rw [Nat.zero_add, indexFunc, indexFunc, if_neg (by omega)]
  | succ fuel ih =>
    intro start h
    rw [show fuel + 1 + extra = (fuel + extra) + 1 by omega, indexFunc, indexFunc]
    by_cases h1 : start < t.length
    · rw [if_pos h1, if_pos h1]
      simp only []
      obtain ⟨ha, _⟩ := runeAt_bounds t start h1
      generalize (if 128 ≤ t.getD start 0 then decodeRune (t.drop start)
        else (t.getD start 0, 1)) = X at ha ⊢
      by_cases h2 : unicodeIsSpace X.1 = truth
      · rw [if_pos h2, if_pos h2]
      · rw [if_neg h2, if_neg h2]
        exact ih _ (by omega)
    · rw [if_neg h1, if_neg h1]

theorem indexFunc_lt (truth : Bool) (t : List Nat) (fuel : Nat) :
    ∀ start i, indexFunc truth t fuel start = some i → i < t.length := by
  induction fuel with
  | zero => intro start i h; cases h
  | succ fuel ih =>
    intro start i h
    rw [indexFunc] at h
    by_cases h1 : start < t.length
    · rw [if_pos h1] at h
      simp only [] at h
      generalize (if 128 ≤ t.getD start 0 then decodeRune (t.drop start)
        else (t.getD start 0, 1)) = X at h
      by_cases h2 : unicodeIsSpace X.1 = truth
      · rw [if_pos h2] at h; cases h; exact h1
      · rw [if_neg h2] at h; exact ih _ _ h
    · rw [if_neg h1] at h; cases h

theorem trimLeftFunc_append (t v : List Nat) (hv : ∀ c ∈ v, isAsciiSpace c = true) :
    (trimLeftFunc t = [] ∧ trimLeftFunc (t ++ v) = [] ∧ indexFunc false t t.length 0 = none) ∨
    (∃ i, i < t.length ∧ trimLeftFunc t = t.drop i ∧ trimLeftFunc (t ++ v) = t.drop i ++ v) := by
  have h1 : indexFunc false (t ++ v) (t ++ v).length 0 = indexFunc false t t.length 0 := by
    rw [indexFunc_append t v hv _ 0 (by omega), List.length_append,
      indexFunc_fuel false t v.length t.length 0 (by omega)]
  unfold trimLeftFunc
  rw [h1]
  cases h : indexFunc false t t.length 0 with
  | none => left; exact ⟨rfl, rfl, rfl⟩
  | some i =>
    right
    have hi := indexFunc_lt _ _ _ _ _ h
    exact ⟨i, hi, rfl, by simp only []; rw [List.drop_append_of_le_length (by omega)]⟩

theorem lastRuneStart_le (p : List Nat) (lim : Int) (n : Nat) :
    ∀ s : Int, lastRuneStart p lim n s ≤ s := by
  induction n with
  | zero => intro s; simp [lastRuneStart]
  | succ n ih =>
    intro s
    rw [lastRuneStart]
    split_ifs
    · omega
    · omega
    · have := ih (s - 1); omega

theorem decodeLastRune_size_pos (p : List Nat) (h : p ≠ []) : 1 ≤ (decodeLastRune p).2 := by
  unfold decodeLastRune
  have hlen : 0 < p.length := List.length_pos.2 h
  simp only []
  rw [if_neg (by omega)]
  by_cases h1 : p.getD (p.length - 1) 0 < 128
  · rw [if_pos h1]
  · rw [if_neg h1]
    generalize hlim : (if (p.length : Int) - 4 < 0 then (0 : Int) else (p.length : Int) - 4) = lim
    have hs := lastRuneStart_le p lim 4 ((p.length : Int) - 2)
    generalize lastRuneStart p lim 4 ((p.length : Int) - 2) = s0 at hs ⊢
    generalize hst : (if s0 < 0 then 0 else s0.toNat) = start
    have hstart : start < p.length := by
      rw [← hst]; split_ifs <;> omega
    generalize decodeRune ((p.drop start).take (p.length - start)) = X
    obtain ⟨r, size⟩ := X
    simp only []
    split_ifs with h2
    · simp
    · simp only []
      simp only [ne_eq, Decidable.not_not] at h2
      omega

theorem lastRuneAt_pos (w : List Nat) (i : Nat) (hi : 0 < i) (hle : i ≤ w.length) :
    1 ≤ (if 128 ≤ w.getD (i - 1) 0 then decodeLastRune (w.take i) else (w.getD (i - 1) 0, 1)).2 := by
  by_cases h : 128 ≤ w.getD (i - 1) 0
  · rw [if_pos h]
    apply decodeLastRune_size_pos
    intro e
    have := congrArg List.length e
    rw [List.length_take] at this
    simp only [List.length_nil] at this
    omega
  · rw [if_neg h]

theorem lastIndexFunc_spaces (w v : List Nat) (hv : ∀ c ∈ v, isAsciiSpace c = true) (fuel : Nat) :
    ∀ k, k ≤ v.length →
      lastIndexFunc false (w ++ v) (fuel + k) (w.length + k) =
        lastIndexFunc false (w ++ v) fuel w.length := by
  intro k
  induction k with
  | zero => intro _; rfl
  | succ k ih =>
    intro hk
    rw [show fuel + (k + 1) = (fuel + k) + 1 by omega, lastIndexFunc, if_pos (by omega)]
    have hidx : w.length + (k + 1) - 1 = w.length + k := by omega
    have hget : (w ++ v).getD (w.length + k) 0 = v[k] := by
      rw [List.getD_eq_getElem _ _ (by simp; omega), List.getElem_append_right (by omega)]
      simp
    have hsp := hv _ (List.getElem_mem (show k < v.length by omega))
    have h128 := isAsciiSpace_lt hsp
    have hnot : ¬ 128 ≤ v[k] := by omega
    simp only [hidx, hget, hnot, if_false, isAsciiSpace_unicode hsp, Bool.true_eq_false]
    exact ih (by omega)

theorem lastIndexFunc_append (w v : List Nat) (fuel : Nat) :
    ∀ i, i ≤ w.length →
      lastIndexFunc false (w ++ v) fuel i = lastIndexFunc false w fuel i := by
  induction fuel with
  | zero => intro i _; rfl
  | succ fuel ih =>
    intro i hi
    rw [lastIndexFunc, lastIndexFunc]
    by_cases h0 : 0 < i
    · rw [if_pos h0, if_pos h0]
      have hget : (w ++ v).getD (i - 1) 0 = w.getD (i - 1) 0 := by
        rw [List.getD_eq_getElem _ _ (by simp; omega), List.getD_eq_getElem _ _ (by omega),
          List.getElem_append_left (by omega)]
      have htake : (w ++ v).take i = w.take i := by
        rw [List.take_append_of_le_length hi]
      simp only [hget, htake]
      generalize (if 128 ≤ w.getD (i - 1) 0 then decodeLastRune (w.take i)
        else (w.getD (i - 1) 0, 1)) = X
      by_cases h2 : unicodeIsSpace X.1 = false
      · rw [if_pos h2, if_pos h2]
      · rw [if_neg h2, if_neg h2]
        exact ih _ (by omega)
    · rw [if_neg h0, if_neg h0]

theorem lastIndexFunc_lt (truth : Bool) (w : List Nat) (fuel : Nat) :
    ∀ i0 i, i0 ≤ w.length → lastIndexFunc truth w fuel i0 = some i → i < w.length := by
  induction fuel with
  | zero => intro i0 i _ h; cases h
  | succ fuel ih =>
    intro i0 i hi0 h
    rw [lastIndexFunc] at h
    by_cases h0 : 0 < i0
    · rw [if_pos h0] at h
      simp only [] at h
      have hp := lastRuneAt_pos w i0 h0 hi0
      generalize (if 128 ≤ w.getD (i0 - 1) 0 then decodeLastRune (w.take i0)
        else (w.getD (i0 - 1) 0, 1)) = X at h hp
      by_cases h2 : unicodeIsSpace X.1 = truth
      · rw [if_pos h2] at h
        cases h
        omega
      · rw [if_neg h2] at h
        exact ih _ _ (by omega) h
    · rw [if_neg h0] at h; cases h

theorem trimRightFunc_append (w v : List Nat) (hv : ∀ c ∈ v, isAsciiSpace c = true) :
    trimRightFunc (w ++ v) = trimRightFunc w := by
  have h1 : lastIndexFunc false (w ++ v) (w ++ v).length (w ++ v).length =
      lastIndexFunc false w w.length w.length := by
    rw [List.length_append, lastIndexFunc_spaces w v hv w.length v.length (Nat.le_refl _),
      lastIndexFunc_append w v _ _ (Nat.le_refl _)]
  unfold trimRightFunc
  rw [h1]
  cases h : lastIndexFunc false w w.length w.length with
  | none => simp
  | some i =>
    have hi := lastIndexFunc_lt _ _ _ _ _ (Nat.le_refl _) h
    have hget : (w ++ v).getD i 0 = w.getD i 0 := by
      rw [List.getD_eq_getElem _ _ (by simp; omega), List.getD_eq_getElem _ _ hi,
        List.getElem_append_left hi]
    have hne : w.drop i ≠ [] := by
      intro e
      have := congrArg List.length e
      simp at this
      omega
    have hdec : decodeRune ((w ++ v).drop i) = decodeRune (w.drop i) := by
      rw [List.drop_append_of_le_length (by omega)]
      exact decodeRune_append _ _ hne (fun c hc => isAsciiSpace_lt (hv c hc))
    have hle := decodeRune_size_le (w.drop i)
    simp at hle
    simp only [hget, hdec]
    by_cases h2 : 128 ≤ w.getD i 0
    · rw [if_pos h2, if_pos h2, List.take_append_of_le_length (by omega)]
    · rw [if_neg h2, if_neg h2, List.take_append_of_le_length (by omega)]

theorem trimFunc_append (t v : List Nat) (hv : ∀ c ∈ v, isAsciiSpace c = true) :
    trimFunc (t ++ v) = trimFunc t := by
  unfold trimFunc
  rcases trimLeftFunc_append t v hv with ⟨h1, h2, _⟩ | ⟨i, _, h1, h2⟩
  · rw [h1, h2]
  · rw [h1, h2, trimRightFunc_append _ _ hv]

theorem trimSpaceEnd_spaces (v r : List Nat) (hv : ∀ c ∈ v, isAsciiSpace c = true) :
    trimSpaceEnd (v ++ r) = trimSpaceEnd r := by
  induction v with
  | nil => rfl
  | cons c v ih =>
    have hc := hv c (by simp)
    have h128 := isAsciiSpace_lt hc
    rw [List.cons_append, trimSpaceEnd, if_neg (by omega), if_pos hc]
    exact ih (fun x hx => hv x (by simp [hx]))

theorem TrimSpace_append_left (u x : List Nat) (hu : ∀ c ∈ u, isAsciiSpace c = true) :
    TrimSpace (u ++ x) = TrimSpace x := by
  induction u with
  | nil => rfl
  | cons c u ih =>
    have hc := hu c (by simp)
    have h128 := isAsciiSpace_lt hc
    rw [List.cons_append, TrimSpace, if_neg (by omega), if_pos hc]
    exact ih (fun y hy => hu y (by simp [hy]))

theorem TrimSpace_append_right (x v : List Nat) (hv : ∀ c ∈ v, isAsciiSpace c = true) :
    TrimSpace (x ++ v) = TrimSpace x := by
  induction x with
  | nil =>
    have := TrimSpace_append_left v [] hv
    simpa using this
  | cons c s ih =>
    rw [List.cons_append, TrimSpace, TrimSpace]
    by_cases h1 : 128 ≤ c
    · rw [if_pos h1, if_pos h1, ← List.cons_append, trimFunc_append _ _ hv]
    · rw [if_neg h1, if_neg h1]
      by_cases h2 : isAsciiSpace c = true
      · rw [if_pos h2, if_pos h2]; exact ih
      · rw [if_neg h2, if_neg h2]
        have : (c :: (s ++ v)).reverse = v.reverse ++ (c :: s).reverse := by simp
        rw [this, trimSpaceEnd_spaces _ _ (fun y hy => hv y (List.mem_reverse.1 hy))]

theorem ip4_depends_on_trim (x y : List Nat) (h : TrimSpace x = TrimSpace y) :
    ip4BytesToUint32 x = ip4BytesToUint32 y := by
  unfold ip4BytesToUint32
  rw [h]

theorem IsDottedQuad_bytes {t : List Nat} (h : IsDottedQuad t) :
    ∀ c ∈ t, c = 46 ∨ (48 ≤ c ∧ c ≤ 57) := by
  obtain ⟨g1, g2, g3, g4, ht, h1, h2, h3, h4⟩ := h
  intro c hc
  rw [ht] at hc
  simp only [List.mem_append, List.mem_cons] at hc
  rcases hc with hc | hc | hc | hc | hc | hc | hc
  · exact Or.inr (h1.1.digits c hc)
  · exact Or.inl hc
  · exact Or.inr (h2.1.digits c hc)
  · exact Or.inl hc
  · exact Or.inr (h3.1.digits c hc)
  · exact Or.inl hc
  · exact Or.inr (h4.1.digits c hc)

theorem ip4_rejects_inner_space (s : List Nat) (c : Nat) (hc : c ∈ TrimSpace s)
    (hsp : isAsciiSpace c = true) :
    (ip4BytesToUint32 s).2 ≠ none ∧ (ip4BytesToUint32 s).1 = 0 := by
  have hne : (ip4BytesToUint32 s).2 ≠ none := by
    intro hok
    have hb := IsDottedQuad_bytes (ip4_quad_of_ok s hok) c hc
    simp [isAsciiSpace] at hsp
    omega
  exact ⟨hne, ip4_err_key_zero s hne⟩

/-- C14: for every byte string `s` and all strings `u`, `v` of ASCII
whitespace bytes, `ip4BytesToUint32 (u ++ s ++ v)` returns exactly what
`ip4BytesToUint32 s` returns (same key, same error), while a whitespace byte
left in the trimmed text causes rejection with key 0.  The inputs of the test
table with outer spaces give 3232235521 and 255, and the one with an inner
space is rejected. -/
theorem ip4BytesToUint32_outer_whitespace :
    (∀ s u v : List Nat, (∀ c ∈ u, isAsciiSpace c = true) → (∀ c ∈ v, isAsciiSpace c = true) →
      ip4BytesToUint32 (u ++ s ++ v) = ip4BytesToUint32 s) ∧
    (∀ (s : List Nat) (c : Nat), c ∈ TrimSpace s → isAsciiSpace c = true →
      (ip4BytesToUint32 s).2 ≠ none ∧ (ip4BytesToUint32 s).1 = 0) ∧
    ip4BytesToUint32 (bytesOf " 192.168.0.1 ") = (3232235521, none) ∧
    ip4BytesToUint32 (bytesOf "0.0.0.255 ") = (255, none) ∧
    ip4BytesToUint32 (bytesOf "192. 168.0.1") = (0, some Error.incorrectByte) := by
  refine ⟨?_, ip4_rejects_inner_space, by decide, by decide, by decide⟩
  intro s u v hu hv
  apply ip4_depends_on_trim
  rw [TrimSpace_append_right _ _ hv, TrimSpace_append_left _ _ hu]

/-! ## The worker of the parallel reader -/

theorem scanRecords_first (sep : Nat) (rest : List Nat) :
    ∀ (pre acc : List Nat), sep ∉ pre →
      scanRecords sep (pre ++ sep :: rest) acc =
        (if acc ++ pre.filter (fun b => b ≠ 32) = [] then []
          else [acc ++ pre.filter (fun b => b ≠ 32)]) ++ scanRecords sep rest [] := by
  intro pre
  induction pre with
  | nil =>
    intro acc _
    simp [scanRecords]
  | cons c t ih =>
    intro acc h
    have hc : c ≠ sep := fun e => h (by simp [e])
    have ht : sep ∉ t := fun e => h (by simp [e])
    by_cases h32 : c = 32
    · subst h32
      simp [scanRecords, hc, ih acc ht]
    · simp [scanRecords, hc, h32, ih (acc ++ [c]) ht]

theorem scanRecords_append_sep (sep : Nat) (v : List Nat) :
    ∀ (pre acc : List Nat),
      scanRecords sep (pre ++ sep :: v) acc =
        scanRecords sep (pre ++ [sep]) acc ++ scanRecords sep v [] := by
  intro pre
  induction pre with
  | nil =>
    intro acc
    simp [scanRecords]
  | cons c t ih =>
    intro acc
    by_cases hc : c = sep
    · simp [scanRecords, hc, ih []]
    · by_cases h32 : c = 32
      · subst h32
        simp [scanRecords, hc, ih acc]
      · simp [scanRecords, hc, h32, ih (acc ++ [c])]

theorem ends_sep_tail (sep c : Nat) (t : List Nat)
    (h : c :: t = [] ∨ ∃ w, c :: t = w ++ [sep]) :
    (t = [] ∧ c = sep) ∨ ∃ w, t = w ++ [sep] := by
  rcases h with h | ⟨w, hw⟩
  · simp at h
  · cases w with
    | nil =>
      left
      simp at hw
      exact ⟨hw.2, hw.1⟩
    | cons a w1 =>
      right
      simp at hw
      exact ⟨w1, hw.2⟩

theorem ends_sep_suffix (sep : Nat) :
    ∀ (u v w : List Nat), u ++ v = w ++ [sep] → v ≠ [] → ∃ w1, v = w1 ++ [sep] := by
  intro u v w h hv
  rcases List.eq_nil_or_concat v with h1 | ⟨w1, c, h1⟩
  · exact absurd h1 hv
  · refine ⟨w1, ?_⟩
    subst h1
    have h2 : (u ++ w1) ++ [c] = w ++ [sep] := by simpa using h
    have := List.append_inj_right' h2 rfl
    simp at this
    simp [this]

theorem recordsOf_eq_scan (sep : Nat) :
    ∀ (n : Nat) (l : List Nat), l.length ≤ n → (l = [] ∨ ∃ w, l = w ++ [sep]) →
      recordsOf sep l = scanRecords sep l [] := by
  intro n
  induction n with
  | zero =>
    intro l hl _
    have : l = [] := List.length_eq_zero.1 (by omega)
    subst this
    simp [recordsOf, scanRecords]
  | succ n ih =>
    intro l hl hends
    rcases hends with h | ⟨w, hw⟩
    · subst h
      simp [recordsOf, scanRecords]
    · have hmem : sep ∈ l := by simp [hw]
      obtain ⟨pre, rest, hsplit, hpre⟩ := List.eq_append_cons_of_mem hmem
      have hrest : rest = [] ∨ ∃ w1, rest = w1 ++ [sep] := by
        by_cases hr : rest = []
        · exact Or.inl hr
        · right
          have h2 : (pre ++ [sep]) ++ rest = w ++ [sep] := by
            rw [← hw, hsplit]; simp
          exact ends_sep_suffix sep _ _ _ h2 hr
      have hlen : rest.length ≤ n := by
        rw [hsplit] at hl
        simp at hl
        omega
      have hrec := ih rest hlen hrest
      rw [hsplit, scanRecords_first sep rest pre [] hpre, ← hrec]
      unfold recordsOf
      rw [splitOn_first sep pre rest hpre, List.map_cons, List.filter_cons, List.nil_append]
      generalize List.filter (fun b => decide (b ≠ 32)) pre = fp
      by_cases hf : fp = []
      · subst hf
        simp
      · simp [hf]

theorem noLongRun_tail (sep n c : Nat) (rest : List Nat) (h : NoLongRun sep n (c :: rest)) :
    NoLongRun sep n rest := by
  intro i hi
  have := h (i + 1) (by simp only [List.length_cons]; omega)
  simpa using this

theorem noLongRun_append_right (sep n : Nat) (v : List Nat) :
    ∀ (u : List Nat), NoLongRun sep n (u ++ v) → NoLongRun sep n v := by
  intro u
  induction u with
  | nil => intro h; simpa using h
  | cons c t ih => intro h; exact ih (noLongRun_tail sep n c (t ++ v) h)

theorem noLongRun_append_left (sep n : Nat) (u v : List Nat) (h : NoLongRun sep n (u ++ v)) :
    NoLongRun sep n u := by
  intro i hi
  have h1 := h i (by simp only [List.length_append]; omega)
  have hle : i ≤ u.length := by omega
  rw [List.drop_append_of_le_length hle, List.take_append_of_le_length] at h1
  · exact h1
  · simp only [List.length_drop]
    omega

theorem mem_take_succ (x : Nat) (l : List Nat) (m : Nat) (h : x ∈ l.take m) : x ∈ l.take (m + 1) := by
  rw [List.take_succ]
  exact List.mem_append_left _ h

theorem recordsFit_of_window (sep n : Nat) :
    ∀ (seg : List Nat) (k : Nat), NoLongRun sep n seg →
      (sep ∈ seg.take (n - k) ∨ seg.length < n - k) → RecordsFit sep n seg k := by
  intro seg
  induction seg with
  | nil => intro k _ _; trivial
  | cons c rest ih =>
    intro k hrun hwin
    have hrest := noLongRun_tail sep n c rest hrun
    unfold RecordsFit
    by_cases hc : c = sep
    · rw [if_pos hc]
      apply ih 0 hrest
      by_cases hlen : rest.length < n - 0
      · exact Or.inr hlen
      · left
        have := hrest 0 (by omega)
        simpa using this
    · rw [if_neg hc]
      have hk : k < n := by
        rcases hwin with h | h
        · by_contra hge
          have : n - k = 0 := by omega
          rw [this] at h
          simp at h
        · omega
      obtain ⟨m, hm⟩ : ∃ m, n - k = m + 1 := ⟨n - k - 1, by omega⟩
      have hwin1 : sep ∈ rest.take m ∨ rest.length < m := by
        rcases hwin with h | h
        · left
          rw [hm, List.take_succ_cons] at h
          rcases List.mem_cons.1 h with h | h
          · exact absurd h.symm hc
          · exact h
        · right
          simp only [List.length_cons] at h
          omega
      by_cases h32 : c ≠ 32
      · rw [if_pos h32]
        refine ⟨hk, ih (k + 1) hrest ?_⟩
        have : n - (k + 1) = m := by omega
        rw [this]
        exact hwin1
      · rw [if_neg h32]
        apply ih k hrest
        rw [hm]
        rcases hwin1 with h | h
        · exact Or.inl (mem_take_succ sep rest m h)
        · exact Or.inr (by omega)

theorem recordsFit_of_noLongRun (sep n : Nat) (seg : List Nat) (h : NoLongRun sep n seg) :
    RecordsFit sep n seg 0 := by
  apply recordsFit_of_window sep n seg 0 h
  by_cases hlen : seg.length < n - 0
  · exact Or.inr hlen
  · left
    have := h 0 (by omega)
    simpa using this

theorem noLongRun_mem (sep n : Nat) (seg : List Nat) (h : NoLongRun sep n seg)
    (L : Nat) (hn : n ≤ L) (hL : L < seg.length) : sep ∈ seg.take L := by
  have h0 := h 0 (by omega)
  simp only [List.drop_zero] at h0
  have : seg.take n = (seg.take L).take n := by
    rw [List.take_take]
    congr 1
    omega
  rw [this] at h0
  exact List.mem_of_mem_take h0

theorem scanStep_maxBytes (sep : Nat) (st : ScanState) (c : Nat) :
    (scanStep sep st c).maxBytes = st.maxBytes - 1 := by
  unfold scanStep
  split_ifs <;> rfl

theorem scanStep_str_length (sep : Nat) (st : ScanState) (c : Nat) :
    (scanStep sep st c).str.length = st.str.length := by
  unfold scanStep
  split_ifs <;> simp

theorem scanStep_fit (sep : Nat) (st : ScanState) (c : Nat) (rest : List Nat)
    (h : RecordsFit sep st.str.length (c :: rest) st.k) :
    RecordsFit sep (scanStep sep st c).str.length rest (scanStep sep st c).k := by
  rw [scanStep_str_length]
  unfold RecordsFit at h
  unfold scanStep
  by_cases h1 : c = sep
  · rw [if_pos h1] at h
    rw [if_pos h1]
    by_cases hk : st.k > 0
    · rw [if_pos hk]
      exact h
    · rw [if_neg hk]
      have : st.k = 0 := by omega
      rw [this]
      exact h
  · rw [if_neg h1] at h
    rw [if_neg h1]
    by_cases h2 : c ≠ 32
    · rw [if_pos h2] at h
      rw [if_pos h2]
      exact h.2
    · rw [if_neg h2] at h
      rw [if_neg h2]
      exact h

theorem scanStep_k_le (sep : Nat) (st : ScanState) (c : Nat) (rest : List Nat)
    (h : RecordsFit sep st.str.length (c :: rest) st.k) (hk : st.k ≤ st.str.length) :
    (scanStep sep st c).k ≤ (scanStep sep st c).str.length := by
  rw [scanStep_str_length]
  unfold RecordsFit at h
  unfold scanStep
  by_cases h1 : c = sep
  · rw [if_pos h1]
    by_cases hk0 : st.k > 0
    · rw [if_pos hk0]
      exact Nat.zero_le _
    · rw [if_neg hk0]
      exact hk
  · rw [if_neg h1] at h
    rw [if_neg h1]
    by_cases h2 : c ≠ 32
    · rw [if_pos h2] at h
      rw [if_pos h2]
      exact h.1
    · rw [if_neg h2]
      exact hk

theorem scanLoop_cons (sep : Nat) (buffer : List Nat) (maxSize : Int) (r : Nat) (i : Int)
    (st : ScanState) (c : Nat)
    (hi : i.toNat < buffer.length) (hc : buffer.getD i.toNat 0 = c)
    (hlast : i = maxSize - 1 → c = sep)
    (hfit : c ≠ sep → c ≠ 32 → st.k < st.str.length) :
    scanLoop sep buffer maxSize (r + 1) i st =
      if (scanStep sep st c).maxBytes = 0 then Except.ok (scanStep sep st c)
      else scanLoop sep buffer maxSize r (i + 1) (scanStep sep st c) := by
  have hnot : ¬ buffer.length ≤ i.toNat := by omega
  rw [scanLoop, if_neg hnot]
  simp only [hc]
  unfold scanStep
  by_cases h1 : c = sep
  · rw [if_pos (Or.inl h1), if_pos h1]
    by_cases hk : st.k > 0
    · rw [if_pos hk, if_pos hk]
    · rw [if_neg hk, if_neg hk]
  · have h1b : ¬ (c = sep ∨ i = maxSize - 1) := by
      intro h
      rcases h with h | h
      · exact h1 h
      · exact h1 (hlast h)
    rw [if_neg h1b, if_neg h1]
    by_cases h2 : c ≠ 32
    · have hnot2 : ¬ st.str.length ≤ st.k := by
        have := hfit h1 h2
        omega
      rw [if_pos h2, if_pos h2, if_neg hnot2]
    · rw [if_neg h2, if_neg h2]

theorem recordsFit_head (sep cap c : Nat) (rest : List Nat) (k : Nat)
    (h : RecordsFit sep cap (c :: rest) k) : c ≠ sep → c ≠ 32 → k < cap := by
  intro h1 h2
  unfold RecordsFit at h
  rw [if_neg h1, if_pos h2] at h
  exact h.1

theorem scanLoop_foldl (sep : Nat) (maxSize : Int) :
    ∀ (seg front back : List Nat) (st : ScanState) (remaining : Nat),
      RecordsFit sep st.str.length seg st.k →
      (seg = [] ∨ ∃ w, seg = w ++ [sep]) →
      ((front.length + seg.length : Nat) : Int) ≤ maxSize →
      seg.length ≤ remaining → 0 < st.maxBytes → (seg.length : Int) ≤ st.maxBytes →
      (seg.length = remaining ∨ (seg.length : Int) = st.maxBytes) →
      scanLoop sep (front ++ (seg ++ back)) maxSize remaining front.length st =
        Except.ok (seg.foldl (scanStep sep) st) := by
  intro seg
  induction seg with
  | nil =>
    intro front back st remaining _ _ _ _ hpos _ hor
    have hr : remaining = 0 := by
      rcases hor with h | h
      · simpa using h.symm
      · simp only [List.length_nil, Nat.cast_zero] at h
        omega
    subst hr
    rfl
  | cons c rest ih =>
    intro front back st remaining hfit hends hsum hrem hpos hle hor
    simp only [List.length_cons, Nat.cast_add, Nat.cast_one] at hsum hrem hle hor
    obtain ⟨r, hr⟩ : ∃ r, remaining = r + 1 := ⟨remaining - 1, by omega⟩
    subst hr
    have hends1 := ends_sep_tail sep c rest hends
    have hi : (front.length : Int).toNat < (front ++ (c :: rest ++ back)).length := by
      simp
    have hc : (front ++ (c :: rest ++ back)).getD (front.length : Int).toNat 0 = c := by
      simp only [Int.toNat_ofNat, List.getD_eq_getElem?_getD]
      rw [List.getElem?_append_right (le_refl _)]
      simp
    have hlast : (front.length : Int) = maxSize - 1 → c = sep := by
      intro h
      rcases hends1 with ⟨_, h2⟩ | ⟨w, hw⟩
      · exact h2
      · rw [hw] at hsum
        simp only [List.length_append, List.length_singleton, Nat.cast_add, Nat.cast_one] at hsum
        omega
    rw [scanLoop_cons sep _ maxSize r _ st c hi hc hlast (recordsFit_head sep _ c rest _ hfit)]
    rw [scanStep_maxBytes, List.foldl_cons]
    by_cases h0 : st.maxBytes - 1 = 0
    · rw [if_pos h0]
      have : rest = [] := List.length_eq_zero.1 (by omega)
      subst this
      rfl
    · rw [if_neg h0]
      have hbuf : front ++ (c :: rest ++ back) = (front ++ [c]) ++ (rest ++ back) := by simp
      have hidx : (front.length : Int) + 1 = ((front ++ [c]).length : Int) := by simp
      rw [hbuf, hidx]
      apply ih (front ++ [c]) back (scanStep sep st c) r (scanStep_fit sep st c rest hfit)
      · rcases hends1 with ⟨h1, _⟩ | h1
        · exact Or.inl h1
        · exact Or.inr h1
      · simp only [List.length_append, List.length_singleton, Nat.cast_add, Nat.cast_one]
        omega
      · omega
      · rw [scanStep_maxBytes]; omega
      · rw [scanStep_maxBytes]; omega
      · rw [scanStep_maxBytes]; omega

theorem foldl_scanStep (sep : Nat) :
    ∀ (seg : List Nat) (st : ScanState),
      RecordsFit sep st.str.length seg st.k → st.k ≤ st.str.length →
      (seg.foldl (scanStep sep) st).maxBytes = st.maxBytes - seg.length ∧
      (seg.foldl (scanStep sep) st).str.length = st.str.length ∧
      (seg.foldl (scanStep sep) st).sent = st.sent ++ scanRecords sep seg (st.str.take st.k) := by
  intro seg
  induction seg with
  | nil =>
    intro st _ _
    simp [scanRecords]
  | cons c rest ih =>
    intro st hfit hk
    obtain ⟨h1, h2, h3⟩ := ih (scanStep sep st c) (scanStep_fit sep st c rest hfit)
      (scanStep_k_le sep st c rest hfit hk)
    rw [List.foldl_cons, h1, h2, h3, scanStep_maxBytes, scanStep_str_length]
    refine ⟨by simp only [List.length_cons, Nat.cast_add, Nat.cast_one]; omega, rfl, ?_⟩
    unfold scanStep
    rw [scanRecords]
    by_cases hc : c = sep
    · rw [if_pos hc, if_pos hc]
      by_cases hk0 : st.k > 0
      · have hne : st.str.take st.k ≠ [] := by
          intro e
          have := congrArg List.length e
          simp only [List.length_take, List.length_nil] at this
          omega
        rw [if_pos hk0, if_neg hne]
        simp
      · have hk1 : st.k = 0 := by omega
        rw [if_neg hk0, hk1]
        simp
    · rw [if_neg hc, if_neg hc]
      by_cases h32 : c ≠ 32
      · rw [if_pos h32, if_pos h32]
        have hlt := recordsFit_head sep _ c rest _ hfit hc h32
        simp only
        rw [take_set_succ st.str st.k c hlt]
      · rw [if_neg h32, if_neg h32]

theorem foldl_scanStep_k (sep : Nat) (w : List Nat) (st : ScanState) :
    ((w ++ [sep]).foldl (scanStep sep) st).k = 0 := by
  rw [List.foldl_append]
  simp only [List.foldl_cons, List.foldl_nil]
  generalize List.foldl (scanStep sep) st w = s
  unfold scanStep
  rw [if_pos rfl]
  by_cases hk : s.k > 0
  · rw [if_pos hk]
  · rw [if_neg hk]
    show s.k = 0
    omega

theorem readAtOk_at (content front rest buffer : List Nat) (h : content = front ++ rest) :
    readAtOk content buffer front.length =
      (rest.take buffer.length ++ buffer.drop (rest.take buffer.length).length,
        (rest.take buffer.length).length,
        if (rest.take buffer.length).length < buffer.length then some Error.eof else none) := by
  have hnot : ¬ (front.length : Int) < 0 := by omega
  unfold readAtOk
  rw [if_neg hnot]
  simp only [Int.toNat_ofNat, h, List.drop_left]

theorem workerLoop_done (ip : IPCounter) (L : Int) (fuel : Nat) (st : WorkerState)
    (h : ¬ st.scan.maxBytes > 0) :
    workerLoop ip L (fuel + 1) st = some (Except.ok ((none, st.scan.sent), st.env)) := by
  rw [workerLoop, if_neg h]

theorem workerLoop_block (ip : IPCounter) (L : Int) (fuel : Nat) (offset : Int)
    (buffer : List Nat) (scan : ScanState) (hoff : 0 ≤ offset) (hpos : scan.maxBytes > 0)
    (buffer1 : List Nat) (bytesRead : Nat) (err : Option Error)
    (hread : readAtOk ip.file buffer offset = (buffer1, bytesRead, err))
    (maxSize : Int)
    (hmax : maxSize =
      if (bytesRead : Int) < L then (bytesRead : Int)
      else if (bytesRead : Int) - ((offset + L) - correctOffset ip (offset + L) buffer1) ≤ 0 then
        (bytesRead : Int)
      else (bytesRead : Int) - ((offset + L) - correctOffset ip (offset + L) buffer1))
    (scan1 : ScanState)
    (hscan : scanLoop ip.lineBreak buffer1 maxSize maxSize.toNat 0 scan = Except.ok scan1) :
    workerLoop ip L (fuel + 1) { env := Env.quiet, offset := offset, buffer := buffer, scan := scan } =
      if err = some Error.eof then some (Except.ok ((none, scan1.sent), Env.quiet))
      else workerLoop ip L fuel
        { env := Env.quiet, offset := correctOffset ip (offset + L) buffer1, buffer := buffer1,
          scan := scan1 } := by
  have hq : readAtRetry ip.file offset 3 { Env.quiet with ctx := Env.quiet.ctx.next } buffer 0 none
      = ((buffer1, bytesRead, err), Env.quiet) := by
    rw [← hread]
    exact readAtRetry_quiet ip.file buffer offset hoff 0 none
  have herr : ¬ (err ≠ none ∧ err ≠ some Error.eof) := by
    have := readAtOk_err ip.file buffer offset hoff
    rw [hread] at this
    simp only at this
    intro h
    rcases this with h1 | h1
    · exact h.1 h1
    · exact h.2 h1
  rw [workerLoop, if_pos hpos]
  have hctx : checkContext Env.quiet.ctx = none := rfl
  simp only [hctx, hq]
  rw [if_neg herr]
  rw [← hmax, hscan]

theorem last_sep_ge (sep : Nat) (w t pre post : List Nat)
    (h : w ++ sep :: t = pre ++ sep :: post) (hpost : sep ∉ post) : w.length ≤ pre.length := by
  by_contra hlt
  have h1 := congrArg (fun l => l[w.length]?) h
  simp only at h1
  rw [List.getElem?_append_right (le_refl _), List.getElem?_append_right (by omega)] at h1
  obtain ⟨m, hm⟩ : ∃ m, w.length - pre.length = m + 1 := ⟨w.length - pre.length - 1, by omega⟩
  rw [hm] at h1
  simp only [Nat.sub_self, List.getElem?_cons_zero, List.getElem?_cons_succ] at h1
  exact hpost (List.getElem?_mem h1.symm)

theorem scan_segment (sep : Nat) (seg back str : List Nat) (sent : List (List Nat))
    (maxSize mb : Int) (hstr : str.length = 16)
    (hrun : NoLongRun sep 16 seg) (w : List Nat) (hw : seg = w ++ [sep])
    (hsum : (seg.length : Int) ≤ maxSize) (hle : (seg.length : Int) ≤ mb)
    (hor : seg.length = maxSize.toNat ∨ (seg.length : Int) = mb) :
    ∃ str1, str1.length = 16 ∧
      scanLoop sep (seg ++ back) maxSize maxSize.toNat 0
          { str := str, k := 0, maxBytes := mb, sent := sent } =
        Except.ok { str := str1, k := 0, maxBytes := mb - seg.length,
                    sent := sent ++ scanRecords sep seg [] } := by
  have hfit : RecordsFit sep 16 seg 0 := recordsFit_of_noLongRun sep 16 seg hrun
  have hpos : 0 < seg.length := by rw [hw]; simp
  have h := scanLoop_foldl sep maxSize seg [] back
    { str := str, k := 0, maxBytes := mb, sent := sent } maxSize.toNat
    (by rw [hstr]; exact hfit) (Or.inr ⟨w, hw⟩)
    (by simp only [List.length_nil, Nat.zero_add]; exact hsum)
    (by omega) (by show 0 < mb; omega) hle hor
  simp only [List.nil_append, List.length_nil, Nat.cast_zero] at h
  obtain ⟨h1, h2, h3⟩ := foldl_scanStep sep seg
    { str := str, k := 0, maxBytes := mb, sent := sent } (by rw [hstr]; exact hfit)
    (Nat.zero_le _)
  have hk := foldl_scanStep_k sep w { str := str, k := 0, maxBytes := mb, sent := sent }
  rw [← hw] at hk
  rw [h]
  generalize List.foldl (scanStep sep) { str := str, k := 0, maxBytes := mb, sent := sent } seg
    = s1 at h1 h2 h3 hk
  obtain ⟨a1, a2, a3, a4⟩ := s1
  simp only [List.take_zero] at h1 h2 h3 hk
  subst h1 h3 hk
  exact ⟨a1, by rw [h2, hstr], rfl⟩

theorem workerLoop_records (ip : IPCounter) (L : Nat) :
    ∀ (fuel : Nat) (front R tail buffer str : List Nat) (sent : List (List Nat)),
      ip.file = front ++ (R ++ tail) →
      (R = [] ∨ ∃ w, R = w ++ [ip.lineBreak]) →
      NoLongRun ip.lineBreak 16 R →
      buffer.length = L → str.length = 16 → (R.length ≤ L ∨ 16 ≤ L) → R.length < fuel →
      workerLoop ip L fuel
        { env := Env.quiet, offset := front.length, buffer := buffer,
          scan := { str := str, k := 0, maxBytes := R.length, sent := sent } } =
        some (Except.ok ((none, sent ++ scanRecords ip.lineBreak R []), Env.quiet)) := by
  intro fuel
  induction fuel with
  | zero =>
    intro front R tail buffer str sent _ _ _ _ _ _ hfuel
    omega
  | succ fuel ih =>
    intro front R tail buffer str sent hfile hends hrun hbuf hstr hL hfuel
    rcases hends with hnil | ⟨w, hw⟩
    · subst hnil
      rw [workerLoop_done]
      · simp [scanRecords]
      · simp
    · have hRpos : 0 < R.length := by rw [hw]; simp
      have hLpos : 0 < L := by omega
      have hoff : (0 : Int) ≤ (front.length : Int) := Int.natCast_nonneg _
      have hmb : ({ str := str, k := 0, maxBytes := (R.length : Int), sent := sent } :
          ScanState).maxBytes > 0 := by
        show (R.length : Int) > 0
        omega
      have hread := readAtOk_at ip.file front (R ++ tail) buffer hfile
      rw [hbuf] at hread
      by_cases hshort : (R ++ tail).length < L
      · -- the read reaches the end of the file
        have htake : (R ++ tail).take L = R ++ tail := List.take_of_length_le (by omega)
        rw [htake, if_pos hshort, List.append_assoc] at hread
        have hlen : (R ++ tail).length = R.length + tail.length := List.length_append _ _
        obtain ⟨str1, _, hscan⟩ := scan_segment ip.lineBreak R
          (tail ++ buffer.drop (R ++ tail).length) str sent ((R ++ tail).length : Int)
          (R.length : Int) hstr hrun w hw (by omega) (le_refl _) (Or.inr rfl)
        rw [workerLoop_block ip L fuel front.length buffer _ hoff hmb _ _ _ hread
          ((R ++ tail).length : Int) (by rw [if_pos (by omega)]) _ hscan]
        rw [if_pos rfl]
      · -- a full block
        have hlen : (R ++ tail).length = R.length + tail.length := List.length_append _ _
        have hdlen : ((R ++ tail).take L).length = L := by
          rw [List.length_take]
          omega
        have hdrop : buffer.drop L = [] := List.drop_of_length_le (by omega)
        rw [hdlen, if_neg (by omega), hdrop, List.append_nil] at hread
        by_cases hin : R.length ≤ L
        · -- the block holds the rest of the range
          have hdata : (R ++ tail).take L = R ++ tail.take (L - R.length) := by
            rw [List.take_append_eq_append_take, List.take_of_length_le hin]
          have hmem : ip.lineBreak ∈ (R ++ tail).take L := by
            rw [hdata, hw]
            simp
          obtain ⟨pre, post, hsplit, hpost⟩ := split_last_occurrence ip.lineBreak _ hmem
          have hge : w.length ≤ pre.length := by
            apply last_sep_ge ip.lineBreak w (tail.take (L - R.length)) pre post _ hpost
            rw [← hsplit, hdata, hw]
            simp
          have hLeq : L = pre.length + 1 + post.length := by
            have := congrArg List.length hsplit
            rw [hdlen] at this
            simp only [List.length_append, List.length_cons] at this
            omega
          have hRlen : R.length = w.length + 1 := by rw [hw]; simp
          have hco : correctOffset ip ((front.length : Int) + (L : Int)) ((R ++ tail).take L)
              = (front.length : Int) + L - post.length := by
            rw [hsplit]
            exact correctOffset_spec ip pre post hpost _
          obtain ⟨str1, _, hscan⟩ := scan_segment ip.lineBreak R (tail.take (L - R.length)) str
            sent ((pre.length + 1 : Nat) : Int) (R.length : Int) hstr hrun w hw (by omega)
            (le_refl _) (Or.inr rfl)
          rw [← hdata] at hscan
          have hmax : ((pre.length + 1 : Nat) : Int) =
              if (L : Int) < L then (L : Int)
              else if (L : Int) - (((front.length : Int) + L) -
                  correctOffset ip ((front.length : Int) + L) ((R ++ tail).take L)) ≤ 0 then (L : Int)
              else (L : Int) - (((front.length : Int) + L) -
                  correctOffset ip ((front.length : Int) + L) ((R ++ tail).take L)) := by
            rw [hco]
            have h1 : ¬ ((L : Int) < L) := by omega
            have h2 : ¬ ((L : Int) - (((front.length : Int) + L) -
                ((front.length : Int) + L - post.length)) ≤ 0) := by omega
            rw [if_neg h1, if_neg h2]
            omega
          rw [workerLoop_block ip L fuel front.length buffer _ hoff hmb _ _ _ hread
            ((pre.length + 1 : Nat) : Int) hmax _ hscan]
          have hne : ¬ ((none : Option Error) = some Error.eof) := by simp
          rw [if_neg hne]
          obtain ⟨f, hf⟩ : ∃ f, fuel = f + 1 := ⟨fuel - 1, by omega⟩
          rw [hf, workerLoop_done]
          show ¬ ((R.length : Int) - (R.length : Int) > 0)
          omega
        · -- the block ends inside the range
          have hLR : L < R.length := by omega
          have h16 : 16 ≤ L := by omega
          have hdata : (R ++ tail).take L = R.take L := List.take_append_of_le_length (by omega)
          have hmem : ip.lineBreak ∈ (R ++ tail).take L := by
            rw [hdata]
            exact noLongRun_mem ip.lineBreak 16 R hrun L h16 hLR
          obtain ⟨pre, post, hsplit, hpost⟩ := split_last_occurrence ip.lineBreak _ hmem
          have hLeq : L = pre.length + 1 + post.length := by
            have := congrArg List.length hsplit
            rw [hdlen] at this
            simp only [List.length_append, List.length_cons] at this
            omega
          obtain ⟨R1, hR1⟩ : ∃ R1, R1 = post ++ R.drop L := ⟨_, rfl⟩
          have hR : R = (pre ++ [ip.lineBreak]) ++ R1 := by
            have h1 := (List.take_append_drop L R).symm
            rw [← hdata, hsplit] at h1
            rw [hR1]
            simpa using h1
          have hR1ne : R1 ≠ [] := by
            intro e
            have h1 := congrArg List.length e
            rw [hR1] at h1
            simp only [List.length_append, List.length_drop, List.length_nil] at h1
            omega
          obtain ⟨w1, hw1⟩ := ends_sep_suffix ip.lineBreak (pre ++ [ip.lineBreak]) R1 w
            (by rw [← hR, hw]) hR1ne
          have hrunu : NoLongRun ip.lineBreak 16 (pre ++ [ip.lineBreak]) :=
            noLongRun_append_left ip.lineBreak 16 _ R1 (hR ▸ hrun)
          have hrun1 : NoLongRun ip.lineBreak 16 R1 :=
            noLongRun_append_right ip.lineBreak 16 R1 (pre ++ [ip.lineBreak]) (hR ▸ hrun)
          have hRlen : R.length = (pre ++ [ip.lineBreak]).length + R1.length := by
            have := congrArg List.length hR
            rw [List.length_append] at this
            exact this
          have hulen : (pre ++ [ip.lineBreak]).length = pre.length + 1 := by simp
          have hco : correctOffset ip ((front.length : Int) + (L : Int)) ((R ++ tail).take L)
              = (front.length : Int) + L - post.length := by
            rw [hsplit]
            exact correctOffset_spec ip pre post hpost _
          obtain ⟨str1, hstr1, hscan⟩ := scan_segment ip.lineBreak (pre ++ [ip.lineBreak]) post
            str sent ((pre.length + 1 : Nat) : Int) (R.length : Int) hstr hrunu pre rfl (by omega)
            (by omega) (Or.inl (by rw [hulen]; rfl))
          have hsplit2 : (R ++ tail).take L = (pre ++ [ip.lineBreak]) ++ post := by
            rw [hsplit]
            simp
          rw [← hsplit2] at hscan
          have hmax : ((pre.length + 1 : Nat) : Int) =
              if (L : Int) < L then (L : Int)
              else if (L : Int) - (((front.length : Int) + L) -
                  correctOffset ip ((front.length : Int) + L) ((R ++ tail).take L)) ≤ 0 then (L : Int)
              else (L : Int) - (((front.length : Int) + L) -
                  correctOffset ip ((front.length : Int) + L) ((R ++ tail).take L)) := by
            rw [hco]
            have h1 : ¬ ((L : Int) < L) := by omega
            have h2 : ¬ ((L : Int) - (((front.length : Int) + L) -
                ((front.length : Int) + L - post.length)) ≤ 0) := by omega
            rw [if_neg h1, if_neg h2]
            omega
          rw [workerLoop_block ip L fuel front.length buffer _ hoff hmb _ _ _ hread
            ((pre.length + 1 : Nat) : Int) hmax _ hscan]
          have hne : ¬ ((none : Option Error) = some Error.eof) := by simp
          rw [if_neg hne, hco]
          have hoff1 : (front.length : Int) + L - post.length
              = ((front ++ (pre ++ [ip.lineBreak])).length : Int) := by
            simp only [List.length_append, List.length_singleton, Nat.cast_add, Nat.cast_one]
            omega
          have hmb1 : (R.length : Int) - ((pre ++ [ip.lineBreak]).length : Int) = (R1.length : Int) := by
            omega
          rw [hoff1, hmb1]
          have hfile1 : ip.file = (front ++ (pre ++ [ip.lineBreak])) ++ (R1 ++ tail) := by
            rw [hfile, hR]
            simp
          rw [ih (front ++ (pre ++ [ip.lineBreak])) R1 tail ((R ++ tail).take L) str1
            (sent ++ scanRecords ip.lineBreak (pre ++ [ip.lineBreak]) []) hfile1
            (Or.inr ⟨w1, hw1⟩) hrun1 hdlen hstr1 (Or.inr h16) (by omega)]
          have hrec : scanRecords ip.lineBreak R [] =
              scanRecords ip.lineBreak (pre ++ [ip.lineBreak]) [] ++
                scanRecords ip.lineBreak R1 [] := by
            have hR2 : R = pre ++ ip.lineBreak :: R1 := by rw [hR]; simp
            rw [hR2]
            exact scanRecords_append_sep ip.lineBreak R1 pre []
          rw [hrec, List.append_assoc]

theorem range_split (content : List Nat) (a b : Nat) (hab : a ≤ b) :
    content = content.take a ++ ((content.drop a).take (b - a) ++ content.drop b) := by
  have h1 : (content.drop a).drop (b - a) = content.drop b := by
    rw [List.drop_drop]
    congr 1
    omega
  rw [← h1, List.take_append_drop, List.take_append_drop]

theorem range_ends (content : List Nat) (a b sep : Nat) (hab : a < b) (hb : b ≤ content.length)
    (hend : content[b - 1]? = some sep) :
    ∃ w, (content.drop a).take (b - a) = w ++ [sep] := by
  have hlen : ((content.drop a).take (b - a)).length = b - a := by
    rw [List.length_take, List.length_drop]
    omega
  rcases List.eq_nil_or_concat ((content.drop a).take (b - a)) with h | ⟨w, c, h⟩
  · rw [h] at hlen
    simp only [List.length_nil] at hlen
    omega
  · refine ⟨w, ?_⟩
    rw [List.concat_eq_append] at h
    have hwl : w.length = b - a - 1 := by
      have := congrArg List.length h
      rw [hlen] at this
      simp only [List.length_append, List.length_singleton] at this
      omega
    have h1 : ((content.drop a).take (b - a))[b - a - 1]? = some c := by
      rw [h, ← hwl]
      simp
    rw [List.getElem?_take_of_lt (by omega), List.getElem?_drop] at h1
    have h2 : a + (b - a - 1) = b - 1 := by omega
    rw [h2, hend] at h1
    have : sep = c := by simpa using h1
    rw [h, this]

/-- C17: a worker of the parallel reader on a terminated range.  For every
file content and every byte range `[a, b)` inside it whose last byte is the
separator and in which every run of non-separator bytes is shorter than 16
bytes, `goroutineReader(a, b)` without read failure and without cancellation
returns (any fuel above `b - a` is enough), its error is `nil`, and it sends
exactly the records of `content[a..b)`, in file order and each once.  The
bytes after `b`, which the 65536-byte block reads may cover, are arbitrary;
the byte before `a` plays no part. -/
theorem goroutineReader_sends_range_records (ip : IPCounter) (a b fuel : Nat)
    (hab : a < b) (hb : b ≤ ip.file.length)
    (hend : ip.file[b - 1]? = some ip.lineBreak)
    (hrun : NoLongRun ip.lineBreak 16 ((ip.file.drop a).take (b - a)))
    (hfuel : b - a < fuel) :
    goroutineReader ip Env.quiet a b maxLengthIp4 fuel =
      some (Except.ok
        ((none, recordsOf ip.lineBreak ((ip.file.drop a).take (b - a))), Env.quiet)) := by
  have hfile := range_split ip.file a b (by omega)
  obtain ⟨w, hw⟩ := range_ends ip.file a b ip.lineBreak hab hb hend
  have hRlen : ((ip.file.drop a).take (b - a)).length = b - a := by
    rw [List.length_take, List.length_drop]
    omega
  have hfl : (ip.file.take a).length = a := by
    rw [List.length_take]
    omega
  obtain ⟨R, hR⟩ : ∃ R, R = (ip.file.drop a).take (b - a) := ⟨_, rfl⟩
  rw [← hR] at hfile hw hRlen hrun ⊢
  obtain ⟨L, hL⟩ : ∃ L : Nat, L = min 65536 (b - a) := ⟨_, rfl⟩
  have hchunk : (if (b : Int) - (a : Int) > 65536 then (65536 : Int) else (b : Int) - (a : Int))
      = (L : Int) := by
    by_cases h : (b : Int) - (a : Int) > 65536
    · rw [if_pos h]; omega
    · rw [if_neg h]; omega
  have hmb : (b : Int) - (a : Int) = (R.length : Int) := by omega
  have key := workerLoop_records ip L fuel (ip.file.take a) R (ip.file.drop b)
    (List.replicate L 0) (List.replicate maxLengthIp4 0) [] hfile (Or.inr ⟨w, hw⟩) hrun
    (by simp) (by simp [maxLengthIp4]) (by omega) (by omega)
  rw [hfl] at key
  rw [recordsOf_eq_scan ip.lineBreak R.length R (le_refl _) (Or.inr ⟨w, hw⟩)]
  unfold goroutineReader
  simp only [hchunk]
  have hneg : ¬ ((L : Int) < 0) := by omega
  rw [if_neg hneg, hmb, Int.toNat_ofNat, key, List.nil_append]

/-- Witness of C17: the second partition `[12, 52)` of the file of
`TestGetPositions`; the worker sends its three records. -/
theorem goroutineReader_sends_range_records_witness :
    NoLongRun 10 16 ((testFileContent.drop 12).take (52 - 12)) ∧
    goroutineReader
      { file := testFileContent, fileSize := 77, maxGoroutines := 2, lineBreak := 10 }
      Env.quiet ((12 : Nat) : Int) ((52 : Nat) : Int) maxLengthIp4 41 =
      some (Except.ok
        ((none, recordsOf 10 ((testFileContent.drop 12).take (52 - 12))), Env.quiet)) ∧
    recordsOf 10 ((testFileContent.drop 12).take (52 - 12)) =
      [bytesOf "192.168.0.2", bytesOf "192.168.0.3", bytesOf "192.168.0.3"] :=
  ⟨by decide,
   goroutineReader_sends_range_records
     { file := testFileContent, fileSize := 77, maxGoroutines := 2, lineBreak := 10 }
     12 52 41 (by decide) (by decide) (by decide) (by decide) (by decide),
   by decide⟩

/-! ## Runs of the parallel reader on a file of 1 GiB -/

theorem readAtRetry_no_fault (content buffer : List Nat) (off : Int) (h : 0 ≤ off) (ctx : Ctx)
    (n : Nat) (err : Option Error) :
    readAtRetry content off 3 { ctx := ctx, readAtFaults := [], readFaults := [] } buffer n err =
      (readAtOk content buffer off, { ctx := ctx, readAtFaults := [], readFaults := [] }) := by
  have hq : readAt { ctx := ctx, readAtFaults := [], readFaults := [] } content buffer off =
      (readAtOk content buffer off, { ctx := ctx, readAtFaults := [], readFaults := [] }) := rfl
  rw [readAtRetry, hq]
  rcases hr : readAtOk content buffer off with ⟨b1, n1, e1⟩
  have := readAtOk_err content buffer off h
  rw [hr] at this
  simp only
  rw [if_pos this]

theorem gib_first_block (pre : List Nat) (m n : Nat) (hn : pre.length + n = 65536)
    (hm : n ≤ m) (buffer : List Nat) (hb : buffer.length = 65536) :
    readAtOk (pre ++ List.replicate m 10) buffer 0 =
      (pre ++ List.replicate n 10, 65536, none) := by
  have h := readAtOk_at (pre ++ List.replicate m 10) [] (pre ++ List.replicate m 10) buffer rfl
  have htake : (pre ++ List.replicate m 10).take buffer.length = pre ++ List.replicate n 10 := by
    rw [hb, List.take_append_eq_append_take, List.take_of_length_le (by omega),
      List.take_replicate]
    congr 2
    omega
  rw [htake] at h
  have hl2 : (pre ++ List.replicate n 10).length = 65536 := by
    rw [List.length_append, List.length_replicate, hn]
  rw [hl2, hb] at h
  have hd : buffer.drop 65536 = [] := List.drop_of_length_le (by omega)
  rw [hd, List.append_nil, List.length_nil, Nat.cast_zero] at h
  have hnot : ¬ (65536 < 65536) := by omega
  rw [if_neg hnot] at h
  exact h

theorem gib_lookahead (pre : List Nat) (m : Nat) (hlen : pre.length + m = 1073741824)
    (hpre : pre.length ≤ 65536) (buffer : List Nat) (hb : buffer.length = 16) :
    readAtOk (pre ++ List.replicate m 10) buffer 536870912 =
      (List.replicate 16 10, 16, none) := by
  have hsplit : pre ++ List.replicate m 10 =
      (pre ++ List.replicate (536870912 - pre.length) 10) ++ List.replicate 536870912 10 := by
    rw [List.append_assoc, ← List.replicate_add]
    congr 2
    omega
  have hfl : (pre ++ List.replicate (536870912 - pre.length) 10).length = 536870912 := by
    rw [List.length_append, List.length_replicate]
    omega
  have h := readAtOk_at (pre ++ List.replicate m 10)
    (pre ++ List.replicate (536870912 - pre.length) 10) (List.replicate 536870912 10) buffer hsplit
  rw [hfl, hb, List.take_replicate] at h
  have hmin : min 16 536870912 = 16 := by omega
  rw [hmin, List.length_replicate] at h
  have hd : buffer.drop 16 = [] := List.drop_of_length_le (by omega)
  rw [hd, List.append_nil, Nat.cast_ofNat] at h
  have hnot : ¬ (16 < 16) := by omega
  rw [if_neg hnot] at h
  exact h

theorem gib_end (pre : List Nat) (m : Nat) (hlen : pre.length + m = 1073741824)
    (buffer : List Nat) (hb : 0 < buffer.length) :
    readAtOk (pre ++ List.replicate m 10) buffer 1073741824 = (buffer, 0, some Error.eof) := by
  have hfl : (pre ++ List.replicate m 10).length = 1073741824 := by
    rw [List.length_append, List.length_replicate, hlen]
  have h := readAtOk_at (pre ++ List.replicate m 10) (pre ++ List.replicate m 10) [] buffer
    (by rw [List.append_nil])
  rw [hfl] at h
  simp only [List.take_nil, List.length_nil, List.nil_append, List.drop_zero] at h
  rw [if_pos hb, Nat.cast_ofNat] at h
  exact h

theorem positionsLoop_step (ip : IPCounter) (wordMaxLen : Nat) (chunkSize : Int)
    (remaining : Nat) (i : Int) (ctx : Ctx) (offset : Int) (buffer : List Nat)
    (offsets : List Int) (hctx : checkContext ctx = none) (offset1 : Int)
    (ho : (if i = ip.GetMaxGoroutines - 1 ∨ offset + chunkSize > ip.fileSize then ip.fileSize
      else offset + chunkSize) = offset1)
    (h0 : 0 ≤ offset1) (buffer1 : List Nat) (n : Nat) (err : Option Error)
    (hread : readAtOk ip.file buffer offset1 = (buffer1, n, err)) :
    positionsLoop ip wordMaxLen chunkSize (remaining + 1) i
        { env := { ctx := ctx, readAtFaults := [], readFaults := [] }, offset := offset,
          buffer := buffer, offsets := offsets } =
      if err = some Error.eof then
        ((offsets ++ [offset1], none), { ctx := ctx.next, readAtFaults := [], readFaults := [] })
      else
        positionsLoop ip wordMaxLen chunkSize remaining (i + 1)
          { env := { ctx := ctx.next, readAtFaults := [], readFaults := [] },
            offset := correctOffset ip (offset1 + wordMaxLen) buffer1, buffer := buffer1,
            offsets := offsets ++ [correctOffset ip (offset1 + wordMaxLen) buffer1] } := by
  have herr : ¬ (err ≠ none ∧ err ≠ some Error.eof) := by
    have := readAtOk_err ip.file buffer offset1 h0
    rw [hread] at this
    simp only at this
    intro h
    rcases this with h1 | h1
    · exact h.1 h1
    · exact h.2 h1
  rw [positionsLoop]
  simp only [hctx, ho]
  rw [readAtRetry_no_fault ip.file buffer offset1 h0 ctx.next 0 none, hread]
  simp only [herr, if_false]
  by_cases he : err = some Error.eof
  · simp [he]
  · simp [he]

theorem workerLoop_step (ip : IPCounter) (L : Int) (fuel : Nat) (ctx : Ctx) (offset : Int)
    (buffer : List Nat) (scan : ScanState) (hctx : checkContext ctx = none)
    (hoff : 0 ≤ offset) (hpos : scan.maxBytes > 0)
    (buffer1 : List Nat) (bytesRead : Nat) (err : Option Error)
    (hread : readAtOk ip.file buffer offset = (buffer1, bytesRead, err))
    (maxSize : Int)
    (hmax : maxSize =
      if (bytesRead : Int) < L then (bytesRead : Int)
      else if (bytesRead : Int) - ((offset + L) - correctOffset ip (offset + L) buffer1) ≤ 0 then
        (bytesRead : Int)
      else (bytesRead : Int) - ((offset + L) - correctOffset ip (offset + L) buffer1))
    (scan1 : ScanState)
    (hscan : scanLoop ip.lineBreak buffer1 maxSize maxSize.toNat 0 scan = Except.ok scan1) :
    workerLoop ip L (fuel + 1)
        { env := { ctx := ctx, readAtFaults := [], readFaults := [] }, offset := offset,
          buffer := buffer, scan := scan } =
      if err = some Error.eof then
        some (Except.ok ((none, scan1.sent),
          { ctx := ctx.next, readAtFaults := [], readFaults := [] }))
      else workerLoop ip L fuel
        { env := { ctx := ctx.next, readAtFaults := [], readFaults := [] },
          offset := correctOffset ip (offset + L) buffer1, buffer := buffer1, scan := scan1 } := by
  have herr : ¬ (err ≠ none ∧ err ≠ some Error.eof) := by
    have := readAtOk_err ip.file buffer offset hoff
    rw [hread] at this
    simp only at this
    intro h
    rcases this with h1 | h1
    · exact h.1 h1
    · exact h.2 h1
  rw [workerLoop, if_pos hpos]
  simp only [hctx]
  rw [readAtRetry_no_fault ip.file buffer offset hoff ctx.next 0 none, hread]
  simp only
  rw [if_neg herr, ← hmax, hscan]

theorem workerLoop_cancelled (ip : IPCounter) (L : Int) (fuel : Nat) (ctx : Ctx) (offset : Int)
    (buffer : List Nat) (scan : ScanState) (hpos : scan.maxBytes > 0) (e : Error)
    (hctx : checkContext ctx = some e) :
    workerLoop ip L (fuel + 1)
        { env := { ctx := ctx, readAtFaults := [], readFaults := [] }, offset := offset,
          buffer := buffer, scan := scan } =
      some (Except.ok ((some e, scan.sent), { ctx := ctx, readAtFaults := [], readFaults := [] })) := by
  rw [workerLoop, if_pos hpos]
  simp only [hctx]

theorem correctOffset_replicate (ip : IPCounter) (off : Int) (n : Nat) :
    correctOffset ip off (List.replicate (n + 1) ip.lineBreak) = off := by
  have h := correctOffset_spec ip (List.replicate n ip.lineBreak) [] (List.not_mem_nil _) off
  rw [← List.replicate_succ'] at h
  rw [h]
  simp

theorem gib_positions (pre : List Nat) (m : Nat) (hlen : pre.length + m = 1073741824)
    (hpre : pre.length ≤ 65536) (ctx : Ctx) (hc1 : checkContext ctx = none)
    (hc2 : checkContext ctx.next = none) :
    getPositions
      { file := pre ++ List.replicate m 10, fileSize := 1073741824, maxGoroutines := 2,
        lineBreak := 10 }
      { ctx := ctx, readAtFaults := [], readFaults := [] } maxLengthIp4 =
      Except.ok (([536870928, 1073741824], none),
        { ctx := ctx.next.next, readAtFaults := [], readFaults := [] }) := by
  unfold getPositions
  simp only [IPCounter.GetMaxGoroutines]
  have h0 : ¬ ((2 : Int) = 0) := by decide
  have h1 : ¬ ((2 : Int) < 0) := by decide
  rw [if_neg h0, if_neg h1]
  have hdiv : Int.tdiv 1073741824 2 = 536870912 := by decide
  have htn : (2 : Int).toNat = 1 + 1 := rfl
  have hb16 : (List.replicate maxLengthIp4 0 : List Nat).length = 16 := by
    rw [List.length_replicate]; rfl
  rw [hdiv, htn]
  rw [positionsLoop_step _ maxLengthIp4 536870912 1 0 ctx 0 _ [] hc1 536870912
    (by simp only [IPCounter.GetMaxGoroutines]; decide) (by decide) (List.replicate 16 10) 16 none
    (gib_lookahead pre m hlen hpre _ hb16)]
  have hne : ¬ ((none : Option Error) = some Error.eof) := by simp
  rw [if_neg hne]
  have hco : correctOffset
      { file := pre ++ List.replicate m 10, fileSize := 1073741824,
        maxGoroutines := 2, lineBreak := 10 } (536870912 + (maxLengthIp4 : Int))
      (List.replicate 16 10) = 536870928 := by
    rw [correctOffset_replicate _ _ 15]
    rfl
  rw [hco]
  rw [positionsLoop_step _ maxLengthIp4 536870912 0 (0 + 1) ctx.next 536870928 _ _ hc2
    1073741824 (by simp only [IPCounter.GetMaxGoroutines]; decide) (by decide)
    (List.replicate 16 10) 0 (some Error.eof)
    (gib_end pre m hlen _ (by rw [List.length_replicate]; decide))]
  rw [if_pos rfl]
  rfl

theorem recordsFit_replicate (sep cap : Nat) : ∀ n : Nat, RecordsFit sep cap (List.replicate n sep) 0 := by
  intro n
  induction n with
  | zero => trivial
  | succ n ih =>
    rw [List.replicate_succ, RecordsFit, if_pos rfl]
    exact ih

theorem scanRecords_replicate (sep : Nat) : ∀ n : Nat, scanRecords sep (List.replicate n sep) [] = [] := by
  intro n
  induction n with
  | zero => rfl
  | succ n ih =>
    rw [List.replicate_succ, scanRecords, if_pos rfl, if_pos rfl, ih]
    rfl

theorem gib_block_fit (n : Nat) :
    RecordsFit 10 16 (bytesOf "1.1.1.1\n" ++ List.replicate n 10) 0 := by
  have ht := recordsFit_replicate 10 16 n
  generalize List.replicate n 10 = t at ht
  show RecordsFit 10 16 (49 :: 46 :: 49 :: 46 :: 49 :: 46 :: 49 :: 10 :: t) 0
  simp [RecordsFit, ht]

theorem gib_block_records (n : Nat) :
    scanRecords 10 (bytesOf "1.1.1.1\n" ++ List.replicate n 10) [] = [bytesOf "1.1.1.1"] := by
  have ht := scanRecords_replicate 10 n
  generalize List.replicate n 10 = t at ht
  show scanRecords 10 (49 :: 46 :: 49 :: 46 :: 49 :: 46 :: 49 :: 10 :: t) [] =
    [[49, 46, 49, 46, 49, 46, 49]]
  simp [scanRecords, ht]

theorem gib_block_ends (n : Nat) :
    ∃ w, bytesOf "1.1.1.1\n" ++ List.replicate (n + 1) 10 = w ++ [10] :=
  ⟨bytesOf "1.1.1.1\n" ++ List.replicate n 10, by rw [List.replicate_succ', List.append_assoc]⟩

theorem gib_first_worker (m : Nat) (hm : m = 1073741816) (fuel : Nat) :
    goroutineReader
      { file := bytesOf "1.1.1.1\n" ++ List.replicate m 10, fileSize := 1073741824,
        maxGoroutines := 2, lineBreak := 10 }
      { ctx := some 1, readAtFaults := [], readFaults := [] } 0 536870928 maxLengthIp4
      (fuel + 2) =
      some (Except.ok ((some Error.canceled, [bytesOf "1.1.1.1"]),
        { ctx := some 0, readAtFaults := [], readFaults := [] })) := by
  unfold goroutineReader
  have hmb : (536870928 : Int) - 0 = 536870928 := by decide
  have hgt : (536870928 : Int) > 65536 := by decide
  have hneg : ¬ ((65536 : Int) < 0) := by decide
  have htn : (65536 : Int).toNat = 65536 := rfl
  simp only [hmb]
  rw [if_pos hgt, if_neg hneg, htn]
  obtain ⟨w, hw⟩ := gib_block_ends 65527
  have hlen8 : (bytesOf "1.1.1.1\n").length = 8 := rfl
  have hblen : (bytesOf "1.1.1.1\n" ++ List.replicate (65527 + 1) 10).length = 65536 := by
    rw [List.length_append, hlen8, List.length_replicate]
  have hstr : (List.replicate maxLengthIp4 0 : List Nat).length = 16 := by
    rw [List.length_replicate]; rfl
  have hfit := gib_block_fit (65527 + 1)
  have hscan := scanLoop_foldl 10 65536 (bytesOf "1.1.1.1\n" ++ List.replicate (65527 + 1) 10)
    [] []
    { str := List.replicate maxLengthIp4 0, k := 0, maxBytes := 536870928, sent := [] }
    65536 (by rw [hstr]; exact hfit) (Or.inr ⟨w, hw⟩)
    (by rw [hblen]; decide) (by rw [hblen]) (by decide) (by rw [hblen]; decide)
    (Or.inl hblen)
  obtain ⟨h1, h2, h3⟩ := foldl_scanStep 10 (bytesOf "1.1.1.1\n" ++ List.replicate (65527 + 1) 10)
    { str := List.replicate maxLengthIp4 0, k := 0, maxBytes := 536870928, sent := [] }
    (by rw [hstr]; exact hfit) (Nat.zero_le _)
  rw [List.nil_append, List.append_nil, List.length_nil, Nat.cast_zero] at hscan
  generalize List.foldl (scanStep 10)
    { str := List.replicate maxLengthIp4 0, k := 0, maxBytes := 536870928, sent := [] }
    (bytesOf "1.1.1.1\n" ++ List.replicate (65527 + 1) 10) = scan1 at hscan h1 h2 h3
  rw [hblen] at h1
  simp only [List.take_zero, List.nil_append, gib_block_records] at h3
  have hco : correctOffset
      { file := bytesOf "1.1.1.1\n" ++ List.replicate m 10, fileSize := 1073741824,
        maxGoroutines := 2, lineBreak := 10 } (0 + 65536)
      (bytesOf "1.1.1.1\n" ++ List.replicate (65527 + 1) 10) = 65536 := by
    rw [hw]
    have := correctOffset_spec
      { file := bytesOf "1.1.1.1\n" ++ List.replicate m 10, fileSize := 1073741824,
        maxGoroutines := 2, lineBreak := 10 } w [] (List.not_mem_nil _) (0 + 65536)
    rw [this]
    decide
  have hread := gib_first_block (bytesOf "1.1.1.1\n") m (65527 + 1) rfl (by omega)
    (List.replicate 65536 0) (List.length_replicate _ _)
  have hpos1 : scan1.maxBytes > 0 := by rw [h1]; decide
  rw [workerLoop_step
    { file := bytesOf "1.1.1.1\n" ++ List.replicate m 10, fileSize := 1073741824,
      maxGoroutines := 2, lineBreak := 10 } 65536 (fuel + 1) (some 1) 0
    (List.replicate 65536 0)
    { str := List.replicate maxLengthIp4 0, k := 0, maxBytes := 536870928, sent := [] }
    rfl (by decide) (by decide)
    (bytesOf "1.1.1.1\n" ++ List.replicate (65527 + 1) 10) 65536 none hread 65536
    (by rw [hco]; decide) scan1 hscan]
  have hne : ¬ ((none : Option Error) = some Error.eof) := by simp
  rw [if_neg hne]
  rw [workerLoop_cancelled _ 65536 fuel (Ctx.next (some 1)) _ _ scan1 hpos1 Error.canceled rfl]
  rw [h3]
  rfl

theorem gib_second_worker (ip : IPCounter) (fuel : Nat) :
    goroutineReader ip { ctx := some 0, readAtFaults := [], readFaults := [] }
      536870928 1073741824 maxLengthIp4 (fuel + 1) =
      some (Except.ok ((some Error.canceled, []),
        { ctx := some 0, readAtFaults := [], readFaults := [] })) := by
  unfold goroutineReader
  have hmb : (1073741824 : Int) - 536870928 = 536870896 := by decide
  have hgt : (536870896 : Int) > 65536 := by decide
  have hneg : ¬ ((65536 : Int) < 0) := by decide
  simp only [hmb]
  rw [if_pos hgt, if_neg hneg]
  rw [workerLoop_cancelled ip 65536 fuel (some 0) 536870928 _
    { str := List.replicate maxLengthIp4 0, k := 0, maxBytes := 536870896, sent := [] }
    (by decide) Error.canceled rfl]

theorem consume_one :
    ∃ ips, consume [bytesOf "1.1.1.1"] (fun _ => 0) 0 = Except.ok (ips, 1) := by
  have hp : ip4BytesToUint32 (bytesOf "1.1.1.1") = (16843009, none) := by decide
  rw [consume, hp]
  simp only
  have hb : ∃ ips, bitsetInsert ((256 * 256 * 256 * 256) / 8) (fun _ => 0) 0 16843009 =
      Except.ok (ips, 1) := by
    unfold bitsetInsert
    simp only
    have h1 : ¬ (256 * 256 * 256 * 256 / 8 ≤ 16843009 >>> 3) := by decide
    have h2 : (0 : Nat) &&& ((1 <<< (16843009 &&& 7)) % 256) = 0 := by decide
    rw [if_neg h1, if_pos h2]
    exact ⟨_, rfl⟩
  obtain ⟨ips, hips⟩ := hb
  rw [hips]
  exact ⟨ips, rfl⟩

theorem runWorkers_first_error (ip : IPCounter) (fuel : Nat) (position : Int)
    (positions : List Int) (prev : Int) (env : Env) (sent : List (List Nat)) (e : Error)
    (records : List (List Nat)) (env1 : Env)
    (h : goroutineReader ip env prev position maxLengthIp4 fuel =
      some (Except.ok ((some e, records), env1))) :
    runWorkers ip fuel (position :: positions) prev env none sent =
      runWorkers ip fuel positions position { env1 with ctx := some 0 } (some e)
        (sent ++ records) := by
  rw [runWorkers, h]

theorem runWorkers_later (ip : IPCounter) (fuel : Nat) (position : Int)
    (positions : List Int) (prev : Int) (env : Env) (sent : List (List Nat)) (e : Error)
    (err : Option Error) (records : List (List Nat)) (env1 : Env)
    (h : goroutineReader ip env prev position maxLengthIp4 fuel =
      some (Except.ok ((err, records), env1))) :
    runWorkers ip fuel (position :: positions) prev env (some e) sent =
      runWorkers ip fuel positions position env1 (some e) (sent ++ records) := by
  rw [runWorkers, h]

theorem ip4multipleReaders_of_parts (ip : IPCounter) (env : Env) (fuel : Nat)
    (positions : List Int) (env1 env2 : Env) (err : Option Error) (sent : List (List Nat))
    (ips : Nat → Nat) (n : Nat)
    (hpos : getPositions ip env maxLengthIp4 = Except.ok ((positions, none), env1))
    (hrun : runWorkers ip fuel positions 0 env1 none [] = some (Except.ok ((err, sent), env2)))
    (hcons : consume sent (fun _ => 0) 0 = Except.ok (ips, n)) :
    ip4multipleReaders ip env fuel = some (Except.ok ((n, err), env2)) := by
  unfold ip4multipleReaders
  rw [hpos]
  simp only
  rw [hrun]
  simp only
  rw [hcons]

theorem gib_parallel (m : Nat) (hm : m = 1073741816) (fuel : Nat) :
    ip4multipleReaders
      { file := bytesOf "1.1.1.1\n" ++ List.replicate m 10, fileSize := 1073741824,
        maxGoroutines := 2, lineBreak := 10 }
      { ctx := some 3, readAtFaults := [], readFaults := [] } (fuel + 2) =
      some (Except.ok ((1, some Error.canceled),
        { ctx := some 0, readAtFaults := [], readFaults := [] })) := by
  obtain ⟨ips, hips⟩ := consume_one
  refine ip4multipleReaders_of_parts _ _ _ [536870928, 1073741824]
    { ctx := some 1, readAtFaults := [], readFaults := [] } _ _ [bytesOf "1.1.1.1"] ips 1
    (gib_positions (bytesOf "1.1.1.1\n") m (by rw [hm]; rfl) (by decide) (some 3) rfl rfl) ?_ hips
  rw [runWorkers_first_error _ _ _ _ _ _ _ Error.canceled [bytesOf "1.1.1.1"]
    { ctx := some 0, readAtFaults := [], readFaults := [] } (gib_first_worker m hm fuel)]
  rw [runWorkers_later _ _ _ _ _ _ _ Error.canceled (some Error.canceled) []
    { ctx := some 0, readAtFaults := [], readFaults := [] } (gib_second_worker _ (fuel + 1))]
  rw [runWorkers]
  rfl

theorem gib_UniqueIP4 (m : Nat) (hm : m = 1073741816) (fuel : Nat) :
    UniqueIP4 (NewIPCounter 2 10) { ctx := some 4, readAtFaults := [], readFaults := [] } 2
      { content := bytesOf "1.1.1.1\n" ++ List.replicate m 10, size := 1073741824,
        openErr := none, statErr := none, closeErr := none } (fuel + 2) =
      some (Except.ok ((1, some Error.canceled),
        { file := bytesOf "1.1.1.1\n" ++ List.replicate m 10, fileSize := 1073741824,
          maxGoroutines := 2, lineBreak := 10 })) :=
  UniqueIP4_parallel_passes (NewIPCounter 2 10)
    { ctx := some 4, readAtFaults := [], readFaults := [] } 2
    { content := bytesOf "1.1.1.1\n" ++ List.replicate m 10, size := 1073741824,
      openErr := none, statErr := none, closeErr := none } (fuel + 2) 2 1 (some Error.canceled)
    { ctx := some 0, readAtFaults := [], readFaults := [] } rfl rfl rfl rfl (by decide)
    (gib_parallel m hm fuel)

/-- C11 (failing input): a file of 1 GiB, the record `1.1.1.1` followed by
empty records, read by `UniqueIP4` with two workers, where the context is
cancelled after the first worker has scanned its first block of 65536 bytes.
`UniqueIP4` returns the cancellation error together with the count 1 of the
record that worker had sent.  The same on a small file handed to
`ip4multipleReaders` with two workers, where the three attempts of the second
worker to read its block fail: the read error comes with the count 4.
`UniqueIP4` hands the pair of the parallel reader to its caller unchanged,
whereas the sequential reader returns count 0 with the error when a read fails
three times. -/
theorem parallel_reader_returns_partial_count :
    UniqueIP4 (NewIPCounter 2 10) { ctx := some 4, readAtFaults := [], readFaults := [] } 2
      { content := bytesOf "1.1.1.1\n" ++ List.replicate 1073741816 10, size := 1073741824,
        openErr := none, statErr := none, closeErr := none } 2 =
      some (Except.ok ((1, some Error.canceled),
        { file := bytesOf "1.1.1.1\n" ++ List.replicate 1073741816 10, fileSize := 1073741824,
          maxGoroutines := 2, lineBreak := 10 })) ∧
    ip4multipleReaders
      { file := bytesOf "1.1.1.1\n2.2.2.2\n3.3.3.3\n4.4.4.4\n5.5.5.5\n", fileSize := 40,
        maxGoroutines := 2, lineBreak := 10 }
      { ctx := none, readAtFaults := [false, false, false, true, true, true], readFaults := [] }
      41 =
      some (Except.ok ((4, some Error.io), { ctx := some 0, readAtFaults := [], readFaults := [] })) ∧
    (∀ (ip : IPCounter) (env : Env) (cores : Nat) (f : OsFile) (fuel : Nat) (workers : Int)
        (count : Nat) (err : Option Error) (env' : Env),
      checkContext env.ctx = none → f.openErr = none → f.statErr = none →
      getGoroutinesCount { ip with file := f.content, fileSize := f.size } cores =
        Except.ok workers →
      1 < workers →
      ip4multipleReaders
        { file := f.content, fileSize := f.size, maxGoroutines := workers,
          lineBreak := ip.lineBreak }
        { env with ctx := env.ctx.next } fuel = some (Except.ok ((count, err), env')) →
      UniqueIP4 ip env cores f fuel =
        some (Except.ok ((count, err),
          { file := f.content, fileSize := f.size, maxGoroutines := workers,
            lineBreak := ip.lineBreak }))) ∧
    ip4SequentialReader
      { file := bytesOf "1.1.1.1\n2.2.2.2\n3.3.3.3\n4.4.4.4\n5.5.5.5\n", fileSize := 40,
        maxGoroutines := 1, lineBreak := 10 }
      { ctx := none, readAtFaults := [], readFaults := [none, none, some 0, some 0, some 0] }
      41 = some (Except.ok (0, some Error.io)) :=
  ⟨gib_UniqueIP4 1073741816 rfl 0, by decide, UniqueIP4_parallel_passes, by decide⟩

theorem scanLoop_prefix (sep : Nat) (maxSize : Int) (remaining : Nat) :
    ∀ (seg front back : List Nat) (st : ScanState),
      RecordsFit sep st.str.length seg st.k →
      ((front.length + seg.length : Nat) : Int) < maxSize →
      (seg.length : Int) < st.maxBytes →
      scanLoop sep (front ++ (seg ++ back)) maxSize (seg.length + remaining) front.length st =
        scanLoop sep (front ++ (seg ++ back)) maxSize remaining
          ((front.length + seg.length : Nat) : Int) (seg.foldl (scanStep sep) st) := by
  intro seg
  induction seg with
  | nil =>
    intro front back st _ _ _
    simp
  | cons c rest ih =>
    intro front back st hfit hsum hlt
    simp only [List.length_cons, Nat.cast_add, Nat.cast_one] at hsum hlt
    have hi : (front.length : Int).toNat < (front ++ (c :: rest ++ back)).length := by
      simp
    have hc : (front ++ (c :: rest ++ back)).getD (front.length : Int).toNat 0 = c := by
      simp only [Int.toNat_ofNat, List.getD_eq_getElem?_getD]
      rw [List.getElem?_append_right (le_refl _)]
      simp
    have hlast : (front.length : Int) = maxSize - 1 → c = sep := by
      intro h
      omega
    have hrem : (c :: rest).length + remaining = (rest.length + remaining) + 1 := by
      simp only [List.length_cons]
      omega
    rw [hrem, scanLoop_cons sep _ maxSize _ _ st c hi hc hlast
      (recordsFit_head sep _ c rest _ hfit)]
    rw [scanStep_maxBytes, List.foldl_cons]
    have h0 : ¬ (st.maxBytes - 1 = 0) := by omega
    rw [if_neg h0]
    have hbuf : front ++ (c :: rest ++ back) = (front ++ [c]) ++ (rest ++ back) := by simp
    have hidx : (front.length : Int) + 1 = ((front ++ [c]).length : Int) := by simp
    have hidx2 : front.length + (c :: rest).length = (front ++ [c]).length + rest.length := by
      simp only [List.length_cons, List.length_append, List.length_nil]
      omega
    rw [hbuf, hidx, hidx2]
    apply ih (front ++ [c]) back (scanStep sep st c) (scanStep_fit sep st c rest hfit)
    · simp only [List.length_append, List.length_singleton, Nat.cast_add, Nat.cast_one]
      omega
    · rw [scanStep_maxBytes]
      omega

theorem scanLoop_panic (sep : Nat) (buffer : List Nat) (maxSize : Int) (r : Nat) (i : Int)
    (st : ScanState) (c : Nat)
    (hi : i.toNat < buffer.length) (hc : buffer.getD i.toNat 0 = c)
    (hsep : c ≠ sep) (hlast : i ≠ maxSize - 1) (h32 : c ≠ 32) (hfull : st.str.length ≤ st.k) :
    scanLoop sep buffer maxSize (r + 1) i st = Except.error Panic.indexOutOfRange := by
  have hnot : ¬ buffer.length ≤ i.toNat := by omega
  have h1 : ¬ (c = sep ∨ i = maxSize - 1) := by
    intro h
    rcases h with h | h
    · exact hsep h
    · exact hlast h
  rw [scanLoop, if_neg hnot]
  simp only [hc]
  rw [if_neg h1, if_pos h32, if_pos hfull]

theorem workerLoop_panic (ip : IPCounter) (L : Int) (fuel : Nat) (ctx : Ctx) (offset : Int)
    (buffer : List Nat) (scan : ScanState) (hctx : checkContext ctx = none)
    (hoff : 0 ≤ offset) (hpos : scan.maxBytes > 0)
    (buffer1 : List Nat) (bytesRead : Nat) (err : Option Error)
    (hread : readAtOk ip.file buffer offset = (buffer1, bytesRead, err))
    (maxSize : Int)
    (hmax : maxSize =
      if (bytesRead : Int) < L then (bytesRead : Int)
      else if (bytesRead : Int) - ((offset + L) - correctOffset ip (offset + L) buffer1) ≤ 0 then
        (bytesRead : Int)
      else (bytesRead : Int) - ((offset + L) - correctOffset ip (offset + L) buffer1))
    (p : Panic)
    (hscan : scanLoop ip.lineBreak buffer1 maxSize maxSize.toNat 0 scan = Except.error p) :
    workerLoop ip L (fuel + 1)
        { env := { ctx := ctx, readAtFaults := [], readFaults := [] }, offset := offset,
          buffer := buffer, scan := scan } = some (Except.error p) := by
  have herr : ¬ (err ≠ none ∧ err ≠ some Error.eof) := by
    have := readAtOk_err ip.file buffer offset hoff
    rw [hread] at this
    simp only at this
    intro h
    rcases this with h1 | h1
    · exact h.1 h1
    · exact h.2 h1
  rw [workerLoop, if_pos hpos]
  simp only [hctx]
  rw [readAtRetry_no_fault ip.file buffer offset hoff ctx.next 0 none, hread]
  simp only
  rw [if_neg herr, ← hmax, hscan]

theorem runWorkers_panic (ip : IPCounter) (fuel : Nat) (position : Int)
    (positions : List Int) (prev : Int) (env : Env) (firstErr : Option Error)
    (sent : List (List Nat)) (p : Panic)
    (h : goroutineReader ip env prev position maxLengthIp4 fuel = some (Except.error p)) :
    runWorkers ip fuel (position :: positions) prev env firstErr sent =
      some (Except.error p) := by
  rw [runWorkers, h]

theorem ip4multipleReaders_panic (ip : IPCounter) (env : Env) (fuel : Nat)
    (positions : List Int) (env1 : Env) (p : Panic)
    (hpos : getPositions ip env maxLengthIp4 = Except.ok ((positions, none), env1))
    (hrun : runWorkers ip fuel positions 0 env1 none [] = some (Except.error p)) :
    ip4multipleReaders ip env fuel = some (Except.error p) := by
  unfold ip4multipleReaders
  rw [hpos]
  simp only
  rw [hrun]

theorem UniqueIP4_parallel_panic (ip : IPCounter) (env : Env) (cores : Nat) (f : OsFile)
    (fuel : Nat) (workers : Int) (p : Panic)
    (hctx : checkContext env.ctx = none) (hopen : f.openErr = none) (hstat : f.statErr = none)
    (hpol : getGoroutinesCount { ip with file := f.content, fileSize := f.size } cores =
      Except.ok workers) (hw : 1 < workers)
    (hrun : ip4multipleReaders
      { file := f.content, fileSize := f.size, maxGoroutines := workers, lineBreak := ip.lineBreak }
      { env with ctx := env.ctx.next } fuel = some (Except.error p)) :
    UniqueIP4 ip env cores f fuel = some (Except.error p) := by
  unfold UniqueIP4
  rw [hctx]
  simp only [hopen, getFileSize, hstat, hpol]
  rw [if_pos hw, hrun]

theorem long_record_scan (n r : Nat) :
    scanLoop 10 (bytesOf "not_an_ip4_address\n" ++ List.replicate n 10) 65536 (16 + (r + 1)) 0
        { str := List.replicate maxLengthIp4 0, k := 0, maxBytes := 536870928, sent := [] } =
      Except.error Panic.indexOutOfRange := by
  have hbuf : bytesOf "not_an_ip4_address\n" ++ List.replicate n 10 =
      [] ++ (bytesOf "not_an_ip4_addre" ++ (bytesOf "ss\n" ++ List.replicate n 10)) := rfl
  have hfit : RecordsFit 10 16 (bytesOf "not_an_ip4_addre") 0 := by
    show RecordsFit 10 16 [110, 111, 116, 95, 97, 110, 95, 105, 112, 52, 95, 97, 100, 100, 114,
      101] 0
    simp [RecordsFit]
  have h := scanLoop_prefix 10 65536 (r + 1) (bytesOf "not_an_ip4_addre") []
    (bytesOf "ss\n" ++ List.replicate n 10)
    { str := List.replicate maxLengthIp4 0, k := 0, maxBytes := 536870928, sent := [] }
    hfit (by decide) (by decide)
  have hl : (bytesOf "not_an_ip4_addre").length = 16 := rfl
  rw [hl, List.length_nil, Nat.cast_zero] at h
  rw [hbuf, h]
  apply scanLoop_panic 10 _ 65536 r _ _ 115
  · simp only [List.length_append, List.length_nil, hl]
    show 16 < 0 + (16 + ((bytesOf "ss\n").length + (List.replicate n 10).length))
    have hl3 : (bytesOf "ss\n").length = 3 := rfl
    omega
  · rfl
  · decide
  · decide
  · decide
  · decide

theorem long_record_worker (m : Nat) (hm : m = 1073741805) (fuel : Nat) :
    goroutineReader
      { file := bytesOf "not_an_ip4_address\n" ++ List.replicate m 10, fileSize := 1073741824,
        maxGoroutines := 2, lineBreak := 10 }
      { ctx := none, readAtFaults := [], readFaults := [] } 0 536870928 maxLengthIp4
      (fuel + 1) = some (Except.error Panic.indexOutOfRange) := by
  unfold goroutineReader
  have hmb : (536870928 : Int) - 0 = 536870928 := by decide
  have hgt : (536870928 : Int) > 65536 := by decide
  have hneg : ¬ ((65536 : Int) < 0) := by decide
  have htn : (65536 : Int).toNat = 65536 := rfl
  simp only [hmb]
  rw [if_pos hgt, if_neg hneg, htn]
  have hread := gib_first_block (bytesOf "not_an_ip4_address\n") m (65516 + 1) rfl (by omega)
    (List.replicate 65536 0) (List.length_replicate _ _)
  have hco : correctOffset
      { file := bytesOf "not_an_ip4_address\n" ++ List.replicate m 10, fileSize := 1073741824,
        maxGoroutines := 2, lineBreak := 10 } (0 + 65536)
      (bytesOf "not_an_ip4_address\n" ++ List.replicate (65516 + 1) 10) = 65536 := by
    rw [List.replicate_succ', ← List.append_assoc]
    have := correctOffset_spec
      { file := bytesOf "not_an_ip4_address\n" ++ List.replicate m 10, fileSize := 1073741824,
        maxGoroutines := 2, lineBreak := 10 }
      (bytesOf "not_an_ip4_address\n" ++ List.replicate 65516 10) [] (List.not_mem_nil _)
      (0 + 65536)
    rw [this]
    decide
  have hscan := long_record_scan (65516 + 1) 65519
  exact workerLoop_panic
    { file := bytesOf "not_an_ip4_address\n" ++ List.replicate m 10, fileSize := 1073741824,
      maxGoroutines := 2, lineBreak := 10 } 65536 fuel none 0
    (List.replicate 65536 0)
    { str := List.replicate maxLengthIp4 0, k := 0, maxBytes := 536870928, sent := [] }
    rfl (by decide) (by decide)
    (bytesOf "not_an_ip4_address\n" ++ List.replicate (65516 + 1) 10) 65536 none hread 65536
    (by rw [hco]; decide) Panic.indexOutOfRange hscan

theorem long_record_UniqueIP4 (m : Nat) (hm : m = 1073741805) (fuel : Nat) :
    UniqueIP4 (NewIPCounter 2 10) Env.quiet 2
      { content := bytesOf "not_an_ip4_address\n" ++ List.replicate m 10, size := 1073741824,
        openErr := none, statErr := none, closeErr := none } (fuel + 1) =
      some (Except.error Panic.indexOutOfRange) :=
  UniqueIP4_parallel_panic (NewIPCounter 2 10) Env.quiet 2
    { content := bytesOf "not_an_ip4_address\n" ++ List.replicate m 10, size := 1073741824,
      openErr := none, statErr := none, closeErr := none } (fuel + 1) 2 Panic.indexOutOfRange
    rfl rfl rfl rfl (by decide)
    (ip4multipleReaders_panic _ _ _ [536870928, 1073741824]
      { ctx := none, readAtFaults := [], readFaults := [] } Panic.indexOutOfRange
      (gib_positions (bytesOf "not_an_ip4_address\n") m (by rw [hm]; rfl) (by decide) none
        rfl rfl)
      (runWorkers_panic _ _ _ _ _ _ _ _ _ (long_record_worker m hm fuel)))

/-- C13 (failing input): a file of 1 GiB that starts with the record
`not_an_ip4_address` of 18 bytes and goes on with empty records, read by
`UniqueIP4` with two workers, without read failure or cancellation: the first
worker writes the 17th byte of the record to `str[16]` and the run panics.
The same on a 51-byte file whose third record is `not_an_ip4_address`, handed
to the parallel reader with two workers: the worker of the partition `[0,35)`
panics, and so does `ip4multipleReaders`; the sequential reader skips the
record and counts the four addresses. -/
theorem parallel_reader_panics_on_long_record :
    UniqueIP4 (NewIPCounter 2 10) Env.quiet 2
      { content := bytesOf "not_an_ip4_address\n" ++ List.replicate 1073741805 10,
        size := 1073741824, openErr := none, statErr := none, closeErr := none } 1 =
      some (Except.error Panic.indexOutOfRange) ∧
    getPositions
      { file := bytesOf "1.1.1.1\n2.2.2.2\nnot_an_ip4_address\n3.3.3.3\n4.4.4.4\n",
        fileSize := 51, maxGoroutines := 2, lineBreak := 10 }
      Env.quiet maxLengthIp4 = Except.ok (([35, 51], none), Env.quiet) ∧
    goroutineReader
      { file := bytesOf "1.1.1.1\n2.2.2.2\nnot_an_ip4_address\n3.3.3.3\n4.4.4.4\n",
        fileSize := 51, maxGoroutines := 2, lineBreak := 10 }
      Env.quiet 0 35 maxLengthIp4 36 = some (Except.error Panic.indexOutOfRange) ∧
    ip4multipleReaders
      { file := bytesOf "1.1.1.1\n2.2.2.2\nnot_an_ip4_address\n3.3.3.3\n4.4.4.4\n",
        fileSize := 51, maxGoroutines := 2, lineBreak := 10 }
      Env.quiet 52 = some (Except.error Panic.indexOutOfRange) ∧
    ip4SequentialReader
      { file := bytesOf "1.1.1.1\n2.2.2.2\nnot_an_ip4_address\n3.3.3.3\n4.4.4.4\n",
        fileSize := 51, maxGoroutines := 2, lineBreak := 10 }
      Env.quiet 52 = some (Except.ok (4, none)) :=
  ⟨long_record_UniqueIP4 1073741805 rfl 0, by decide, by decide, by decide, by decide⟩

/-! ## The dedup store of the sequential reader -/

theorem ip4SequentialReader_eq_loop (ip : IPCounter) (env : Env) (fuel : Nat) :
    ip4SequentialReader ip env fuel =
      if ip.fileSize ≤ (256 * 256 * 256 * 256) / 8 ∧ seqCapacity ip.fileSize < 0 then
        some (Except.error Panic.makeNegative)
      else
        seqLoop ip.lineBreak (seqCapacity ip.fileSize) (seqBitsetLen ip.fileSize) fuel
          { env := env, rest := ip.file, ipsWithIndex := fun _ => 0, ipsWithOutIndex := [],
            uniqueCount := 0 } := rfl

theorem seqCapacity_zero_iff (s : Int) (hs : 0 ≤ s) :
    seqCapacity s = 0 ↔ s = 0 ∨ 536870912 < s := by
  unfold seqCapacity
  have hmb : ((256 * 256 * 256 * 256) / 8 : Int) = 536870912 := by decide
  rw [hmb, Int.tdiv_eq_ediv hs (by decide)]
  by_cases h1 : s ≤ 536870912
  · rw [if_pos h1]
    by_cases h2 : s / 8 = 0
    · rw [if_pos h2]
      constructor
      · intro h; exact Or.inl h
      · intro h; omega
    · rw [if_neg h2]
      constructor
      · intro h; exact absurd h h2
      · intro h; omega
  · rw [if_neg h1]
    constructor
    · intro _; right; omega
    · intro _; rfl

theorem seqCapacity_nonneg (s : Int) (hs : 0 ≤ s) : 0 ≤ seqCapacity s := by
  unfold seqCapacity
  rw [Int.tdiv_eq_ediv hs (by decide)]
  split_ifs <;> omega

theorem seqBitsetLen_big (s : Int) (hs : 536870912 < s) : seqBitsetLen s = 536870912 := by
  unfold seqBitsetLen
  have hmb : ((256 * 256 * 256 * 256) / 8 : Int) = 536870912 := by decide
  rw [hmb, if_neg (by omega)]
  rfl

theorem bitsetInsert_ok (size : Nat) (ips : Nat → Nat) (count k : Nat) (hk : k >>> 3 < size) :
    ∃ r, bitsetInsert size ips count k = Except.ok r := by
  unfold bitsetInsert
  simp only
  have hnot : ¬ size ≤ k >>> 3 := by omega
  rw [if_neg hnot]
  split
  · exact ⟨_, rfl⟩
  · exact ⟨_, rfl⟩

theorem parseKey_iff (r : List Nat) (k : Nat) :
    ip4BytesToUint32 r = (k, none) → parseKey r = some k := by
  intro h
  unfold parseKey
  rw [h]

theorem ip4BytesToUint32_lt (r : List Nat) (h : (ip4BytesToUint32 r).2 = none) :
    (ip4BytesToUint32 r).1 < 2 ^ 32 := by
  apply parseKey_lt r
  apply parseKey_iff
  rw [← h]

theorem storeLine_lineKeys (sep : Nat) (capacity : Int) (bitsetLen : Nat) (line : List Nat)
    (ips : Nat → Nat) (buffered : List Nat) (count : Nat) :
    storeLine sep capacity bitsetLen line ips buffered count =
      storeKeys capacity bitsetLen (lineKeys sep line) (ips, buffered, count) := by
  rw [storeLine_eq]
  unfold lineKeys
  by_cases hl : line.length > 0
  · rw [if_pos hl, if_pos hl]
  · rw [if_neg hl, if_neg hl, storeKeys_nil]

theorem lineKeys_lt (sep : Nat) (line : List Nat) : ∀ k ∈ lineKeys sep line, k < 2 ^ 32 := by
  intro k hk
  unfold lineKeys at hk
  by_cases hl : line.length > 0
  · rw [if_pos hl] at hk
    rw [Option.mem_toList] at hk
    exact parseKey_lt _ k hk
  · rw [if_neg hl] at hk
    simp at hk

theorem lineKeys_nil (sep : Nat) : lineKeys sep [] = [] := rfl

theorem storeKeys_buffer (capacity : Int) (hc : capacity ≠ 0) (bitsetLen : Nat) (keys : List Nat)
    (ips : Nat → Nat) (buffered : List Nat) (count : Nat) :
    storeKeys capacity bitsetLen keys (ips, buffered, count) =
      Except.ok (ips, buffered ++ keys, count) := by
  unfold storeKeys
  rw [if_neg hc]

theorem storeKeys_bitset (keys : List Nat) (h32 : ∀ k ∈ keys, k < 2 ^ 32) (ips : Nat → Nat)
    (S : Finset Nat) (hS : BitsetHolds ips S) (buffered : List Nat) :
    ∃ ips1, storeKeys 0 536870912 keys (ips, buffered, S.card) =
        Except.ok (ips1, buffered, (S ∪ keys.toFinset).card) ∧
      BitsetHolds ips1 (S ∪ keys.toFinset) := by
  obtain ⟨ips1, h1, h2⟩ := bitsetInsertAll_spec 536870912 keys ips S hS
    (fun k hk => key_index_lt k (h32 k hk))
  refine ⟨ips1, ?_, h2⟩
  unfold storeKeys
  rw [if_pos rfl]
  simp only
  rw [h1]

theorem bitsetInsertAll_ok (size : Nat) (keys : List Nat) (hk : ∀ k ∈ keys, k >>> 3 < size) :
    ∀ (ips : Nat → Nat) (count : Nat), ∃ r, bitsetInsertAll size keys ips count = Except.ok r := by
  induction keys with
  | nil => intro ips count; exact ⟨_, rfl⟩
  | cons k ks ih =>
    intro ips count
    obtain ⟨⟨ips1, c1⟩, h1⟩ := bitsetInsert_ok size ips count k (hk k (by simp))
    obtain ⟨r, h2⟩ := ih (fun x hx => hk x (by simp [hx])) ips1 c1
    exact ⟨r, by rw [bitsetInsertAll, h1]; exact h2⟩

theorem storeKeys_ok (capacity : Int) (bitsetLen : Nat) (keys : List Nat)
    (hsafe : capacity ≠ 0 ∨ bitsetLen = 536870912 ∨ keys = []) (h32 : ∀ k ∈ keys, k < 2 ^ 32)
    (s : (Nat → Nat) × List Nat × Nat) :
    ∃ r, storeKeys capacity bitsetLen keys s = Except.ok r := by
  by_cases hc : capacity = 0
  · rcases hsafe with h | h | h
    · exact absurd hc h
    · obtain ⟨⟨ips1, c1⟩, h1⟩ := bitsetInsertAll_ok bitsetLen keys
        (fun k hk => by rw [h]; exact key_index_lt k (h32 k hk)) s.1 s.2.2
      refine ⟨(ips1, s.2.1, c1), ?_⟩
      unfold storeKeys
      rw [if_pos hc, h1]
    · rw [h]
      exact ⟨s, storeKeys_nil _ _ _⟩
  · exact ⟨_, by unfold storeKeys; rw [if_neg hc]⟩

theorem readBytes_cases (env : Env) (delim : Nat) (rest : List Nat) :
    ((readBytes env delim rest).1.2.1 = some Error.io ∧
      (readBytes env delim rest).1.2.2.length ≤ rest.length ∧
      (rest = [] → (readBytes env delim rest).1.1 = [])) ∨
    (readBytes env delim rest).1 = readBytesOk delim rest := by
  unfold readBytes
  cases env.readFaults with
  | nil => right; rfl
  | cons f fs =>
    cases f with
    | none => right; rfl
    | some n =>
      left
      refine ⟨rfl, ?_, ?_⟩
      · simp only [List.length_drop]
        omega
      · intro h
        simp only [h, List.take_nil]

theorem readBytesRetry_progress (delim : Nat) (rest0 : List Nat) :
    ∀ (attempts : Nat) (env : Env) (rest line : List Nat) (err : Option Error),
      rest.length ≤ rest0.length →
      (attempts = 0 → err ≠ none ∧ (rest0 = [] → line = [])) →
      (readBytesRetry delim attempts env rest line err).1.2.2.length ≤ rest0.length ∧
      ((readBytesRetry delim attempts env rest line err).1.2.1 = none →
        (readBytesRetry delim attempts env rest line err).1.2.2.length < rest0.length) ∧
      (rest0 = [] → (readBytesRetry delim attempts env rest line err).1.1 = [] ∧
        (readBytesRetry delim attempts env rest line err).1.2.1 ≠ none) := by
  intro attempts
  induction attempts with
  | zero =>
    intro env rest line err hle h0
    obtain ⟨h1, h2⟩ := h0 rfl
    rw [readBytesRetry]
    exact ⟨hle, fun h => absurd h h1, fun h => ⟨h2 h, h1⟩⟩
  | succ a ih =>
    intro env rest line err hle _
    rw [readBytesRetry]
    have hcases := readBytes_cases env delim rest
    rcases hrb : readBytes env delim rest with ⟨⟨line1, err1, rest1⟩, env1⟩
    rw [hrb] at hcases
    simp only at hcases ⊢
    rcases hcases with ⟨he, hlen, hnil⟩ | hok
    · have hnot : ¬ (err1 = none ∨ err1 = some Error.eof) := by
        rw [he]
        simp
      rw [if_neg hnot]
      apply ih env1 rest1 line1 err1 (by omega)
      intro _
      refine ⟨by rw [he]; simp, fun h0 => hnil ?_⟩
      apply List.length_eq_zero.1
      rw [h0] at hle
      simp only [List.length_nil] at hle
      omega
    · rcases readBytesOk_cases delim rest with ⟨_, h⟩ | ⟨pre, r1, hsplit, _, h⟩
      · rw [h] at hok
        injection hok with hl hrest
        injection hrest with he hr
        rw [he, if_pos (Or.inr rfl)]
        simp only
        refine ⟨by rw [hr]; simp, fun hn => ?_, fun h0 => ⟨?_, by simp⟩⟩
        · cases hn
        rw [hl]
        apply List.length_eq_zero.1
        rw [h0] at hle
        simp only [List.length_nil] at hle
        omega
      · rw [h] at hok
        injection hok with hl hrest
        injection hrest with he hr
        rw [he, if_pos (Or.inl rfl)]
        simp only
        have hlt : rest1.length < rest.length := by
          rw [hr, hsplit]
          simp only [List.length_append, List.length_cons]
          omega
        refine ⟨by omega, fun _ => by omega, fun h0 => ?_⟩
        rw [h0] at hle
        simp only [List.length_nil] at hle
        omega

theorem seqLoop_cancel (sep : Nat) (capacity : Int) (bitsetLen fuel : Nat) (st : SeqState)
    (e : Error) (hctx : checkContext st.env.ctx = some e) :
    seqLoop sep capacity bitsetLen (fuel + 1) st = some (Except.ok (0, some Error.canceled)) := by
  rw [seqLoop]
  simp only [hctx]

theorem seqLoop_step (sep : Nat) (capacity : Int) (bitsetLen fuel : Nat) (st : SeqState)
    (hctx : checkContext st.env.ctx = none) (line : List Nat) (err : Option Error)
    (rest1 : List Nat) (env1 : Env)
    (hread : readBytesRetry sep 3 { st.env with ctx := st.env.ctx.next } st.rest [] none =
      ((line, err, rest1), env1))
    (ips : Nat → Nat) (buffered : List Nat) (count : Nat)
    (hstore : storeLine sep capacity bitsetLen line st.ipsWithIndex st.ipsWithOutIndex
      st.uniqueCount = Except.ok (ips, buffered, count)) :
    seqLoop sep capacity bitsetLen (fuel + 1) st =
      if err ≠ none ∧ err ≠ some Error.eof then some (Except.ok (0, err))
      else if err = some Error.eof then
        some (Except.ok (if buffered.length > 0 then ip4SortCount buffered else count, none))
      else
        seqLoop sep capacity bitsetLen fuel
          { env := env1, rest := rest1, ipsWithIndex := ips, ipsWithOutIndex := buffered,
            uniqueCount := count } := by
  rw [seqLoop]
  simp only [hctx, hread, hstore]

theorem seqLoop_safe (sep : Nat) (capacity : Int) (bitsetLen : Nat) :
    ∀ (fuel : Nat) (st : SeqState),
      (capacity ≠ 0 ∨ bitsetLen = 536870912 ∨ st.rest = []) →
      (∀ p, seqLoop sep capacity bitsetLen fuel st ≠ some (Except.error p)) ∧
      (st.rest.length < fuel → ∃ r, seqLoop sep capacity bitsetLen fuel st = some (Except.ok r)) := by
  intro fuel
  induction fuel with
  | zero =>
    intro st _
    refine ⟨fun p h => ?_, fun h => ?_⟩
    · rw [seqLoop] at h
      cases h
    · omega
  | succ fuel ih =>
    intro st hsafe
    cases hctx : checkContext st.env.ctx with
    | some e =>
      rw [seqLoop_cancel sep capacity bitsetLen fuel st e hctx]
      exact ⟨fun p h => (by cases h), fun _ => ⟨_, rfl⟩⟩
    | none =>
      have hprog := readBytesRetry_progress sep st.rest 3 { st.env with ctx := st.env.ctx.next }
        st.rest [] none (le_refl _) (fun h => by cases h)
      rcases hread : readBytesRetry sep 3 { st.env with ctx := st.env.ctx.next } st.rest [] none
        with ⟨⟨line, err, rest1⟩, env1⟩
      rw [hread] at hprog
      simp only at hprog
      obtain ⟨hp1, hp2, hp3⟩ := hprog
      have hsafe1 : capacity ≠ 0 ∨ bitsetLen = 536870912 ∨ lineKeys sep line = [] := by
        rcases hsafe with h | h | h
        · exact Or.inl h
        · exact Or.inr (Or.inl h)
        · right; right
          rw [(hp3 h).1]
          rfl
      obtain ⟨⟨ips, buffered, count⟩, hstore⟩ := storeKeys_ok capacity bitsetLen (lineKeys sep line)
        hsafe1 (lineKeys_lt sep line) (st.ipsWithIndex, st.ipsWithOutIndex, st.uniqueCount)
      rw [← storeLine_lineKeys] at hstore
      rw [seqLoop_step sep capacity bitsetLen fuel st hctx line err rest1 env1 hread ips buffered
        count hstore]
      by_cases hfatal : err ≠ none ∧ err ≠ some Error.eof
      · rw [if_pos hfatal]
        exact ⟨fun p h => (by cases h), fun _ => ⟨_, rfl⟩⟩
      · rw [if_neg hfatal]
        by_cases heof : err = some Error.eof
        · rw [if_pos heof]
          exact ⟨fun p h => (by cases h), fun _ => ⟨_, rfl⟩⟩
        · rw [if_neg heof]
          have hnone : err = none := by
            by_contra hne
            exact hfatal ⟨hne, heof⟩
          have hsafe2 : capacity ≠ 0 ∨ bitsetLen = 536870912 ∨
              ({ env := env1, rest := rest1, ipsWithIndex := ips, ipsWithOutIndex := buffered,
                 uniqueCount := count } : SeqState).rest = [] := by
            rcases hsafe with h | h | h
            · exact Or.inl h
            · exact Or.inr (Or.inl h)
            · exact absurd hnone (hp3 h).2
          obtain ⟨h1, h2⟩ := ih
            { env := env1, rest := rest1, ipsWithIndex := ips, ipsWithOutIndex := buffered,
              uniqueCount := count } hsafe2
          refine ⟨h1, fun hlen => h2 ?_⟩
          have := hp2 hnone
          show rest1.length < fuel
          omega

theorem seqLoop_strategy (sep : Nat) (capacity : Int) (hc : capacity ≠ 0) (bitsetLen : Nat)
    (ips0 : Nat → Nat) :
    ∀ (fuel : Nat) (env : Env) (rest : List Nat) (ips : Nat → Nat) (S : Finset Nat)
      (buffered : List Nat),
      BitsetHolds ips S → buffered.toFinset = S →
      seqLoop sep 0 536870912 fuel
          { env := env, rest := rest, ipsWithIndex := ips, ipsWithOutIndex := [],
            uniqueCount := S.card } =
        seqLoop sep capacity bitsetLen fuel
          { env := env, rest := rest, ipsWithIndex := ips0, ipsWithOutIndex := buffered,
            uniqueCount := 0 } := by
  intro fuel
  induction fuel with
  | zero =>
    intro env rest ips S buffered _ _
    rw [seqLoop, seqLoop]
  | succ fuel ih =>
    intro env rest ips S buffered hS hbuf
    cases hctx : checkContext env.ctx with
    | some e =>
      rw [seqLoop_cancel sep 0 536870912 fuel _ e hctx,
        seqLoop_cancel sep capacity bitsetLen fuel _ e hctx]
    | none =>
      rcases hread : readBytesRetry sep 3 { env with ctx := env.ctx.next } rest [] none
        with ⟨⟨line, err, rest1⟩, env1⟩
      obtain ⟨ips1, hstore1, hS1⟩ := storeKeys_bitset (lineKeys sep line) (lineKeys_lt sep line)
        ips S hS []
      have hstore2 := storeKeys_buffer capacity hc bitsetLen (lineKeys sep line) ips0 buffered 0
      rw [← storeLine_lineKeys] at hstore1 hstore2
      rw [seqLoop_step sep 0 536870912 fuel _ hctx line err rest1 env1 hread ips1 []
        (S ∪ (lineKeys sep line).toFinset).card hstore1,
        seqLoop_step sep capacity bitsetLen fuel _ hctx line err rest1 env1 hread ips0
        (buffered ++ lineKeys sep line) 0 hstore2]
      have hbuf1 : (buffered ++ lineKeys sep line).toFinset = S ∪ (lineKeys sep line).toFinset := by
        rw [List.toFinset_append, hbuf]
      by_cases hfatal : err ≠ none ∧ err ≠ some Error.eof
      · rw [if_pos hfatal, if_pos hfatal]
      · rw [if_neg hfatal, if_neg hfatal]
        by_cases heof : err = some Error.eof
        · rw [if_pos heof, if_pos heof]
          have h0 : ¬ (([] : List Nat).length > 0) := by simp
          rw [if_neg h0]
          by_cases hlen : (buffered ++ lineKeys sep line).length > 0
          · rw [if_pos hlen, ip4SortCount_eq, hbuf1]
          · rw [if_neg hlen]
            have hnil : buffered ++ lineKeys sep line = [] :=
              List.length_eq_zero.1 (by omega)
            rw [← hbuf1, hnil]
            rfl
        · rw [if_neg heof, if_neg heof]
          exact ih env1 rest1 ips1 (S ∪ (lineKeys sep line).toFinset)
            (buffered ++ lineKeys sep line) hS1 hbuf1

theorem seqCapacity_small (s : Int) (h1 : 1 ≤ s) (h2 : s ≤ 536870912) :
    seqCapacity s ≠ 0 ∧ ¬ (s ≤ (256 * 256 * 256 * 256) / 8 ∧ seqCapacity s < 0) := by
  have hz := seqCapacity_zero_iff s (by omega)
  have hn := seqCapacity_nonneg s (by omega)
  refine ⟨fun h => ?_, fun h => ?_⟩
  · rcases hz.1 h with h | h <;> omega
  · omega

theorem seqCapacity_big (s : Int) (h : 536870912 < s) :
    seqCapacity s = 0 ∧ ¬ (s ≤ (256 * 256 * 256 * 256) / 8 ∧ seqCapacity s < 0) := by
  have hz := seqCapacity_zero_iff s (by omega)
  have hn := seqCapacity_nonneg s (by omega)
  refine ⟨hz.2 (Or.inr h), fun h => ?_⟩
  omega

theorem reader_strategies_agree (content : List Nat) (sep : Nat) (w : Int) (env : Env)
    (fuel : Nat) (s1 s2 : Int) (h1 : 1 ≤ s1) (h2 : s1 ≤ 536870912) (h3 : 536870912 < s2) :
    ip4SequentialReader
        { file := content, fileSize := s1, maxGoroutines := w, lineBreak := sep } env fuel =
      ip4SequentialReader
        { file := content, fileSize := s2, maxGoroutines := w, lineBreak := sep } env fuel := by
  obtain ⟨hc1, hn1⟩ := seqCapacity_small s1 h1 h2
  obtain ⟨hc2, hn2⟩ := seqCapacity_big s2 h3
  rw [ip4SequentialReader_eq_loop, ip4SequentialReader_eq_loop]
  simp only
  rw [if_neg hn1, if_neg hn2, hc2, seqBitsetLen_big s2 h3]
  exact (seqLoop_strategy sep (seqCapacity s1) hc1 (seqBitsetLen s1) (fun _ => 0) fuel env content
    (fun _ => 0) ∅ [] bitsetHolds_empty rfl).symm

theorem reader_returns (content : List Nat) (sep : Nat) (w : Int) (env : Env)
    (fuel : Nat) (s : Int) (hs : 0 ≤ s) (hsafe : 1 ≤ s ∨ content = []) :
    (∀ p, ip4SequentialReader
        { file := content, fileSize := s, maxGoroutines := w, lineBreak := sep } env fuel ≠
        some (Except.error p)) ∧
    (content.length < fuel → ∃ r, ip4SequentialReader
        { file := content, fileSize := s, maxGoroutines := w, lineBreak := sep } env fuel =
        some (Except.ok r)) := by
  have hn := seqCapacity_nonneg s hs
  have hnot : ¬ (s ≤ (256 * 256 * 256 * 256) / 8 ∧ seqCapacity s < 0) := fun h => by omega
  rw [ip4SequentialReader_eq_loop]
  simp only
  rw [if_neg hnot]
  apply seqLoop_safe
  by_cases hbig : 536870912 < s
  · exact Or.inr (Or.inl (seqBitsetLen_big s hbig))
  · rcases hsafe with h | h
    · exact Or.inl (seqCapacity_small s h (by omega)).1
    · exact Or.inr (Or.inr h)

/-- C21: the two dedup strategies agree.  For every sequence of 32-bit keys
the bitset insertion loop, run from the empty bitset, ends with the count
`ip4SortCount` returns for the same sequence.  `ip4SequentialReader` run on
the same content in the same environment (cancellation and read failures
included) returns the same result with a recorded size that selects the
buffer and sort (`1 <= size <= 2^29`) and with one that selects the bitset
(`size > 2^29`), and it returns a count or an error for any fuel above the
content length. -/
theorem dedup_strategies_agree (keys : List Nat) (h32 : ∀ k ∈ keys, k < 2 ^ 32) :
    bitsetCount keys = Except.ok (ip4SortCount keys) ∧
    (∀ (content : List Nat) (sep : Nat) (w : Int) (env : Env) (fuel : Nat) (s1 s2 : Int),
      1 ≤ s1 → s1 ≤ 536870912 → 536870912 < s2 →
      ip4SequentialReader
          { file := content, fileSize := s1, maxGoroutines := w, lineBreak := sep } env fuel =
        ip4SequentialReader
          { file := content, fileSize := s2, maxGoroutines := w, lineBreak := sep } env fuel ∧
      (content.length < fuel →
        ∃ r, ip4SequentialReader
          { file := content, fileSize := s2, maxGoroutines := w, lineBreak := sep } env fuel =
          some (Except.ok r))) := by
  refine ⟨?_, ?_⟩
  · rw [bitsetCount_eq keys h32, ip4SortCount_eq]
  · intro content sep w env fuel s1 s2 h1 h2 h3
    exact ⟨reader_strategies_agree content sep w env fuel s1 s2 h1 h2 h3,
      (reader_returns content sep w env fuel s2 (by omega) (Or.inl (by omega))).2⟩

/-- Witness of C21: three keys, two of them equal, give the count 2 with both
strategies, and the file `1.2.3.4`, `1.2.3.4`, `10.0.0.1` gives the count 2
with the recorded size 25 and with a recorded size above `2^29`. -/
theorem dedup_strategies_agree_witness :
    bitsetCount [167772415, 4294967295, 167772415] =
      Except.ok (ip4SortCount [167772415, 4294967295, 167772415]) ∧
    ip4SortCount [167772415, 4294967295, 167772415] = 2 ∧
    ip4SequentialReader
        { file := bytesOf "1.2.3.4\n1.2.3.4\n10.0.0.1\n", fileSize := 25, maxGoroutines := 1,
          lineBreak := 10 } Env.quiet 26 =
      ip4SequentialReader
        { file := bytesOf "1.2.3.4\n1.2.3.4\n10.0.0.1\n", fileSize := 536870913,
          maxGoroutines := 1, lineBreak := 10 } Env.quiet 26 ∧
    ip4SequentialReader
        { file := bytesOf "1.2.3.4\n1.2.3.4\n10.0.0.1\n", fileSize := 25, maxGoroutines := 1,
          lineBreak := 10 } Env.quiet 26 = some (Except.ok (2, none)) :=
  ⟨(dedup_strategies_agree [167772415, 4294967295, 167772415] (by decide)).1, by decide,
   ((dedup_strategies_agree [] (by decide)).2 (bytesOf "1.2.3.4\n1.2.3.4\n10.0.0.1\n") 10 1
      Env.quiet 26 25 536870913 (by decide) (by decide) (by decide)).1,
   by decide⟩

/-- C22: every access of `ip4SequentialReader` to its dedup store is in
bounds when the recorded file size is the length of the content.  The reader
is its loop run with the capacity and the bitset length of the
initialisation; the capacity is 0 only for the file size 0, where every read
returns an empty line and nothing is stored, and for a file size above `2^29`,
where the bitset has `2^29` bytes; a key that parses is below `2^32`, its byte
index `key >> 3` is below `2^29`, and the bitset step on it does not panic.
So the reader never panics, whatever the cancellation and the read failures,
and it returns for any fuel above the content length. -/
theorem ip4SequentialReader_store_in_bounds (ip : IPCounter) (env : Env) (fuel : Nat)
    (hsize : ip.fileSize = ip.file.length) :
    ip4SequentialReader ip env fuel =
      seqLoop ip.lineBreak (seqCapacity ip.fileSize) (seqBitsetLen ip.fileSize) fuel
        { env := env, rest := ip.file, ipsWithIndex := fun _ => 0, ipsWithOutIndex := [],
          uniqueCount := 0 } ∧
    (seqCapacity ip.fileSize = 0 ↔ ip.fileSize = 0 ∨ 536870912 < ip.fileSize) ∧
    (ip.fileSize = 0 →
      ∀ env1 : Env, (readBytesRetry ip.lineBreak 3 env1 ip.file [] none).1.1 = []) ∧
    (536870912 < ip.fileSize → seqBitsetLen ip.fileSize = 536870912) ∧
    (∀ line : List Nat, (ip4BytesToUint32 line).2 = none →
      (ip4BytesToUint32 line).1 < 2 ^ 32 ∧ (ip4BytesToUint32 line).1 >>> 3 < 536870912 ∧
      ∀ (ips : Nat → Nat) (count : Nat),
        ∃ r, bitsetInsert 536870912 ips count (ip4BytesToUint32 line).1 = Except.ok r) ∧
    (∀ p, ip4SequentialReader ip env fuel ≠ some (Except.error p)) ∧
    (ip.file.length < fuel → ∃ r, ip4SequentialReader ip env fuel = some (Except.ok r)) := by
  have hs : 0 ≤ ip.fileSize := by rw [hsize]; exact Int.natCast_nonneg _
  have hret := reader_returns ip.file ip.lineBreak ip.maxGoroutines env fuel ip.fileSize hs (by
    by_cases h0 : ip.fileSize = 0
    · right
      apply List.length_eq_zero.1
      omega
    · left
      omega)
  have hn := seqCapacity_nonneg ip.fileSize hs
  have hnot : ¬ (ip.fileSize ≤ (256 * 256 * 256 * 256) / 8 ∧ seqCapacity ip.fileSize < 0) :=
    fun h => by omega
  refine ⟨?_, seqCapacity_zero_iff ip.fileSize hs, ?_, seqBitsetLen_big ip.fileSize, ?_,
    hret.1, hret.2⟩
  · rw [ip4SequentialReader_eq_loop, if_neg hnot]
  · intro h0 env1
    have hnil : ip.file = [] := by
      apply List.length_eq_zero.1
      omega
    exact ((readBytesRetry_progress ip.lineBreak ip.file 3 env1 ip.file [] none (le_refl _)
      (fun h => by cases h)).2.2 hnil).1
  · intro line hline
    have hlt := ip4BytesToUint32_lt line hline
    have hidx := key_index_lt _ hlt
    exact ⟨hlt, hidx, fun ips count => bitsetInsert_ok _ ips count _ hidx⟩

/-- Witness of C22: the 8-byte file `1.2.3.4` with its separator, with a
transient read failure, and a file of recorded size 0. -/
theorem ip4SequentialReader_store_in_bounds_witness :
    (∀ p, ip4SequentialReader
        { file := bytesOf "1.2.3.4\n", fileSize := 8, maxGoroutines := 1, lineBreak := 10 }
        { ctx := none, readAtFaults := [], readFaults := [some 3] } 9 ≠
        some (Except.error p)) ∧
    (∃ r, ip4SequentialReader
        { file := bytesOf "1.2.3.4\n", fileSize := 8, maxGoroutines := 1, lineBreak := 10 }
        { ctx := none, readAtFaults := [], readFaults := [some 3] } 9 = some (Except.ok r)) ∧
    ip4SequentialReader
        { file := [], fileSize := 0, maxGoroutines := 1, lineBreak := 10 } Env.quiet 1 =
      some (Except.ok (0, none)) :=
  ⟨(ip4SequentialReader_store_in_bounds
      { file := bytesOf "1.2.3.4\n", fileSize := 8, maxGoroutines := 1, lineBreak := 10 }
      { ctx := none, readAtFaults := [], readFaults := [some 3] } 9 (by decide)).2.2.2.2.2.1,
   (ip4SequentialReader_store_in_bounds
      { file := bytesOf "1.2.3.4\n", fileSize := 8, maxGoroutines := 1, lineBreak := 10 }
      { ctx := none, readAtFaults := [], readFaults := [some 3] } 9 (by decide)).2.2.2.2.2.2
      (by decide),
   by decide⟩

/-! ## The decimal value of an octet -/

/-- C23: `asciNumbersToUint8` succeeds exactly on one to three ASCII digits of
value at most 255, leading zeros allowed, and then returns the decimal value
of the string (computed in the natural numbers, so without 8-bit overflow);
on every other input it returns the value 0 with an error.  The ten inputs of
`TestAsciNumbersToUint8` and `256` give the expected results. -/
theorem asciNumbersToUint8_decimal_value :
    (∀ bytes : List Nat,
      ((asciNumbersToUint8 bytes).2 = none ↔
        (1 ≤ bytes.length ∧ bytes.length ≤ 3 ∧ (∀ b ∈ bytes, 48 ≤ b ∧ b ≤ 57) ∧
          octetValue bytes ≤ 255)) ∧
      ((asciNumbersToUint8 bytes).2 = none → (asciNumbersToUint8 bytes).1 = octetValue bytes) ∧
      ((asciNumbersToUint8 bytes).2 ≠ none → (asciNumbersToUint8 bytes).1 = 0)) ∧
    asciNumbersToUint8 (bytesOf "0") = (0, none) ∧
    asciNumbersToUint8 (bytesOf "9") = (9, none) ∧
    asciNumbersToUint8 (bytesOf "10") = (10, none) ∧
    asciNumbersToUint8 (bytesOf "99") = (99, none) ∧
    asciNumbersToUint8 (bytesOf "255") = (255, none) ∧
    asciNumbersToUint8 (bytesOf "007") = (7, none) ∧
    asciNumbersToUint8 (bytesOf "1000") = (0, some Error.byteTooLong) ∧
    asciNumbersToUint8 (bytesOf "12a") = (0, some Error.wrongByte) ∧
    asciNumbersToUint8 (bytesOf "") = (0, some Error.byteTooShort) ∧
    asciNumbersToUint8 (bytesOf "1a2") = (0, some Error.wrongByte) ∧
    asciNumbersToUint8 (bytesOf "256") = (0, some Error.byteTooLong) := by
  refine ⟨?_, by decide, by decide, by decide, by decide, by decide, by decide, by decide,
    by decide, by decide, by decide, by decide⟩
  intro bytes
  by_cases h : IsOctetDigits bytes
  · have hok := ascii_ok bytes h
    rw [hok]
    refine ⟨⟨fun _ => ⟨h.one_le, h.le_three, h.digits, h.value_le⟩, fun _ => rfl⟩,
      fun _ => rfl, fun hne => absurd rfl hne⟩
  · obtain ⟨e, he⟩ := ascii_err bytes h
    rw [he]
    refine ⟨⟨fun hn => ?_, fun hd => ?_⟩, fun hn => ?_, fun _ => rfl⟩
    · cases hn
    · exact absurd ⟨hd.1, hd.2.1, hd.2.2.1, hd.2.2.2⟩ h
    · cases hn

end IPCounterPkg
